import Mathlib

/-!
# Instance initialisation, constructor-option resolution and provide/inject

A shallow embedding of `src/core/instance/init.js` and `src/core/instance/inject.js`.

Conventions of the embedding.

* JavaScript values are the type `Val`. Objects live in a heap (`State.objs`, a reference is an
  index); component definitions (constructors) and component instances are typed records kept in
  their own tables (`State.ctors`, `State.vms`), with the fields the two source files read or write.
* An object is a prototype link and a list of own data properties in stored order. Accessor
  properties, non-writable properties and the members of the built-in prototypes are not part of
  the model; numbers are integers.
* Code that is not in these two files (the option merge function, the lifecycle, event, render and
  state initialisers, hook dispatch, mounting, the observer, user functions held in options) is a
  parameter (`Env`): an arbitrary state transformer that may return a value, throw, or not return.
  An exception carries the state in which it was thrown.
* Loops and recursions whose termination depends on the data (the `$parent` walk, the `super`
  recursion) take a bound; running out of it is the outcome `Res.diverge`.
* The state has two history variables, `uids` and `trace`, which no code reads: they record the
  identities handed out and the calls made, so that statements about order can be made.
-/

set_option autoImplicit false

namespace Vue

/-! ## Values and objects -/

/-- Property keys: strings and symbols. -/
inductive Key where
  | str (s : String)
  | sym (id : Nat)
  deriving DecidableEq, Repr

/-- JavaScript values. `obj` is a reference into the object heap, `fn` an ordinary function,
`ctor` a component constructor (a definition), `vm` a component instance. -/
inductive Val where
  | undefined
  | null
  | bool (b : Bool)
  | num (n : Int)
  | str (s : String)
  | sym (id : Nat)
  | obj (ref : Nat)
  | fn (id : Nat)
  | ctor (id : Nat)
  | vm (id : Nat)
  deriving DecidableEq, Repr

/-- ToBoolean: the value counts as true in a condition. -/
def truthy : Val → Bool
  | .undefined => false
  | .null => false
  | .bool b => b
  | .num n => n != 0
  | .str s => s != ""
  | _ => true

/-- The test `typeof v === 'function'`. -/
def isFunction : Val → Bool
  | .fn _ => true
  | .ctor _ => true
  | _ => false

/-- ToPropertyKey: the key a value denotes when it is used as a property name. For an object the
default `toString` is taken, for a function a fixed name stands for its source text. -/
def toKey : Val → Key
  | .undefined => .str "undefined"
  | .null => .str "null"
  | .bool b => .str (if b then "true" else "false")
  | .num n => .str (toString n)
  | .str s => .str s
  | .sym id => .sym id
  | .obj _ => .str "[object Object]"
  | .fn _ => .str "function"
  | .ctor _ => .str "function"
  | .vm _ => .str "[object Object]"

/-- An own data property. -/
structure Property where
  key : Key
  enumerable : Bool
  value : Val
  deriving DecidableEq, Repr

/-- An object: its prototype link and its own properties. -/
structure Obj where
  proto : Option Nat
  props : List Property
  deriving DecidableEq, Repr

/-- The value of an own property, if there is one. -/
def getOwn? : List Property → Key → Option Val
  | [], _ => none
  | p :: ps, k => if p.key = k then some p.value else getOwn? ps k

/-- The assignment `o[k] = v` on the own properties: an existing property keeps its place and
takes the value, a new one is added at the end, enumerable. -/
def setOwn : List Property → Key → Val → List Property
  | [], k, v => [⟨k, true, v⟩]
  | p :: ps, k, v => if p.key = k then { p with value := v } :: ps else p :: setOwn ps k v

/-- The keys `Reflect.ownKeys` lists: every own key. -/
def ownKeys (ps : List Property) : List Key := ps.map (fun p => p.key)

/-- A string key of an enumerable property. -/
def Property.listed (p : Property) : Bool :=
  p.enumerable && (match p.key with | .str _ => true | .sym _ => false)

/-- The keys `Object.keys` lists: the own enumerable string keys. -/
def enumKeys (ps : List Property) : List Key := (ps.filter Property.listed).map (fun p => p.key)

/-- Own properties of a heap object; a reference outside the heap reads as an empty object. -/
def ownProps (objs : List Obj) (r : Nat) : List Property :=
  match objs[r]? with
  | some o => o.props
  | none => []

/-- Property lookup along the prototype chain, at most `n` objects deep. -/
def getChain (objs : List Obj) : Nat → Nat → Key → Option Val
  | 0, _, _ => none
  | n + 1, r, k =>
    match objs[r]? with
    | none => none
    | some o =>
      match getOwn? o.props k with
      | some v => some v
      | none =>
        match o.proto with
        | none => none
        | some p => getChain objs n p k

/-- The lookup `o[k]` on a heap object (own property first, then the prototype chain; a chain is
never longer than the heap). -/
def getProp (objs : List Obj) (r : Nat) (k : Key) : Val :=
  (getChain objs objs.length r k).getD .undefined

/-- The test `k in o` on a heap object. -/
def hasProp (objs : List Obj) (r : Nat) (k : Key) : Bool :=
  (getChain objs objs.length r k).isSome

/-- The assignment `o[k] = v` on a heap object. -/
def setProp (objs : List Obj) (r : Nat) (k : Key) (v : Val) : List Obj :=
  match objs[r]? with
  | some o => objs.set r { o with props := setOwn o.props k v }
  | none => objs

/-! ## Outcomes, state and environment -/

/-- Exceptions: the engine's `TypeError`, and whatever code outside the two files throws. -/
inductive Exn where
  | typeError
  | user (code : Nat)
  deriving DecidableEq, Repr

/-- A component definition (constructor) with its cached configuration snapshots. A definition
made by extension carries all five fields; on a root definition, which has no `super`, the
other three are never read. -/
structure Ctor where
  options : Nat
  super : Option Nat
  superOptions : Option Nat
  extendOptions : Nat
  sealedOptions : Nat
  deriving DecidableEq, Repr

/-- A component instance: the fields the two files read or write (`options` is `$options`,
`parent` is `$parent`). -/
structure Instance where
  constructor : Nat
  _uid : Option Nat
  _isVue : Bool
  options : Val
  _renderProxy : Val
  _self : Val
  parent : Option Nat
  _provided : Val
  deriving DecidableEq, Repr

/-- What `_init` and its helpers call, in the order they call it: calls that leave the two files
(with their arguments; a merge also with the object it returned) and entries into the helpers
of the two files. -/
inductive Event where
  | resolveOptions (vm : Nat) (internal : Bool)
  | mergeOptions (parent : Nat) (child : Val) (vm : Option Nat) (result : Nat)
  | initProxy (vm : Nat)
  | initLifecycle (vm : Nat)
  | initEvents (vm : Nat)
  | initRender (vm : Nat)
  | callHook (vm : Nat) (hook : String)
  | initInjections (vm : Nat)
  | initState (vm : Nat)
  | initProvide (vm : Nat)
  | mount (vm : Nat) (el : Val)
  | toggleObserving (value : Bool)
  | defineReactive (vm : Nat) (key : Key) (val : Val) (customSetter : Bool)
  | call (f : Val) (this : Nat)
  | warn (msg : String) (vm : Nat)
  deriving DecidableEq, Repr

/-- Program state. `uid` is the counter private to `init.js`; `uids` and `trace` are history
variables: the values handed out as `_uid`, oldest first, and the calls made so far. -/
structure State where
  uid : Nat
  uids : List Nat
  trace : List Event
  objs : List Obj
  ctors : List Ctor
  vms : List Instance
  deriving DecidableEq, Repr

/-- Outcome of running a piece of code on the state: it returns, it throws, or it does not
return. An exception leaves with the state as it is at that moment: what was written before
the throw stays written. -/
inductive Res (α : Type) where
  | ok (a : α)
  | throw (e : Exn) (st : State)
  | diverge
  deriving DecidableEq, Repr

/-- Sequencing: the continuation runs only after a normal return. -/
def Res.bind {α β : Type} (r : Res α) (f : α → Res β) : Res β :=
  match r with
  | .ok a => f a
  | .throw e st => .throw e st
  | .diverge => .diverge

instance decEqExcept {α : Type} [DecidableEq α] : DecidableEq (Except Exn α)
  | .ok a, .ok b =>
    if h : a = b then isTrue (by rw [h]) else isFalse (fun e => h (Except.ok.inj e))
  | .error a, .error b =>
    if h : a = b then isTrue (by rw [h]) else isFalse (fun e => h (Except.error.inj e))
  | .ok _, .error _ => isFalse (fun e => Except.noConfusion e)
  | .error _, .ok _ => isFalse (fun e => Except.noConfusion e)

/-- A read made in state `st`: a failed read is an exception thrown in that state. -/
def Res.ofExcept {α : Type} (st : State) (r : Except Exn α) : Res α :=
  match r with
  | .ok a => .ok a
  | .error e => .throw e st

/-- The code outside the two files. `hasSymbol` and `production` are the constants `hasSymbol`
and `process.env.NODE_ENV === 'production'`; `mergeOptions` is the option merge function; `ext`
is every other outside call, named by its event. -/
structure Env where
  hasSymbol : Bool
  production : Bool
  mergeOptions : Nat → Val → Option Nat → State → Res (State × Nat)
  ext : Event → State → Res (State × Val)

/-- Record a call in the history. -/
def State.log (st : State) (e : Event) : State := { st with trace := st.trace ++ [e] }

/-- An outside call. The callee does not see the caller's history, and whatever it does, the
caller's history after the call is the history before it followed by this call: the calls the
callee makes itself are its own. -/
def callExt (env : Env) (e : Event) (st : State) : Res (State × Val) :=
  match env.ext e { st with trace := [] } with
  | .ok (st1, v) => .ok ({ st1 with trace := st.trace ++ [e] }, v)
  | .throw x st1 => .throw x { st1 with trace := st.trace ++ [e] }
  | .diverge => .diverge

/-- The call `mergeOptions(parent, child, vm)`, recorded like any outside call, together with
the object it returned. -/
def callMerge (env : Env) (parent : Nat) (child : Val) (vm : Option Nat) (st : State) :
    Res (State × Nat) :=
  match env.mergeOptions parent child vm { st with trace := [] } with
  | .ok (st1, r) => .ok ({ st1 with trace := st.trace ++ [.mergeOptions parent child vm r] }, r)
  | .throw x st1 => .throw x { st1 with trace := st.trace }
  | .diverge => .diverge

/-- Modelled from the spec: the diagnostic sink `warn` (core/util/debug), "a non-fatal reporting
sink; never throws, never alters control flow". Its only effect is the recorded call. -/
def warn (msg : String) (vm : Nat) (st : State) : State := st.log (.warn msg vm)

/-! ## Reading values -/

/-- The read `v[k]`: a `TypeError` on `undefined` and `null`, the heap lookup on an object,
`undefined` on anything else. -/
def getV (objs : List Obj) (v : Val) (k : Key) : Except Exn Val :=
  match v with
  | .undefined => .error .typeError
  | .null => .error .typeError
  | .obj r => .ok (getProp objs r k)
  | _ => .ok .undefined

/-- The test `k in v`: a `TypeError` unless `v` is an object. -/
def hasIn (objs : List Obj) (k : Key) (v : Val) : Except Exn Bool :=
  match v with
  | .obj r => .ok (hasProp objs r k)
  | .fn _ => .ok false
  | .ctor _ => .ok false
  | .vm _ => .ok false
  | _ => .error .typeError

/-- Modelled from the spec: `hasOwn` of shared/util, "has an own entry for the key"
(`Object.prototype.hasOwnProperty.call(obj, key)`), on a value that is not `undefined` or
`null`. -/
def hasOwn (objs : List Obj) (v : Val) (k : Key) : Bool :=
  match v with
  | .obj r => (getOwn? (ownProps objs r) k).isSome
  | _ => false

/-- The read `v[k]` of a value for which `hasOwn` holds. -/
def readOwn (objs : List Obj) (v : Val) (k : Key) : Val :=
  match v with
  | .obj r => (getOwn? (ownProps objs r) k).getD .undefined
  | _ => .undefined

/-- The call `Reflect.ownKeys(v)`. -/
def reflectOwnKeys (objs : List Obj) (v : Val) : Except Exn (List Key) :=
  match v with
  | .obj r => .ok (ownKeys (ownProps objs r))
  | .fn _ => .ok []
  | .ctor _ => .ok []
  | .vm _ => .ok []
  | _ => .error .typeError

/-- The call `Object.keys(v)` of an engine without symbols. -/
def objectKeys (objs : List Obj) (v : Val) : Except Exn (List Key) :=
  match v with
  | .obj r => .ok (enumKeys (ownProps objs r))
  | .fn _ => .ok []
  | .ctor _ => .ok []
  | .vm _ => .ok []
  | _ => .error .typeError

/-- The conversion of a key to a string that a template literal makes: a symbol has none, the
attempt is a `TypeError`. -/
def keyToString : Key → Except Exn String
  | .str s => .ok s
  | .sym _ => .error .typeError

/-! ## inject.js -/

/-- The loop `while (source)` of `resolveInject` (inject.js 80-87) for one source key: the first
instance from `source` upwards whose `_provided` is truthy and has an own entry for the key,
with the value read there; `none` when the walk ends with `source` empty. -/
def walk (st : State) (provideKey : Val) : Nat → Option Nat → Res (Option (Nat × Val))
  | _, none => .ok none
  | 0, some _ => .diverge
  | fuel + 1, some i =>
    match st.vms[i]? with
    | none => .ok none
    | some source =>
      if truthy source._provided && hasOwn st.objs source._provided (toKey provideKey) then
        .ok (some (i, readOwn st.objs source._provided (toKey provideKey)))
      else
        walk st provideKey fuel source.parent

/-- The body of the loop over the declared keys (inject.js 73-99) for one key; `result` is the
object under construction. -/
def resolveInjectKey (env : Env) (fuel : Nat) (inject : Val) (vm : Nat) (key : Key)
    (st : State) (result : List Property) : Res (State × List Property) :=
  if key = .str "__ob__" then .ok (st, result) else
  (Res.ofExcept st (getV st.objs inject key)).bind fun decl =>
  (Res.ofExcept st (getV st.objs decl (.str "from"))).bind fun provideKey =>
  (walk st provideKey fuel (some vm)).bind fun found =>
  match found with
  | some (_, v) => .ok (st, setOwn result key v)
  | none =>
    (Res.ofExcept st (hasIn st.objs (.str "default") decl)).bind fun hasDefault =>
    if hasDefault then
      (Res.ofExcept st (getV st.objs decl (.str "default"))).bind fun provideDefault =>
      if isFunction provideDefault then
        (callExt env (.call provideDefault vm) st).bind fun (st1, v) =>
        .ok (st1, setOwn result key v)
      else .ok (st, setOwn result key provideDefault)
    else if !env.production then
      (Res.ofExcept st (keyToString key)).bind fun name =>
      .ok (warn ("Injection \"" ++ name ++ "\" not found") vm st, result)
    else .ok (st, result)

/-- The loop `for (let i = 0; i < keys.length; i++)` of `resolveInject`. -/
def resolveInjectLoop (env : Env) (fuel : Nat) (inject : Val) (vm : Nat) :
    List Key → State → List Property → Res (State × List Property)
  | [], st, result => .ok (st, result)
  | key :: keys, st, result =>
    (resolveInjectKey env fuel inject vm key st result).bind fun (st1, result1) =>
    resolveInjectLoop env fuel inject vm keys st1 result1

/-- The function `resolveInject(inject, vm)` (inject.js 62-103): `none` is the absent result,
`some result` the own properties of the object returned. -/
def resolveInject (env : Env) (fuel : Nat) (inject : Val) (vm : Nat) (st : State) :
    Res (State × Option (List Property)) :=
  if truthy inject then
    (Res.ofExcept st
      (if env.hasSymbol then reflectOwnKeys st.objs inject else objectKeys st.objs inject)).bind
      fun keys =>
    (resolveInjectLoop env fuel inject vm keys st []).bind fun (st1, result) =>
    .ok (st1, some result)
  else .ok (st, none)

/-! ## init.js: constructor options -/

/-- The keys a `for (key in o)` loop visits from object `r` on, at most `n` objects deep: the
enumerable string keys of each object of the prototype chain that no object before it has. -/
def forInChain (objs : List Obj) : Nat → Nat → List Key → List Key
  | 0, _, _ => []
  | n + 1, r, seen =>
    match objs[r]? with
    | none => []
    | some o =>
      ((o.props.filter fun p => p.listed && !seen.contains p.key).map fun p => p.key) ++
        (match o.proto with
          | none => []
          | some p => forInChain objs n p (seen ++ ownKeys o.props))

/-- The keys `for (key in o)` visits on a heap object. -/
def forInKeys (objs : List Obj) (r : Nat) : List Key := forInChain objs objs.length r []

/-- The assignment `target[k] = v` in strict-mode code: a `TypeError` on a primitive value; own
properties of functions and instances are not kept. -/
def setV (objs : List Obj) (target : Val) (k : Key) (v : Val) : Except Exn (List Obj) :=
  match target with
  | .obj r => .ok (setProp objs r k v)
  | .fn _ => .ok objs
  | .ctor _ => .ok objs
  | .vm _ => .ok objs
  | _ => .error .typeError

/-- Modelled from the spec: `extend(to, _from)` of shared/util, which "folds the fields" of
`_from` into `to` (`for (key in _from) to[key] = _from[key]`); `_from` is a local object given
by its own properties. -/
def extend (objs : List Obj) (target : Nat) (src : List Property) : List Obj :=
  (src.filter Property.listed).foldl (fun h p => setProp h target p.key p.value) objs

/-- The definition at an index; reading a field of a definition that is not there is a
`TypeError`. -/
def getCtor (st : State) (id : Nat) : Except Exn Ctor :=
  match st.ctors[id]? with
  | some c => .ok c
  | none => .error .typeError

/-- A write to fields of the definition at an index. -/
def modifyCtor (st : State) (id : Nat) (f : Ctor → Ctor) : State :=
  match st.ctors[id]? with
  | some c => { st with ctors := st.ctors.set id (f c) }
  | none => st

/-- The loop of `resolveModifiedOptions` (init.js 146-151) over the keys of `latest`. -/
def modifiedLoop (objs : List Obj) (latest sealed : Nat) :
    List Key → Option (List Property) → Option (List Property)
  | [], modified => modified
  | key :: keys, modified =>
    if getProp objs latest key ≠ getProp objs sealed key then
      modifiedLoop objs latest sealed keys
        (some (setOwn (modified.getD []) key (getProp objs latest key)))
    else modifiedLoop objs latest sealed keys modified

/-- The function `resolveModifiedOptions(Ctor)` (init.js 142-153): `none` is `undefined`,
`some modified` the own properties of the object returned. -/
def resolveModifiedOptions (st : State) (c : Ctor) : Option (List Property) :=
  modifiedLoop st.objs c.options c.sealedOptions (forInKeys st.objs c.options) none

/-- Lines 134-136 of `resolveConstructorOptions`: a configuration with a truthy name gets the
definition registered under that name in its `components`. -/
def registerSelf (ctorId : Nat) (options : Nat) (st : State) : Res State :=
  let name := getProp st.objs options (.str "name")
  if truthy name then
    (Res.ofExcept st (setV st.objs (getProp st.objs options (.str "components")) (toKey name)
      (.ctor ctorId))).bind fun objs => .ok { st with objs := objs }
  else .ok st

/-- Lines 123-136 of `resolveConstructorOptions`: the parent configuration changed, the
configuration of the definition is computed anew. -/
def recompute (env : Env) (ctorId : Nat) (superOptions : Nat) (st : State) : Res (State × Nat) :=
  let st1 := modifyCtor st ctorId fun c => { c with superOptions := some superOptions }
  (Res.ofExcept st1 (getCtor st1 ctorId)).bind fun c =>
  let st2 :=
    match resolveModifiedOptions st1 c with
    | some modifiedOptions => { st1 with objs := extend st1.objs c.extendOptions modifiedOptions }
    | none => st1
  (callMerge env superOptions (.obj c.extendOptions) none st2).bind fun (st3, options) =>
  (registerSelf ctorId options (modifyCtor st3 ctorId fun c => { c with options := options })).bind
    fun st4 => .ok (st4, options)

/-- The function `resolveConstructorOptions(Ctor)` (init.js 112-140); the bound counts the
calls along the `super` chain. -/
def resolveConstructorOptions (env : Env) : Nat → Nat → State → Res (State × Nat)
  | 0, _, _ => .diverge
  | fuel + 1, ctorId, st =>
    (Res.ofExcept st (getCtor st ctorId)).bind fun c =>
    let options := c.options
    match c.super with
    | none => .ok (st, options)
    | some sup =>
      (resolveConstructorOptions env fuel sup st).bind fun (st1, superOptions) =>
      (Res.ofExcept st1 (getCtor st1 ctorId)).bind fun c1 =>
      if some superOptions ≠ c1.superOptions then recompute env ctorId superOptions st1
      else .ok (st1, options)

/-! ## inject.js: installation and provide -/

/-- The instance at an index; reading a field of an instance that is not there is a
`TypeError`. -/
def getVm (st : State) (vm : Nat) : Except Exn Instance :=
  match st.vms[vm]? with
  | some i => .ok i
  | none => .error .typeError

/-- A write to fields of the instance at an index. -/
def modifyVm (st : State) (vm : Nat) (f : Instance → Instance) : State :=
  match st.vms[vm]? with
  | some i => { st with vms := st.vms.set vm (f i) }
  | none => st

/-- The loop `Object.keys(result).forEach(...)` of `initInjections` (inject.js 29-45): one call
of `defineReactive` for each key, with a warning setter unless the build is a production
build. -/
def defineLoop (env : Env) (vm : Nat) (result : List Property) : List Key → State → Res State
  | [], st => .ok st
  | key :: keys, st =>
    (callExt env
      (.defineReactive vm key ((getOwn? result key).getD .undefined) (!env.production)) st).bind
      fun (st1, _) => defineLoop env vm result keys st1

/-- The function `initInjections(vm)` (inject.js 22-48). -/
def initInjections (env : Env) (fuel : Nat) (vm : Nat) (st : State) : Res State :=
  (Res.ofExcept st (getVm st vm)).bind fun inst =>
  (Res.ofExcept st (getV st.objs inst.options (.str "inject"))).bind fun inject =>
  (resolveInject env fuel inject vm st).bind fun (st1, result) =>
  match result with
  | some result =>
    (callExt env (.toggleObserving false) st1).bind fun (st2, _) =>
    (defineLoop env vm result (enumKeys result) st2).bind fun st3 =>
    (callExt env (.toggleObserving true) st3).bind fun (st4, _) => .ok st4
  | none => .ok st1

/-- The function `initProvide(vm)` (inject.js 8-15). -/
def initProvide (env : Env) (vm : Nat) (st : State) : Res State :=
  (Res.ofExcept st (getVm st vm)).bind fun inst =>
  (Res.ofExcept st (getV st.objs inst.options (.str "provide"))).bind fun provide =>
  if truthy provide then
    if isFunction provide then
      (callExt env (.call provide vm) st).bind fun (st1, v) =>
      .ok (modifyVm st1 vm fun i => { i with _provided := v })
    else .ok (modifyVm st vm fun i => { i with _provided := provide })
  else .ok st

/-! ## init.js: `_init` -/

/-- The assignment `o[k] = v` on a heap object, as a step on the state. -/
def assign (st : State) (r : Nat) (k : Key) (v : Val) : State :=
  { st with objs := setProp st.objs r k v }

/-- The function `initInternalComponent(vm, options)` (init.js 91-109). -/
def initInternalComponent (vm : Nat) (options : Val) (st : State) : Res State :=
  (Res.ofExcept st (getVm st vm)).bind fun inst =>
  (Res.ofExcept st (getCtor st inst.constructor)).bind fun c =>
  let opts := st.objs.length
  let st1 := modifyVm { st with objs := st.objs ++ [⟨some c.options, []⟩] } vm
    fun i => { i with options := .obj opts }
  (Res.ofExcept st1 (getV st1.objs options (.str "_parentVnode"))).bind fun parentVnode =>
  (Res.ofExcept st1 (getV st1.objs options (.str "parent"))).bind fun parent =>
  let st2 := assign st1 opts (.str "parent") parent
  let st3 := assign st2 opts (.str "_parentVnode") parentVnode
  (Res.ofExcept st3 (getV st3.objs parentVnode (.str "componentOptions"))).bind
    fun vnodeComponentOptions =>
  (Res.ofExcept st3 (getV st3.objs vnodeComponentOptions (.str "propsData"))).bind
    fun propsData =>
  let st4 := assign st3 opts (.str "propsData") propsData
  (Res.ofExcept st4 (getV st4.objs vnodeComponentOptions (.str "listeners"))).bind
    fun listeners =>
  let st5 := assign st4 opts (.str "_parentListeners") listeners
  (Res.ofExcept st5 (getV st5.objs vnodeComponentOptions (.str "children"))).bind
    fun children =>
  let st6 := assign st5 opts (.str "_renderChildren") children
  (Res.ofExcept st6 (getV st6.objs vnodeComponentOptions (.str "tag"))).bind fun tag =>
  let st7 := assign st6 opts (.str "_componentTag") tag
  (Res.ofExcept st7 (getV st7.objs options (.str "render"))).bind fun render =>
  if truthy render then
    let st8 := assign st7 opts (.str "render") render
    (Res.ofExcept st8 (getV st8.objs options (.str "staticRenderFns"))).bind
      fun staticRenderFns =>
    .ok (assign st8 opts (.str "staticRenderFns") staticRenderFns)
  else .ok st7

/-- The condition `options && options._isComponent` (init.js 31). -/
def isInternal (objs : List Obj) (options : Val) : Bool :=
  truthy options &&
    (match getV objs options (.str "_isComponent") with
      | .ok tag => truthy tag
      | .error _ => false)

/-- The value `options || {}` (init.js 46): the options when truthy, else a new empty object. -/
def optionsOrEmpty (options : Val) (st : State) : State × Val :=
  if truthy options then (st, options)
  else ({ st with objs := st.objs ++ [⟨none, []⟩] }, .obj st.objs.length)

/-- Lines 31-49 of `_init`: the configuration of the instance. -/
def initOptions (env : Env) (fuel : Nat) (vm : Nat) (options : Val) (st : State) : Res State :=
  if isInternal st.objs options then
    initInternalComponent vm options (st.log (.resolveOptions vm true))
  else
    let st0 := st.log (.resolveOptions vm false)
    (Res.ofExcept st0 (getVm st0 vm)).bind fun inst =>
    (resolveConstructorOptions env fuel inst.constructor st0).bind fun (st1, base) =>
    let (st2, child) := optionsOrEmpty options st1
    (callMerge env base child (some vm) st2).bind fun (st3, merged) =>
    .ok (modifyVm st3 vm fun i => { i with options := .obj merged })

/-- Line 24 of `_init`, `vm._uid = uid++`: the instance gets the current value of the counter,
the counter goes up by one. -/
def assignUid (vm : Nat) (st : State) : State :=
  modifyVm { st with uid := st.uid + 1, uids := st.uids ++ [st.uid] } vm
    fun i => { i with _uid := some st.uid }

/-- Lines 84-87 of `_init`: mount at once when the configuration has an `el`. -/
def mountIfEl (env : Env) (vm : Nat) (st : State) : Res State :=
  (Res.ofExcept st (getVm st vm)).bind fun inst =>
  (Res.ofExcept st (getV st.objs inst.options (.str "el"))).bind fun el =>
  if truthy el then
    (callExt env (.mount vm el) st).bind fun (st1, _) => .ok st1
  else .ok st

/-- Lines 50-87 of `_init`: everything after the configuration of the instance. -/
def initAfterOptions (env : Env) (fuel : Nat) (vm : Nat) (st : State) : Res State :=
  (if !env.production then
      (callExt env (.initProxy vm) st).bind fun (st1, _) => .ok st1
    else .ok (modifyVm st vm fun i => { i with _renderProxy := .vm vm })).bind fun st =>
  let st := modifyVm st vm fun i => { i with _self := .vm vm }
  (callExt env (.initLifecycle vm) st).bind fun (st, _) =>
  (callExt env (.initEvents vm) st).bind fun (st, _) =>
  (callExt env (.initRender vm) st).bind fun (st, _) =>
  (callExt env (.callHook vm "beforeCreate") st).bind fun (st, _) =>
  (initInjections env fuel vm (st.log (.initInjections vm))).bind fun st =>
  (callExt env (.initState vm) st).bind fun (st, _) =>
  (initProvide env vm (st.log (.initProvide vm))).bind fun st =>
  (callExt env (.callHook vm "created") st).bind fun (st, _) =>
  mountIfEl env vm st

/-- Lines 28-87 of `_init`: everything after the identity has been assigned. -/
def initRest (env : Env) (fuel : Nat) (vm : Nat) (options : Val) (st : State) : Res State :=
  (initOptions env fuel vm options (modifyVm st vm fun i => { i with _isVue := true })).bind
    (initAfterOptions env fuel vm)

/-- The method `Vue.prototype._init(options)` (init.js 20-88) on the instance `vm`. -/
def _init (env : Env) (fuel : Nat) (vm : Nat) (options : Val) (st : State) : Res State :=
  initRest env fuel vm options (assignUid vm st)

/-! ## The words of the specification about injection -/

/-- The entry of a provided-values map for a key: the map is an object and has an own entry. -/
def entryOf (objs : List Obj) (map : Val) (k : Key) : Option Val :=
  match map with
  | .obj r => getOwn? (ownProps objs r) k
  | _ => none

/-- The value an instance provides under a key: the entry of its provided-values map. -/
def provided (st : State) (i : Nat) (k : Key) : Option Val :=
  match st.vms[i]? with
  | some inst => entryOf st.objs inst._provided k
  | none => none

/-- The list is the `$parent` chain from `source` upwards (the instance first, the root last); a
chain with a cycle has no such list. -/
def isChain (st : State) : Option Nat → List Nat → Bool
  | none, [] => true
  | some i, j :: rest =>
    i == j && (match st.vms[i]? with
      | some inst => isChain st inst.parent rest
      | none => false)
  | _, _ => false

/-- The first instance of a chain that provides the key, with the value it holds. -/
def firstProvider (st : State) (k : Key) : List Nat → Option (Nat × Val)
  | [] => none
  | i :: rest =>
    match provided st i k with
    | some v => some (i, v)
    | none => firstProvider st k rest

/-- The outside functions called with a receiver (default producers, `provide` functions) leave
the heap and the instance table as they are. A function that builds its result returns a
reference to an object of the heap that nothing else refers to. -/
def Env.CallsPure (env : Env) : Prop :=
  ∀ f this st st1 v, env.ext (.call f this) st = .ok (st1, v) →
    st1.objs = st.objs ∧ st1.vms = st.vms

/-- The keys of the declarations object in the order `resolveInject` visits them. -/
def declaredKeys (env : Env) (objs : List Obj) (inj : Nat) : List Key :=
  if env.hasSymbol then ownKeys (ownProps objs inj) else enumKeys (ownProps objs inj)

/-! ## A concrete tree of instances

The chain Root → A → B → Leaf of the specification: Root provides `{x: 1}`, A provides `{x: 2}`,
B and Leaf provide nothing. The heap also holds several declaration objects for Leaf. -/

/-- An environment whose outside calls change nothing: function 0 returns 7, every other call
returns `undefined`; development build, engine with symbols. -/
def quietEnv : Env :=
  { hasSymbol := true
    production := false
    mergeOptions := fun parent _ _ st => .ok (st, parent)
    ext := fun e st =>
      match e with
      | .call (.fn 0) _ => .ok (st, .num 7)
      | _ => .ok (st, .undefined) }

/-- The heap of the example. -/
def treeObjs : List Obj :=
  [ ⟨none, [⟨.str "x", true, .num 1⟩]⟩,
    ⟨none, [⟨.str "x", true, .num 2⟩]⟩,
    ⟨none, [⟨.str "foo", true, .obj 3⟩]⟩,
    ⟨none, [⟨.str "from", true, .str "x"⟩]⟩,
    ⟨none, [⟨.str "__ob__", true, .obj 3⟩]⟩,
    ⟨none, [⟨.str "from", true, .str "y"⟩, ⟨.str "default", true, .num 5⟩]⟩,
    ⟨none, [⟨.str "bar", true, .obj 5⟩]⟩,
    ⟨none, [⟨.str "__ob__", true, .obj 5⟩]⟩,
    ⟨none, [⟨.str "from", true, .str "y"⟩]⟩,
    ⟨none, [⟨.sym 1, true, .obj 8⟩]⟩,
    ⟨none, [⟨.str "from", true, .str "y"⟩, ⟨.str "default", true, .fn 0⟩]⟩,
    ⟨none, [⟨.str "baz", true, .obj 10⟩]⟩,
    ⟨none, [⟨.str "qux", true, .obj 8⟩]⟩ ]

/-- An instance of definition 0 before `_init` has run on it. -/
def freshVm (parent : Option Nat) (provided : Val) : Instance :=
  { constructor := 0, _uid := none, _isVue := false, options := .undefined,
    _renderProxy := .undefined, _self := .undefined, parent := parent, _provided := provided }

/-- The state of the example: instances 0 (Root), 1 (A), 2 (B), 3 (Leaf). -/
def treeState : State :=
  { uid := 0, uids := [], trace := [], objs := treeObjs, ctors := [],
    vms := [freshVm none (.obj 0), freshVm (some 0) (.obj 1), freshVm (some 1) .undefined,
      freshVm (some 2) .undefined] }

/-! ## The words of the specification about constructor options -/

/-- The list is the `super` chain from a definition upwards (the definition first, the root
definition last); a chain with a cycle has no such list. -/
def isSuperChain (st : State) : Option Nat → List Nat → Bool
  | none, [] => true
  | some i, j :: rest =>
    i == j && (match st.ctors[i]? with
      | some c => isSuperChain st c.super rest
      | none => false)
  | _, _ => false

/-- The merge function does not write the fields of any definition. -/
def Env.MergeKeepsCtors (env : Env) : Prop :=
  ∀ parent child vm st st1 r, env.mergeOptions parent child vm st = .ok (st1, r) →
    st1.ctors = st.ctors

/-- The cache invariant of a definition with a parent: its `options` is the object that a call
`mergeOptions(superOptions, extendOptions)` on its current `superOptions` and its
`extendOptions` returned. -/
def CacheInv (st : State) (d : Nat) : Prop :=
  ∃ c p, st.ctors[d]? = some c ∧ c.superOptions = some p ∧
    Event.mergeOptions p (.obj c.extendOptions) none c.options ∈ st.trace

/-- Modelled from the spec: the option merge function (core/util/options) on configurations
whose fields all take the default strategy, "child overrides parent" (no lifecycle hook and no
registry among them; `mergeRegistry` is the merge for configurations with a nested-component
registry); it "returns a new object; never mutates `parent` or `child`". -/
def mergeDefault (parent : Nat) (child : Val) (_vm : Option Nat) (st : State) :
    Res (State × Nat) :=
  let childKeys :=
    match child with
    | .obj c => forInKeys st.objs c
    | _ => []
  let childVal := fun k =>
    match child with
    | .obj c => getProp st.objs c k
    | _ => .undefined
  let keys := forInKeys st.objs parent ++
    childKeys.filter fun k => !(getOwn? (ownProps st.objs parent) k).isSome
  let props := keys.foldl
    (fun acc k =>
      setOwn acc k (if childVal k = .undefined then getProp st.objs parent k else childVal k))
    []
  .ok ({ st with objs := st.objs ++ [⟨none, props⟩] }, st.objs.length)

/-- The environment `quietEnv` with the default-strategy merge. -/
def mergeEnv : Env := { quietEnv with mergeOptions := mergeDefault }

/-- Two definitions: 0 is `Base` with configuration `{a: 1}` (object 0); 1 is `Child`, made by
extending `Base` with `{b: 2}` (object 2), with configuration `{a: 1, b: 2}` (object 1), sealed
copy (object 3) and cached parent configuration object 0. The history holds the merge that made
`Child`. -/
def defsState : State :=
  { uid := 0, uids := [], trace := [.mergeOptions 0 (.obj 2) none 1],
    objs :=
      [ ⟨none, [⟨.str "a", true, .num 1⟩]⟩,
        ⟨none, [⟨.str "a", true, .num 1⟩, ⟨.str "b", true, .num 2⟩]⟩,
        ⟨none, [⟨.str "b", true, .num 2⟩]⟩,
        ⟨none, [⟨.str "a", true, .num 1⟩, ⟨.str "b", true, .num 2⟩]⟩ ],
    ctors :=
      [ { options := 0, super := none, superOptions := none, extendOptions := 0,
          sealedOptions := 0 },
        { options := 1, super := some 0, superOptions := some 0, extendOptions := 2,
          sealedOptions := 3 } ],
    vms := [] }

/-- The heap the recomputation of a definition hands to the merge: the late-modified fields, if
there are any, have been folded into `extendOptions`. -/
def foldedObjs (st : State) (c : Ctor) : List Obj :=
  match resolveModifiedOptions st c with
  | some modifiedOptions => extend st.objs c.extendOptions modifiedOptions
  | none => st.objs

/-- Along the chain every definition's cached `superOptions` is the `options` of its parent: no
configuration of the chain is out of date. -/
def settled (st : State) : List Nat → Bool
  | [] => false
  | [r] =>
    match st.ctors[r]? with
    | some c => c.super.isNone
    | none => false
  | d :: s :: rest =>
    (match st.ctors[d]?, st.ctors[s]? with
      | some c, some cs => c.super == some s && c.superOptions == some cs.options
      | _, _ => false) && settled st (s :: rest)

/-- The fields of a definition that `resolveConstructorOptions` never writes. -/
def Ctor.fixed (c : Ctor) : Option Nat × Nat × Nat := (c.super, c.extendOptions, c.sealedOptions)

/-- The state `defsState` after `Base`'s configuration has been replaced by a new object, number
4, that carries the new field `c` (what a global mixin does). -/
def baseReplaced : State :=
  { defsState with
    objs := defsState.objs ++ [⟨none, [⟨.str "a", true, .num 1⟩, ⟨.str "c", true, .num 3⟩]⟩],
    ctors := defsState.ctors.set 0 ⟨4, none, none, 0, 0⟩ }

/-- The state `baseReplaced` after `Child` has been resolved again: its configuration is the
new object 5, `{a: 1, c: 3, b: 2}`, and it caches object 4 as parent configuration. -/
def childRecomputed : State :=
  { baseReplaced with
    trace := baseReplaced.trace ++ [.mergeOptions 4 (.obj 2) none 5],
    objs := baseReplaced.objs ++
      [⟨none, [⟨.str "a", true, .num 1⟩, ⟨.str "c", true, .num 3⟩, ⟨.str "b", true, .num 2⟩]⟩],
    ctors := baseReplaced.ctors.set 1 ⟨5, some 0, some 4, 2, 3⟩ }

/-- The state `defsState` after the field `c` has been added to `Base`'s configuration object in
place. -/
def baseMutated : State :=
  { defsState with objs := setProp defsState.objs 0 (.str "c") (.num 3) }

/-- A list of own properties as an object literal or a sequence of assignments builds it: every
property enumerable under a string key, no key twice. -/
def PlainProps (m : List Property) : Prop :=
  (∀ p ∈ m, p.listed = true) ∧ (ownKeys m).Nodup

/-- The field `k` is late-modified on a definition: it is a field of the definition's current
`options` and its value there is not identical to the value in `sealedOptions`. -/
def lateModified (objs : List Obj) (c : Ctor) (k : Key) : Bool :=
  decide (k ∈ forInKeys objs c.options) &&
    decide (getProp objs c.options k ≠ getProp objs c.sealedOptions k)

/-- The state `baseReplaced` after the field `late` has also been attached to `Child`'s own
configuration object (object 1), which its sealed copy (object 3) does not have. -/
def lateState : State :=
  { baseReplaced with objs := setProp baseReplaced.objs 1 (.str "late") (.num 9) }

/-- The state in which the recomputation of `Child` from `lateState` calls the merge: `late` has
been folded into `Child`'s `extendOptions` (object 2), `Child` caches object 4 as parent
configuration. -/
def lateFolded : State :=
  { lateState with
    trace := [],
    objs := setProp lateState.objs 2 (.str "late") (.num 9),
    ctors := lateState.ctors.set 1 ⟨1, some 0, some 4, 2, 3⟩ }

/-- The state `lateState` after `Child` has been resolved again: its configuration is the new
object 5, `{a: 1, c: 3, b: 2, late: 9}`. -/
def lateResolved : State :=
  { lateFolded with
    trace := lateState.trace ++ [.mergeOptions 4 (.obj 2) none 5],
    objs := lateFolded.objs ++
      [⟨none, [⟨.str "a", true, .num 1⟩, ⟨.str "c", true, .num 3⟩, ⟨.str "b", true, .num 2⟩,
        ⟨.str "late", true, .num 9⟩]⟩] ,
    ctors := lateFolded.ctors.set 1 ⟨5, some 0, some 4, 2, 3⟩ }

/-- The merge function treats the field `f` with the default strategy, "child overrides
parent": a field of the parent that the child does not declare has the parent's value in the
merged object. -/
def Env.DefaultStrategy (env : Env) (f : Key) : Prop :=
  ∀ p c vm s s1 x, env.mergeOptions p (.obj c) vm s = .ok (s1, x) →
    f ∈ forInKeys s.objs p → getProp s.objs c f = .undefined →
    getProp s1.objs x f = getProp s.objs p f

/-! ## A concrete instantiation -/

/-- A root definition with configuration `{a: 1}` (object 0), the user options `{el: '#app'}`
(object 1) and `{b: 2}` (object 2), and two instances of the definition on which `_init` has
not run. -/
def appState : State :=
  { uid := 0, uids := [], trace := [],
    objs :=
      [ ⟨none, [⟨.str "a", true, .num 1⟩]⟩,
        ⟨none, [⟨.str "el", true, .str "#app"⟩]⟩,
        ⟨none, [⟨.str "b", true, .num 2⟩]⟩ ],
    ctors := [⟨0, none, none, 0, 0⟩],
    vms := [freshVm none .undefined, freshVm none .undefined] }

/-! ## Properties of every step -/

/-- Every state an outcome can leave satisfies `R` relative to the state `st`; `state` reads the
state off a returned value. -/
def Res.Holds {α : Type} (R : State → State → Prop) (st : State) (state : α → State) :
    Res α → Prop
  | .ok a => R st (state a)
  | .throw _ s => R st s
  | .diverge => True

/-- An event of a call made by a helper of `_init`, not by `_init` itself. -/
def Event.isSub : Event → Bool
  | .mergeOptions _ _ _ _ => true
  | .toggleObserving _ => true
  | .defineReactive _ _ _ _ => true
  | .call _ _ => true
  | .warn _ _ => true
  | _ => false

/-- A relation between states that every step of the helpers of `_init` respects: it is
reflexive and transitive, it ignores what the two files write to the heap and to the tables of
definitions and instances, and the outside calls the helpers make respect it. -/
structure Respected (env : Env) (R : State → State → Prop) : Prop where
  refl : ∀ s, R s s
  trans : ∀ a b c, R a b → R b c → R a c
  objs : ∀ s o, R s { s with objs := o }
  ctors : ∀ s c, R s { s with ctors := c }
  vms : ∀ s v, R s { s with vms := v }
  log : ∀ s e, e.isSub = true → R s (s.log e)
  ext : ∀ e s, e.isSub = true → (callExt env e s).Holds R s (fun p => p.1)
  merge : ∀ p c vm s, (callMerge env p c vm s).Holds R s (fun p => p.1)

/-! ## The words of the specification about `_init` -/

/-- The calls the construction order is about: the stages `_init` goes through and the mount
call. -/
def Event.isStage : Event → Bool
  | .resolveOptions _ _ => true
  | .initLifecycle _ => true
  | .initEvents _ => true
  | .initRender _ => true
  | .callHook _ _ => true
  | .initInjections _ => true
  | .initState _ => true
  | .initProvide _ => true
  | .mount _ _ => true
  | _ => false

/-- The history of `s1` is the history of `s` followed by calls among which the stages are
exactly those of the list `l`, in that order. -/
def Stages (l : List Event) (s s1 : State) : Prop :=
  ∃ t, s1.trace = s.trace ++ t ∧ t.filter Event.isStage = l

/-! ## Programs that instantiate components

The counter `uid` is private to init.js: code outside the file changes it only by running
`_init`. A behaviour describes what a piece of outside code does as far as the two files can
tell: it changes the state apart from the counter, it instantiates components (each
instantiation runs `_init`, whose own outside calls behave as the instantiation says), it
catches exceptions, and it returns or throws. -/

/-- The behaviour of a piece of outside code. -/
inductive Beh where
  | ret (v : Val)
  | throw (e : Exn)
  | diverge
  | effect (f : State → State) (next : Beh)
  | construct (ctor : Nat) (options : Val) (calls : Event → Beh) (next : Beh)
  | attempt (body handler next : Beh)

/-- The outside code of a program: the build constants and a merge function; the other outside
calls are given by behaviours. -/
structure World where
  hasSymbol : Bool
  production : Bool
  mergeOptions : Nat → Val → Option Nat → State → Res (State × Nat)

/-- The state `s1` with the counter of init.js and its history as they are in `s`. -/
def keepCounter (s s1 : State) : State := { s1 with uid := s.uid, uids := s.uids }

/-- The merge function of a world, which cannot reach the counter of init.js. -/
def World.merge (w : World) (parent : Nat) (child : Val) (vm : Option Nat) (st : State) :
    Res (State × Nat) :=
  match w.mergeOptions parent child vm st with
  | .ok (s1, r) => .ok (keepCounter st s1, r)
  | .throw e s1 => .throw e (keepCounter st s1)
  | .diverge => .diverge

/-- A new object made by `new Ctor(...)`, before the constructor body runs. -/
def newInstance (ctor : Nat) : Instance :=
  { constructor := ctor, _uid := none, _isVue := false, options := .undefined,
    _renderProxy := .undefined, _self := .undefined, parent := none, _provided := .undefined }

/-- Running a behaviour. `construct` is `new Ctor(options)`: a new instance is made and `_init`
runs on it (index.js 9-12); `attempt` is `try { body } catch { handler }`. -/
def run (w : World) (fuel : Nat) : Beh → State → Res (State × Val)
  | .ret v, st => .ok (st, v)
  | .throw e, st => .throw e st
  | .diverge, _ => .diverge
  | .effect f next, st => run w fuel next (keepCounter st (f st))
  | .construct ctor options calls next, st =>
    match _init ⟨w.hasSymbol, w.production, w.merge, fun e => run w fuel (calls e)⟩ fuel
        st.vms.length options { st with vms := st.vms ++ [newInstance ctor] } with
    | .ok s1 => run w fuel next s1
    | .throw e s1 => .throw e s1
    | .diverge => .diverge
  | .attempt body handler next, st =>
    match run w fuel body st with
    | .ok (s1, _) => run w fuel next s1
    | .throw _ s1 =>
      (match run w fuel handler s1 with
        | .ok (s2, _) => run w fuel next s2
        | .throw e s2 => .throw e s2
        | .diverge => .diverge)
    | .diverge => .diverge

/-- From `s` to `s1` the counter of init.js went up by some number `n`, and the values handed
out in between are the `n` values from the old counter on, in increasing order. -/
def CounterStep (s s1 : State) : Prop :=
  ∃ n, s1.uid = s.uid + n ∧ s1.uids = s.uids ++ List.range' s.uid n

/-- The environment of one instantiation inside a program. -/
def World.env (w : World) (fuel : Nat) (calls : Event → Beh) : Env :=
  ⟨w.hasSymbol, w.production, w.merge, fun e => run w fuel (calls e)⟩

/-- A program: a parent is instantiated with `{el: '#app'}` and its mount call instantiates a
child; then a third instance is made inside a `try` and its `created` hook throws; after the
`catch` a fourth instance is made. -/
def demoProgram : Beh :=
  .construct 0 (.obj 1)
    (fun e =>
      match e with
      | .mount _ _ => .construct 0 (.obj 2) (fun _ => .ret .undefined) (.ret .undefined)
      | _ => .ret .undefined)
    (.attempt
      (.construct 0 (.obj 2)
        (fun e =>
          match e with
          | .callHook _ "created" => .throw (.user 1)
          | _ => .ret .undefined)
        (.ret .undefined))
      (.ret .undefined)
      (.construct 0 (.obj 2) (fun _ => .ret .undefined) (.ret .undefined)))

/-- The world of the example: development build, default-strategy merge. -/
def demoWorld : World := ⟨true, false, mergeDefault⟩

/-- The state `appState` after `_init` has run on instance 0 with the options `{el: '#app'}`
(object 1) in the environment `mergeEnv`. -/
def appMounted : State :=
  match _init mergeEnv 5 0 (.obj 1) appState with
  | .ok s => s
  | _ => appState

/-- The state `appState` with the objects of an internal instantiation: the options
`{_isComponent: true, parent: instance 0, _parentVnode: object 4}` (object 3), the render node
(object 4), its component options (object 5) and the property values (object 6). -/
def internalState : State :=
  { appState with
    objs := appState.objs ++
      [ ⟨none, [⟨.str "_isComponent", true, .bool true⟩, ⟨.str "parent", true, .vm 0⟩,
          ⟨.str "_parentVnode", true, .obj 4⟩]⟩,
        ⟨none, [⟨.str "componentOptions", true, .obj 5⟩]⟩,
        ⟨none, [⟨.str "propsData", true, .obj 6⟩, ⟨.str "tag", true, .str "child"⟩]⟩,
        ⟨none, [⟨.str "msg", true, .str "hi"⟩]⟩ ] }


/-! ## Heaps that grow -/

/-- No prototype link leaves the heap: every prototype is an object of the heap. -/
def protoClosed (objs : List Obj) : Bool :=
  objs.all fun o =>
    match o.proto with
    | some p => decide (p < objs.length)
    | none => true

/-- A value that is not a reference to an object outside the heap. -/
def inHeap (objs : List Obj) : Val → Bool
  | .obj r => decide (r < objs.length)
  | _ => true

/-- Where the lookup of `k` goes on from object `r`: to the prototype, when `r` is an object of
the heap without an own `k`. -/
def protoStep (objs : List Obj) (k : Key) (r : Nat) : Option Nat :=
  match objs[r]? with
  | none => none
  | some o =>
    match getOwn? o.props k with
    | some _ => none
    | none => o.proto

/-- The heap `objs1` has every object of `objs` at its place, unchanged; it may have more. -/
def Extends (objs objs1 : List Obj) : Prop :=
  ∀ r, r < objs.length → objs1[r]? = objs[r]?

/-! ## The words of the specification about the fast path -/

/-- The own fields of a fast-path configuration: the six fields copied from the instantiation
options and the render node, then `render` and `staticRenderFns` when the options carry a
render function. -/
def fastPathFields (parent parentVnode propsData listeners children tag render
    staticRenderFns : Val) : List Property :=
  [ ⟨.str "parent", true, parent⟩, ⟨.str "_parentVnode", true, parentVnode⟩,
    ⟨.str "propsData", true, propsData⟩, ⟨.str "_parentListeners", true, listeners⟩,
    ⟨.str "_renderChildren", true, children⟩, ⟨.str "_componentTag", true, tag⟩ ] ++
  (if truthy render then
    [⟨.str "render", true, render⟩, ⟨.str "staticRenderFns", true, staticRenderFns⟩]
  else [])

/-- The state `baseReplaced` (the configuration of `Base` has been replaced, `Child` has not been
resolved since) with an instance of `Child` on which `_init` has not run and the objects of an
internal instantiation: the options `{_isComponent: true, _parentVnode: object 6}` (object 5),
the render node (object 6) and its empty component options (object 7). -/
def staleState : State :=
  { baseReplaced with
    objs := baseReplaced.objs ++
      [ ⟨none, [⟨.str "_isComponent", true, .bool true⟩, ⟨.str "_parentVnode", true, .obj 6⟩]⟩,
        ⟨none, [⟨.str "componentOptions", true, .obj 7⟩]⟩,
        ⟨none, []⟩ ],
    vms := [newInstance 1] }

/-! ## The words of the specification about self-registration -/

/-- Between the state `s0` in which the merge returned the configuration `r` and the state `s1`
the only write is the self-registration of definition `d`. With a truthy `name` in `r`, the
registry (the `components` of `r`, an object of the heap) maps the name to `d` in `s1`, its
other own entries and its prototype are as in `s0`, and so is every other object. Without a
truthy name the heap of `s1` is the heap of `s0`. -/
def SelfRegistered (s0 s1 : State) (r d : Nat) : Prop :=
  (truthy (getProp s0.objs r (.str "name")) = true →
    ∀ reg, getProp s0.objs r (.str "components") = .obj reg → reg < s0.objs.length →
      getOwn? (ownProps s1.objs reg) (toKey (getProp s0.objs r (.str "name"))) =
        some (.ctor d) ∧
      (∀ k, k ≠ toKey (getProp s0.objs r (.str "name")) →
        getOwn? (ownProps s1.objs reg) k = getOwn? (ownProps s0.objs reg) k) ∧
      (s1.objs[reg]?).map Obj.proto = (s0.objs[reg]?).map Obj.proto ∧
      (∀ x, x ≠ reg → s1.objs[x]? = s0.objs[x]?)) ∧
  (truthy (getProp s0.objs r (.str "name")) = false → s1.objs = s0.objs)

/-- Two definitions with a nested-component registry: 0 is `Base`, whose configuration has been
replaced by object 5, `{components: object 4, c: 3}`; 1 is `Child`, made by extending `Base`
with `{name: 'child'}` (object 2) when `Base`'s configuration was object 0, with configuration
object 1 and sealed copy object 3. The registry (object 4) holds `Base` under `base`. -/
def namedState : State :=
  { uid := 0, uids := [], trace := [],
    objs :=
      [ ⟨none, [⟨.str "components", true, .obj 4⟩]⟩,
        ⟨none, [⟨.str "components", true, .obj 4⟩, ⟨.str "name", true, .str "child"⟩]⟩,
        ⟨none, [⟨.str "name", true, .str "child"⟩]⟩,
        ⟨none, [⟨.str "components", true, .obj 4⟩, ⟨.str "name", true, .str "child"⟩]⟩,
        ⟨none, [⟨.str "base", true, .ctor 0⟩]⟩,
        ⟨none, [⟨.str "components", true, .obj 4⟩, ⟨.str "c", true, .num 3⟩]⟩ ],
    ctors := [⟨5, none, none, 0, 0⟩, ⟨1, some 0, some 0, 2, 3⟩],
    vms := [] }


/-! ## The words of the specification about termination -/

/-- The merge function is total: on every input it returns a configuration. -/
def Env.MergeTotal (env : Env) : Prop :=
  ∀ p c vm s, ∃ s1 r, env.mergeOptions p c vm s = .ok (s1, r)

/-- A value to which a property can be assigned: an object or a function, not a primitive. -/
def assignable : Val → Bool
  | .obj _ => true
  | .fn _ => true
  | .ctor _ => true
  | .vm _ => true
  | _ => false

/-- Every configuration the merge function returns with a truthy `name` carries a
nested-component registry: its `components` is not a primitive. -/
def Env.MergeGivesRegistry (env : Env) : Prop :=
  ∀ p c vm s s1 r, env.mergeOptions p c vm s = .ok (s1, r) →
    truthy (getProp s1.objs r (.str "name")) = true →
    assignable (getProp s1.objs r (.str "components")) = true

/-- The instances the loop `while (source)` of `resolveInject` (inject.js 80-87) visits for one
source key, in the order of the visits: the values `source` has when the loop body runs. -/
def walkVisits (st : State) (provideKey : Val) : Nat → Option Nat → List Nat
  | _, none => []
  | 0, some _ => []
  | fuel + 1, some i =>
    match st.vms[i]? with
    | none => []
    | some source =>
      if truthy source._provided && hasOwn st.objs source._provided (toKey provideKey) then [i]
      else i :: walkVisits st provideKey fuel source.parent

/-- The definitions of `baseReplaced`, with `Child` named `child`: its `extendOptions` (object
2), its configuration (object 1) and the sealed copy (object 3) carry `name: 'child'`. No
configuration has a nested-component registry. -/
def bareState : State :=
  { baseReplaced with
    objs :=
      [ ⟨none, [⟨.str "a", true, .num 1⟩]⟩,
        ⟨none, [⟨.str "a", true, .num 1⟩, ⟨.str "b", true, .num 2⟩,
          ⟨.str "name", true, .str "child"⟩]⟩,
        ⟨none, [⟨.str "b", true, .num 2⟩, ⟨.str "name", true, .str "child"⟩]⟩,
        ⟨none, [⟨.str "a", true, .num 1⟩, ⟨.str "b", true, .num 2⟩,
          ⟨.str "name", true, .str "child"⟩]⟩,
        ⟨none, [⟨.str "a", true, .num 1⟩, ⟨.str "c", true, .num 3⟩]⟩ ] }

/-- Modelled from the spec: the option merge function with the strategy for the
nested-component registry, "merge as key-set union, child wins on key collision", and the
default strategy on every other field: the configuration returned by `mergeDefault`, whose
`components` is then a new object with the entries of the parent's registry and of the
child's. -/
def mergeRegistry (parent : Nat) (child : Val) (vm : Option Nat) (st : State) :
    Res (State × Nat) :=
  match mergeDefault parent child vm st with
  | .ok (s1, r) =>
    let entries := fun (v : Val) =>
      match v with
      | .obj x => ownProps st.objs x
      | _ => []
    let childRegistry :=
      match child with
      | .obj c => getProp st.objs c (.str "components")
      | _ => .undefined
    let registry := (entries childRegistry).foldl (fun acc p => setOwn acc p.key p.value)
      (entries (getProp st.objs parent (.str "components")))
    .ok ({ s1 with
      objs := setProp (s1.objs ++ [⟨none, registry⟩]) r (.str "components")
        (.obj s1.objs.length) }, r)
  | .throw e s => .throw e s
  | .diverge => .diverge

/-- The environment `quietEnv` with the merge `mergeRegistry`. -/
def registryEnv : Env := { quietEnv with mergeOptions := mergeRegistry }

/-- The definitions of `namedState`, where `Child` is made by extending `Base` with `{b: 2}`
(object 2) and has no name of its own, and `Base`'s configuration has been replaced by object
5, `{components: object 4, name: 'foo'}`: the new field is `name`. -/
def renamedState : State :=
  { namedState with
    objs :=
      [ ⟨none, [⟨.str "components", true, .obj 4⟩]⟩,
        ⟨none, [⟨.str "components", true, .obj 4⟩, ⟨.str "b", true, .num 2⟩]⟩,
        ⟨none, [⟨.str "b", true, .num 2⟩]⟩,
        ⟨none, [⟨.str "components", true, .obj 4⟩, ⟨.str "b", true, .num 2⟩]⟩,
        ⟨none, [⟨.str "base", true, .ctor 0⟩]⟩,
        ⟨none, [⟨.str "components", true, .obj 4⟩, ⟨.str "name", true, .str "foo"⟩]⟩ ] }

/-- The state `renamedState` after `Child` has been resolved in the environment
`registryEnv`. -/
def renamedResolved : State :=
  match resolveConstructorOptions registryEnv 2 1 renamedState with
  | .ok (s, _) => s
  | _ => renamedState

/-- The state `namedState` after `Child` has been resolved in the environment `registryEnv`:
the merged configuration is the new object 6 and its registry the new object 7. -/
def namedResolved : State :=
  match resolveConstructorOptions registryEnv 2 1 namedState with
  | .ok (s, _) => s
  | _ => namedState


/-! ## The words of the specification about the injection result -/

/-- The declared key `k` is resolved: its declaration can be read, and either some instance of
the chain `c` provides the source key `from` of the declaration or the declaration has a
`default`. -/
def resolvedBy (st : State) (c : List Nat) (inject : Val) (k : Key) : Bool :=
  match getV st.objs inject k with
  | .ok decl =>
    (match getV st.objs decl (.str "from") with
      | .ok s =>
        (firstProvider st (toKey s) c).isSome ||
          (hasIn st.objs (.str "default") decl == .ok true)
      | .error _ => false)
  | .error _ => false

/-! ## Concrete states for installation and provide -/

/-- The tree of `treeState` where B (instance 2) provides a value under a symbol key (object
16) and Leaf (instance 3) has a configuration (object 14) whose `inject` (object 13) declares
one injection under that symbol, with the symbol as source key (the declaration is object 15):
what the declaration `inject: [aSymbol]` is normalised to. -/
def symState : State :=
  { treeState with
    objs := treeObjs ++
      [ ⟨none, [⟨.sym 1, true, .obj 15⟩]⟩,
        ⟨none, [⟨.str "inject", true, .obj 13⟩]⟩,
        ⟨none, [⟨.str "from", true, .sym 1⟩]⟩,
        ⟨none, [⟨.sym 1, true, .num 2⟩]⟩ ],
    vms := (treeState.vms.set 2 (freshVm (some 1) (.obj 16))).set 3
      { freshVm (some 2) .undefined with options := .obj 14 } }

/-- Three instances whose configurations have been set and whose provided-values maps have not:
the configuration of instance 0 (object 1) has `provide: {x: 1}` (object 0), that of instance 1
(object 2) has a function as `provide`, that of instance 2 (object 3) has none. -/
def provideState : State :=
  { uid := 3, uids := [0, 1, 2], trace := [],
    objs :=
      [ ⟨none, [⟨.str "x", true, .num 1⟩]⟩,
        ⟨none, [⟨.str "provide", true, .obj 0⟩]⟩,
        ⟨none, [⟨.str "provide", true, .fn 0⟩]⟩,
        ⟨none, []⟩ ],
    ctors := [⟨3, none, none, 3, 3⟩],
    vms :=
      [ { freshVm none .undefined with options := .obj 1 },
        { freshVm none .undefined with options := .obj 2 },
        { freshVm none .undefined with options := .obj 3 } ] }


/-! ## The words of the specification about transitive invalidation -/

/-- The merge function returns a fresh object on each call: the configuration it returns is an
object of the heap after the call and was not one before. -/
def Env.MergeFresh (env : Env) : Prop :=
  ∀ p c vm s s1 r, env.mergeOptions p c vm s = .ok (s1, r) →
    s.objs.length ≤ r ∧ r < s1.objs.length

/-- Three definitions: 0 is `A`, whose configuration has been replaced by object 7,
`{a: 1, z: 9}`, after the chain was resolved with object 0 as its configuration; 1 is `B`, made
by extending `A` with `{b: 2}` (object 2), with configuration object 1 and sealed copy object 3;
2 is `C`, made by extending `B` with `{c: 3}` (object 5), with configuration object 4 and sealed
copy object 6. -/
def chainState : State :=
  { uid := 0, uids := [], trace := [],
    objs :=
      [ ⟨none, [⟨.str "a", true, .num 1⟩]⟩,
        ⟨none, [⟨.str "a", true, .num 1⟩, ⟨.str "b", true, .num 2⟩]⟩,
        ⟨none, [⟨.str "b", true, .num 2⟩]⟩,
        ⟨none, [⟨.str "a", true, .num 1⟩, ⟨.str "b", true, .num 2⟩]⟩,
        ⟨none, [⟨.str "a", true, .num 1⟩, ⟨.str "b", true, .num 2⟩, ⟨.str "c", true, .num 3⟩]⟩,
        ⟨none, [⟨.str "c", true, .num 3⟩]⟩,
        ⟨none, [⟨.str "a", true, .num 1⟩, ⟨.str "b", true, .num 2⟩, ⟨.str "c", true, .num 3⟩]⟩,
        ⟨none, [⟨.str "a", true, .num 1⟩, ⟨.str "z", true, .num 9⟩]⟩ ],
    ctors :=
      [ ⟨7, none, none, 0, 0⟩, ⟨1, some 0, some 0, 2, 3⟩, ⟨4, some 1, some 1, 5, 6⟩ ],
    vms := [] }

/-- The three definitions of `chainState` with `A`'s configuration in place (object 0) and the
configuration of `B`, which is not a root, replaced by object 7, `{a: 1, b: 2, m: 5}`, after the
chain was resolved: `B` still caches object 0 as `superOptions`, `C` still caches object 1. -/
def midReplaced : State :=
  { chainState with
    objs := chainState.objs.set 7
      ⟨none, [⟨.str "a", true, .num 1⟩, ⟨.str "b", true, .num 2⟩, ⟨.str "m", true, .num 5⟩]⟩,
    ctors := [ ⟨0, none, none, 0, 0⟩, ⟨7, some 0, some 0, 2, 3⟩, ⟨4, some 1, some 1, 5, 6⟩ ] }

/-- The state `midReplaced` after `C` has been resolved in the environment `mergeEnv`. -/
def midResolved : State :=
  match resolveConstructorOptions mergeEnv 3 2 midReplaced with
  | .ok (s, _) => s
  | _ => midReplaced

/-- The state `chainState` after `B` has been resolved in the environment `mergeEnv`: the
configuration of `B` is the new object 8, `{a: 1, z: 9, b: 2}`. -/
def chainMid : State :=
  match resolveConstructorOptions mergeEnv 2 1 chainState with
  | .ok (s, _) => s
  | _ => chainState

/-- The state `chainState` after `C` has been resolved in the environment `mergeEnv`. -/
def chainResolved : State :=
  match resolveConstructorOptions mergeEnv 3 2 chainState with
  | .ok (s, _) => s
  | _ => chainState

/-! ## A second replacement of the parent configuration -/

/-- The state `childRecomputed` (in which `Child` has been recomputed once: its configuration is
the merged object 5, `{a: 1, c: 3, b: 2}`, its sealed copy still object 3, `{a: 1, b: 2}`) after
`Base`'s configuration has been replaced a second time, by object 6, `{a: 1, c: 4}`. -/
def replacedAgain : State :=
  { childRecomputed with
    objs := childRecomputed.objs ++ [⟨none, [⟨.str "a", true, .num 1⟩, ⟨.str "c", true, .num 4⟩]⟩],
    ctors := childRecomputed.ctors.set 0 ⟨6, none, none, 0, 0⟩ }

/-- The state `replacedAgain` after `Child` has been resolved in the environment `mergeEnv`. -/
def againResolved : State :=
  match resolveConstructorOptions mergeEnv 2 1 replacedAgain with
  | .ok (s, _) => s
  | _ => replacedAgain


/-! ## `_init` around the injections -/

/-- Lines 50-72 of `_init`: from the render proxy to the `beforeCreate` hook. -/
def initToBeforeCreate (env : Env) (vm : Nat) (st : State) : Res State :=
  (if !env.production then
      (callExt env (.initProxy vm) st).bind fun (st1, _) => .ok st1
    else .ok (modifyVm st vm fun i => { i with _renderProxy := .vm vm })).bind fun st =>
  let st := modifyVm st vm fun i => { i with _self := .vm vm }
  (callExt env (.initLifecycle vm) st).bind fun (st, _) =>
  (callExt env (.initEvents vm) st).bind fun (st, _) =>
  (callExt env (.initRender vm) st).bind fun (st, _) =>
  (callExt env (.callHook vm "beforeCreate") st).bind fun (st, _) => .ok st

/-- Lines 24-72 of `_init`: everything before the injections are resolved. -/
def initToInjections (env : Env) (fuel : Nat) (vm : Nat) (options : Val) (st : State) :
    Res State :=
  (initOptions env fuel vm options
    (modifyVm (assignUid vm st) vm fun i => { i with _isVue := true })).bind
    (initToBeforeCreate env vm)

/-- Lines 76-87 of `_init`: everything after the injections have been resolved. -/
def initAfterInjections (env : Env) (vm : Nat) (st : State) : Res State :=
  (callExt env (.initState vm) st).bind fun (st, _) =>
  (initProvide env vm (st.log (.initProvide vm))).bind fun st =>
  (callExt env (.callHook vm "created") st).bind fun (st, _) =>
  mountIfEl env vm st

/-- The provided-values map of an instance, if the instance is there. -/
def providedOf (vm : Nat) (s : State) : Option Val := (s.vms[vm]?).map Instance._provided

/-- The code outside the two files does not assign the `_provided` of the instance `vm`:
whatever state an outside call or a merge leaves, returning or throwing, the map of the
instance is what it was. -/
def Env.KeepsProvided (env : Env) (vm : Nat) : Prop :=
  (∀ e s, (env.ext e s).Holds (fun a b => providedOf vm b = providedOf vm a) s
    (fun p => p.1)) ∧
  (∀ p c i s, (env.mergeOptions p c i s).Holds (fun a b => providedOf vm b = providedOf vm a) s
    (fun p => p.1))

/-- A relation between states that every step `_init` makes before it resolves the injections
respects when the outside code does: it is reflexive and transitive, it ignores what the two
files write to the heap, to the definitions, to the counter, to the history and to the fields
of an instance other than `_provided`, and the outside calls respect it. -/
structure Preserved (env : Env) (R : State → State → Prop) : Prop where
  refl : ∀ s, R s s
  trans : ∀ a b c, R a b → R b c → R a c
  objs : ∀ s o, R s { s with objs := o }
  ctors : ∀ s c, R s { s with ctors := c }
  log : ∀ s e, R s (s.log e)
  counter : ∀ s u us, R s { s with uid := u, uids := us }
  vm : ∀ s i f, (∀ x : Instance, (f x)._provided = x._provided) → R s (modifyVm s i f)
  ext : ∀ e s, (callExt env e s).Holds R s (fun p => p.1)
  merge : ∀ p c vm s, (callMerge env p c vm s).Holds R s (fun p => p.1)

/-- A relation between states that every step of `resolveInject` for the instance `vm`
respects when the default producers do: it is reflexive and transitive, it ignores the
history, and the calls of functions with the instance as receiver respect it. -/
structure Untouched (env : Env) (vm : Nat) (R : State → State → Prop) : Prop where
  refl : ∀ s, R s s
  trans : ∀ a b c, R a b → R b c → R a c
  log : ∀ s e, R s (s.log e)
  call : ∀ f s, (callExt env (.call f vm) s).Holds R s (fun p => p.1)

/-! ## An instance that provides and injects the same key -/

/-- An environment in which `initLifecycle` wires the tree: it makes instance 0 the `$parent` of
every other instance. Function 0 returns 7, the other outside calls do nothing; the merge is the
default-strategy merge; development build, engine with symbols. -/
def familyEnv : Env :=
  { hasSymbol := true
    production := false
    mergeOptions := mergeDefault
    ext := fun e st =>
      match e with
      | .initLifecycle i =>
        .ok (modifyVm st i fun x => { x with parent := if i = 0 then none else some 0 },
          .undefined)
      | .call (.fn 0) _ => .ok (st, .num 7)
      | _ => .ok (st, .undefined) }

/-- A root instance (0) that provides `{x: 1}` (object 0), and a new instance (1) of a
definition whose configuration (object 1) both injects `foo` from `x` (objects 2 and 3) and
provides `{x: 99}` (object 4). -/
def familyState : State :=
  { uid := 1, uids := [0], trace := [],
    objs :=
      [ ⟨none, [⟨.str "x", true, .num 1⟩]⟩,
        ⟨none, [⟨.str "inject", true, .obj 2⟩, ⟨.str "provide", true, .obj 4⟩]⟩,
        ⟨none, [⟨.str "foo", true, .obj 3⟩]⟩,
        ⟨none, [⟨.str "from", true, .str "x"⟩]⟩,
        ⟨none, [⟨.str "x", true, .num 99⟩]⟩ ],
    ctors := [⟨1, none, none, 1, 1⟩],
    vms := [freshVm none (.obj 0), newInstance 0] }

/-- The state `familyState` after `_init` has run on instance 1 without options in the
environment `familyEnv`. -/
def familyDone : State :=
  match _init familyEnv 5 1 .undefined familyState with
  | .ok s => s
  | _ => familyState

/-! ## Injection: lemmas -/

@[simp] theorem Res.ofExcept_ok {α : Type} (st : State) (a : α) :
    Res.ofExcept st (.ok a) = .ok a := rfl

@[simp] theorem Res.ofExcept_error {α : Type} (st : State) (e : Exn) :
    Res.ofExcept st (.error e : Except Exn α) = .throw e st := rfl

theorem getOwn?_setOwn_self (ps : List Property) (k : Key) (v : Val) :
    getOwn? (setOwn ps k v) k = some v := by
  induction ps with
  | nil => simp [setOwn, getOwn?]
  | cons p ps ih =>
    by_cases h : p.key = k
    · simp [setOwn, getOwn?, h]
    · simp [setOwn, getOwn?, h, ih]

theorem getOwn?_setOwn_ne (ps : List Property) (k k1 : Key) (v : Val) (h : k1 ≠ k) :
    getOwn? (setOwn ps k v) k1 = getOwn? ps k1 := by
  induction ps with
  | nil =>
    have h2 : ¬ k = k1 := fun e => h e.symm
    simp [setOwn, getOwn?, h2]
  | cons p ps ih =>
    by_cases hp : p.key = k
    · have h2 : ¬ k = k1 := fun e => h e.symm
      simp [setOwn, getOwn?, hp, h2]
    · by_cases hp1 : p.key = k1
      · simp [setOwn, getOwn?, hp, hp1, h]
      · simp [setOwn, getOwn?, hp, hp1, ih]

theorem walk_congr (st st1 : State) (ho : st1.objs = st.objs) (hv : st1.vms = st.vms)
    (s : Val) (fuel : Nat) (src : Option Nat) : walk st1 s fuel src = walk st s fuel src := by
  induction fuel generalizing src with
  | zero => cases src <;> simp [walk]
  | succ n ih =>
    cases src with
    | none => simp [walk]
    | some i =>
      simp only [walk, ho, hv]
      cases st.vms[i]? with
      | none => rfl
      | some inst => simp only [ih]

theorem entryOf_eq (objs : List Obj) (p : Val) (k : Key) :
    entryOf objs p k =
      if truthy p && hasOwn objs p k then some (readOwn objs p k) else none := by
  cases p <;> simp [entryOf, truthy, hasOwn, readOwn]
  case obj r =>
    cases getOwn? (ownProps objs r) k <;> simp

theorem provided_eq (st : State) (i : Nat) (inst : Instance) (k : Key)
    (h : st.vms[i]? = some inst) :
    provided st i k =
      if truthy inst._provided && hasOwn st.objs inst._provided k
      then some (readOwn st.objs inst._provided k) else none := by
  simp only [provided, h, entryOf_eq]

theorem walk_chain (st : State) (s : Val) (c : List Nat) :
    ∀ (fuel : Nat) (src : Option Nat), isChain st src c = true → c.length < fuel →
      walk st s fuel src = .ok (firstProvider st (toKey s) c) := by
  induction c with
  | nil =>
    intro fuel src hc _
    cases src with
    | none => cases fuel <;> simp [walk, firstProvider]
    | some i => simp [isChain] at hc
  | cons j rest ih =>
    intro fuel src hc hf
    cases src with
    | none => simp [isChain] at hc
    | some i =>
      cases fuel with
      | zero => simp at hf
      | succ n =>
        simp only [isChain, Bool.and_eq_true, beq_iff_eq] at hc
        obtain ⟨hij, hrest⟩ := hc
        subst hij
        cases hvm : st.vms[i]? with
        | none => simp [hvm] at hrest
        | some inst =>
          simp only [hvm] at hrest
          simp only [walk, hvm, firstProvider, provided_eq st i inst _ hvm]
          by_cases hp : (truthy inst._provided && hasOwn st.objs inst._provided (toKey s)) = true
          · simp [hp]
          · simp only [hp]
            simp only [Bool.false_eq_true, if_false]
            exact ih n inst.parent hrest (by simpa using hf)


theorem callExt_ok (env : Env) (e : Event) (st st1 : State) (v : Val)
    (h : callExt env e st = .ok (st1, v)) :
    ∃ st0, env.ext e { st with trace := [] } = .ok (st0, v) ∧
      st1 = { st0 with trace := st.trace ++ [e] } := by
  unfold callExt at h
  cases hx : env.ext e { st with trace := [] } with
  | ok a =>
    obtain ⟨st0, v0⟩ := a
    simp only [hx, Res.ok.injEq, Prod.mk.injEq] at h
    exact ⟨st0, by rw [h.2], h.1.symm⟩
  | throw x sx => simp [hx] at h
  | diverge => simp [hx] at h

theorem resolveInjectKey_found (env : Env) (fuel : Nat) (inject : Val) (vm : Nat) (k : Key)
    (st : State) (result : List Property) (decl s : Val) (i : Nat) (v : Val)
    (hk : k ≠ .str "__ob__")
    (hdecl : getV st.objs inject k = .ok decl)
    (hfrom : getV st.objs decl (.str "from") = .ok s)
    (hwalk : walk st s fuel (some vm) = .ok (some (i, v))) :
    resolveInjectKey env fuel inject vm k st result = .ok (st, setOwn result k v) := by
  simp [resolveInjectKey, hk, hdecl, hfrom, hwalk, Res.bind]

theorem resolveInjectKey_ok (env : Env) (hpure : env.CallsPure) (fuel : Nat) (inject : Val)
    (vm : Nat) (key : Key) (st st1 : State) (result result1 : List Property)
    (h : resolveInjectKey env fuel inject vm key st result = .ok (st1, result1)) :
    st1.objs = st.objs ∧ st1.vms = st.vms ∧
      (result1 = result ∨ ∃ v, result1 = setOwn result key v) := by
  unfold resolveInjectKey at h
  split at h
  · simp only [Res.ok.injEq, Prod.mk.injEq] at h
    obtain ⟨rfl, rfl⟩ := h
    simp
  · cases h1 : getV st.objs inject key <;>
      simp only [h1, Res.bind, Res.ofExcept_ok, Res.ofExcept_error] at h <;> try contradiction
    rename_i decl
    cases h2 : getV st.objs decl (.str "from") <;>
      simp only [h2, Res.ofExcept_ok, Res.ofExcept_error] at h <;> try contradiction
    rename_i s
    cases h3 : walk st s fuel (some vm) <;> simp only [h3] at h <;> try contradiction
    rename_i found
    cases found with
    | some iv =>
      simp only [Res.ok.injEq, Prod.mk.injEq] at h
      obtain ⟨rfl, rfl⟩ := h
      exact ⟨rfl, rfl, Or.inr ⟨_, rfl⟩⟩
    | none =>
      simp only at h
      cases h4 : hasIn st.objs (.str "default") decl <;>
        simp only [h4, Res.ofExcept_ok, Res.ofExcept_error] at h <;> try contradiction
      rename_i hasDefault
      cases hasDefault with
      | true =>
        simp only [if_true] at h
        cases h5 : getV st.objs decl (.str "default") <;>
          simp only [h5, Res.ofExcept_ok, Res.ofExcept_error] at h <;> try contradiction
        rename_i d
        split at h
        · cases h6 : callExt env (.call d vm) st <;> simp only [h6] at h <;> try contradiction
          rename_i a
          obtain ⟨st2, v⟩ := a
          simp only [Res.ok.injEq, Prod.mk.injEq] at h
          obtain ⟨rfl, rfl⟩ := h
          obtain ⟨st0, hx, rfl⟩ := callExt_ok env _ st st2 v h6
          have := hpure _ _ _ _ _ hx
          exact ⟨this.1, this.2, Or.inr ⟨_, rfl⟩⟩
        · simp only [Res.ok.injEq, Prod.mk.injEq] at h
          obtain ⟨rfl, rfl⟩ := h
          exact ⟨rfl, rfl, Or.inr ⟨_, rfl⟩⟩
      | false =>
        simp only [Bool.false_eq_true, if_false] at h
        split at h
        · cases h7 : keyToString key <;>
            simp only [h7, Res.ofExcept_ok, Res.ofExcept_error] at h <;> try contradiction
          simp only [Res.ok.injEq, Prod.mk.injEq] at h
          obtain ⟨rfl, rfl⟩ := h
          exact ⟨rfl, rfl, Or.inl rfl⟩
        · simp only [Res.ok.injEq, Prod.mk.injEq] at h
          obtain ⟨rfl, rfl⟩ := h
          exact ⟨rfl, rfl, Or.inl rfl⟩


theorem resolveInjectLoop_binds (env : Env) (hpure : env.CallsPure) (fuel : Nat) (inject : Val)
    (vm : Nat) (k : Key) (P : Val → Prop) (st0 : State)
    (hbody : ∀ st res st1 res1, st.objs = st0.objs → st.vms = st0.vms →
      resolveInjectKey env fuel inject vm k st res = .ok (st1, res1) →
      ∃ v, P v ∧ res1 = setOwn res k v) :
    ∀ (keys : List Key) (st : State) (res : List Property) (st1 : State)
      (res1 : List Property), st.objs = st0.objs → st.vms = st0.vms →
      resolveInjectLoop env fuel inject vm keys st res = .ok (st1, res1) →
      (k ∈ keys ∨ ∃ v, P v ∧ getOwn? res k = some v) →
      ∃ v, P v ∧ getOwn? res1 k = some v := by
  intro keys
  induction keys with
  | nil =>
    intro st res st1 res1 _ _ h hk
    simp only [resolveInjectLoop, Res.ok.injEq, Prod.mk.injEq] at h
    obtain ⟨rfl, rfl⟩ := h
    simpa using hk
  | cons key keys ih =>
    intro st res st1 res1 ho hv h hk
    simp only [resolveInjectLoop] at h
    cases hb : resolveInjectKey env fuel inject vm key st res with
    | throw x sx => simp [hb, Res.bind] at h
    | diverge => simp [hb, Res.bind] at h
    | ok a =>
      obtain ⟨st2, res2⟩ := a
      simp only [hb, Res.bind] at h
      obtain ⟨ho2, hv2, hres⟩ := resolveInjectKey_ok env hpure fuel inject vm key st st2 res res2 hb
      apply ih st2 res2 st1 res1 (ho2.trans ho) (hv2.trans hv) h
      by_cases hkey : key = k
      · subst hkey
        obtain ⟨v, hP, hr⟩ := hbody st res st2 res2 ho hv hb
        exact Or.inr ⟨v, hP, by rw [hr]; exact getOwn?_setOwn_self res key v⟩
      · rcases hk with hk | ⟨v, hP, hk⟩
        · rcases List.mem_cons.mp hk with hk | hk
          · exact absurd hk.symm hkey
          · exact Or.inl hk
        · refine Or.inr ⟨v, hP, ?_⟩
          rcases hres with hres | ⟨w, hres⟩
          · rw [hres]; exact hk
          · rw [hres, getOwn?_setOwn_ne res key k w (fun e => hkey e.symm)]; exact hk

theorem resolveInject_obj (env : Env) (fuel : Nat) (inj vm : Nat) (st st1 : State)
    (res : Option (List Property))
    (h : resolveInject env fuel (.obj inj) vm st = .ok (st1, res)) :
    ∃ result, res = some result ∧
      resolveInjectLoop env fuel (.obj inj) vm (declaredKeys env st.objs inj) st [] =
        .ok (st1, result) := by
  unfold resolveInject at h
  simp only [truthy, if_true, reflectOwnKeys, objectKeys] at h
  have hk : (if env.hasSymbol = true then Except.ok (ownKeys (ownProps st.objs inj))
      else Except.ok (enumKeys (ownProps st.objs inj))) =
      (Except.ok (declaredKeys env st.objs inj) : Except Exn (List Key)) := by
    unfold declaredKeys; split <;> rfl
  rw [hk] at h
  simp only [Res.bind, Res.ofExcept_ok] at h
  cases hl : resolveInjectLoop env fuel (.obj inj) vm (declaredKeys env st.objs inj) st [] with
  | throw x sx => simp [hl] at h
  | diverge => simp [hl] at h
  | ok a =>
    obtain ⟨st2, result⟩ := a
    simp only [hl, Res.ok.injEq, Prod.mk.injEq] at h
    exact ⟨result, h.2.symm, by rw [h.1]⟩

/-! ## C1: nearest provider wins -/

/-- C1 (amended): for an instance with a finite `$parent` chain `c` and a declared key `k` other
than `'__ob__'` whose declaration has source key `s`, if some instance on the chain provides `s`
and `v` is the value held by the first one, then the iteration of `resolveInject` for `k`
returns with `k` bound to `v` and the state untouched (no default is read, no call is made),
and every mapping `resolveInject` returns binds `k` to `v`. The functions called for other keys
are taken to leave the heap and the instances as they are. -/
theorem nearest_provider_wins (env : Env) (fuel : Nat) (st st1 : State) (inj vm : Nat) (k : Key)
    (decl s : Val) (c : List Nat) (i : Nat) (v : Val) (res : Option (List Property))
    (hpure : env.CallsPure)
    (hkey : k ∈ declaredKeys env st.objs inj)
    (hk : k ≠ .str "__ob__")
    (hdecl : getV st.objs (.obj inj) k = .ok decl)
    (hfrom : getV st.objs decl (.str "from") = .ok s)
    (hchain : isChain st (some vm) c = true)
    (hfuel : c.length < fuel)
    (hprov : firstProvider st (toKey s) c = some (i, v))
    (hret : resolveInject env fuel (.obj inj) vm st = .ok (st1, res)) :
    (∃ result, res = some result ∧ getOwn? result k = some v) ∧
    (∀ result, resolveInjectKey env fuel (.obj inj) vm k st result =
      .ok (st, setOwn result k v)) := by
  have hbody : ∀ st2 result, st2.objs = st.objs → st2.vms = st.vms →
      resolveInjectKey env fuel (.obj inj) vm k st2 result = .ok (st2, setOwn result k v) := by
    intro st2 result ho hv
    apply resolveInjectKey_found env fuel (.obj inj) vm k st2 result decl s i v hk
    · rw [ho]; exact hdecl
    · rw [ho]; exact hfrom
    · rw [walk_congr st st2 ho hv, walk_chain st s c fuel (some vm) hchain hfuel, hprov]
  obtain ⟨result, hres, hloop⟩ := resolveInject_obj env fuel inj vm st st1 res hret
  refine ⟨⟨result, hres, ?_⟩, fun result => hbody st result rfl rfl⟩
  obtain ⟨w, hw, hget⟩ := resolveInjectLoop_binds env hpure fuel (.obj inj) vm k (fun w => w = v)
    st (fun st2 r2 st3 r3 ho hv hb => ⟨v, rfl, by
      rw [hbody st2 r2 ho hv] at hb
      simp only [Res.ok.injEq, Prod.mk.injEq] at hb
      exact hb.2.symm⟩) _ st [] st1 result rfl rfl hloop (Or.inl hkey)
  rw [hget, hw]


theorem resolveInjectKey_default (env : Env) (fuel : Nat) (inject : Val) (vm : Nat) (k : Key)
    (st : State) (result : List Property) (decl s d : Val)
    (hk : k ≠ .str "__ob__")
    (hdecl : getV st.objs inject k = .ok decl)
    (hfrom : getV st.objs decl (.str "from") = .ok s)
    (hwalk : walk st s fuel (some vm) = .ok none)
    (hhas : hasIn st.objs (.str "default") decl = .ok true)
    (hd : getV st.objs decl (.str "default") = .ok d) :
    resolveInjectKey env fuel inject vm k st result =
      if isFunction d then
        (callExt env (.call d vm) st).bind fun p => .ok (p.1, setOwn result k p.2)
      else .ok (st, setOwn result k d) := by
  simp [resolveInjectKey, hk, hdecl, hfrom, hwalk, hhas, hd, Res.bind]

theorem quietEnv_callsPure : quietEnv.CallsPure := by
  intro f this st st1 v h
  have hst : st1 = st := by
    unfold quietEnv at h
    simp only at h
    split at h <;> (simp only [Res.ok.injEq, Prod.mk.injEq] at h; exact h.1.symm)
  rw [hst]
  exact ⟨rfl, rfl⟩

/-- Witness for C1: the chain Root → A → B → Leaf, Leaf injecting `foo` from `x` receives 2. -/
theorem nearest_provider_wins_witness :
    (∃ result, some [(⟨.str "foo", true, .num 2⟩ : Property)] = some result ∧
      getOwn? result (.str "foo") = some (.num 2)) ∧
    (∀ result, resolveInjectKey quietEnv 5 (.obj 2) 3 (.str "foo") treeState result =
      .ok (treeState, setOwn result (.str "foo") (.num 2))) :=
  nearest_provider_wins quietEnv 5 treeState treeState 2 3 (.str "foo") (.obj 3) (.str "x")
    [3, 2, 1, 0] 1 (.num 2) (some [⟨.str "foo", true, .num 2⟩]) quietEnv_callsPure
    (by decide) (by decide) (by decide) (by decide) (by decide) (by decide) (by decide)
    (by decide)

/-- C1 as stated fails for the key `'__ob__'`: Leaf declares `__ob__` with source `x`, A provides
`x`, and the mapping returned has no entry for `__ob__`. -/
theorem ob_key_not_bound :
    Key.str "__ob__" ∈ declaredKeys quietEnv treeState.objs 4 ∧
    getV treeState.objs (.obj 4) (.str "__ob__") = .ok (.obj 3) ∧
    getV treeState.objs (.obj 3) (.str "from") = .ok (.str "x") ∧
    isChain treeState (some 3) [3, 2, 1, 0] = true ∧
    firstProvider treeState (toKey (.str "x")) [3, 2, 1, 0] = some (1, .num 2) ∧
    resolveInject quietEnv 5 (.obj 4) 3 treeState = .ok (treeState, some []) ∧
    getOwn? [] (.str "__ob__") = none := by
  decide

/-! ## C2: default fallback -/

/-- C2 (amended): for an instance with a finite `$parent` chain `c` and a declared key `k` other
than `'__ob__'` whose declaration has source key `s` and a default `d`. When no instance on the
chain provides `s`, the iteration of `resolveInject` for `k` binds `k` to `d` itself if `d` is
not a function, and otherwise is one call of `d` with the instance as receiver whose return
value is bound to `k`; the calls it records are exactly that one call, or none for a literal;
and every mapping `resolveInject` returns binds `k` accordingly. When some instance on the chain
provides `s`, the iteration binds the provided value and leaves the state untouched: the
producer is not called. The functions called are taken to leave the heap and the instances as
they are. -/
theorem default_fallback (env : Env) (fuel : Nat) (st : State) (inj vm : Nat) (k : Key)
    (decl s d : Val) (c : List Nat)
    (hpure : env.CallsPure)
    (hkey : k ∈ declaredKeys env st.objs inj)
    (hk : k ≠ .str "__ob__")
    (hdecl : getV st.objs (.obj inj) k = .ok decl)
    (hfrom : getV st.objs decl (.str "from") = .ok s)
    (hhas : hasIn st.objs (.str "default") decl = .ok true)
    (hd : getV st.objs decl (.str "default") = .ok d)
    (hchain : isChain st (some vm) c = true)
    (hfuel : c.length < fuel) :
    (firstProvider st (toKey s) c = none →
      (∀ result, resolveInjectKey env fuel (.obj inj) vm k st result =
        if isFunction d then
          (callExt env (.call d vm) st).bind fun p => .ok (p.1, setOwn result k p.2)
        else .ok (st, setOwn result k d)) ∧
      (∀ result st1 result1,
        resolveInjectKey env fuel (.obj inj) vm k st result = .ok (st1, result1) →
        st1.trace = st.trace ++ (if isFunction d then [Event.call d vm] else [])) ∧
      (∀ st1 res, resolveInject env fuel (.obj inj) vm st = .ok (st1, res) →
        ∃ result v, res = some result ∧ getOwn? result k = some v ∧
          if isFunction d then
            ∃ st2 st3, st2.objs = st.objs ∧ st2.vms = st.vms ∧
              env.ext (.call d vm) st2 = .ok (st3, v)
          else v = d)) ∧
    (∀ i v, firstProvider st (toKey s) c = some (i, v) →
      ∀ result, resolveInjectKey env fuel (.obj inj) vm k st result =
        .ok (st, setOwn result k v)) := by
  have hw := walk_chain st s c fuel (some vm) hchain hfuel
  refine ⟨fun hnone => ?_, fun i v hsome result => ?_⟩
  · rw [hnone] at hw
    have hbody : ∀ st2 result, st2.objs = st.objs → st2.vms = st.vms →
        resolveInjectKey env fuel (.obj inj) vm k st2 result =
          if isFunction d then
            (callExt env (.call d vm) st2).bind fun p => .ok (p.1, setOwn result k p.2)
          else .ok (st2, setOwn result k d) := by
      intro st2 result ho hv
      apply resolveInjectKey_default env fuel (.obj inj) vm k st2 result decl s d hk
      · rw [ho]; exact hdecl
      · rw [ho]; exact hfrom
      · rw [walk_congr st st2 ho hv]; exact hw
      · rw [ho]; exact hhas
      · rw [ho]; exact hd
    refine ⟨fun result => hbody st result rfl rfl, ?_, ?_⟩
    · intro result st1 result1 h
      rw [hbody st result rfl rfl] at h
      by_cases hf : isFunction d = true
      · simp only [hf, if_true] at h ⊢
        cases hc : callExt env (.call d vm) st with
        | throw x sx => simp [hc, Res.bind] at h
        | diverge => simp [hc, Res.bind] at h
        | ok a =>
          obtain ⟨st2, v⟩ := a
          obtain ⟨st0, _, rfl⟩ := callExt_ok env _ st st2 v hc
          simp only [hc, Res.bind, Res.ok.injEq, Prod.mk.injEq] at h
          rw [← h.1]
      · simp only [hf, Bool.false_eq_true, if_false, Res.ok.injEq, Prod.mk.injEq] at h ⊢
        rw [← h.1]; simp
    · intro st1 res hret
      obtain ⟨result, hres, hloop⟩ := resolveInject_obj env fuel inj vm st st1 res hret
      obtain ⟨v, hP, hget⟩ := resolveInjectLoop_binds env hpure fuel (.obj inj) vm k
        (fun v => if isFunction d then
            ∃ st2 st3, st2.objs = st.objs ∧ st2.vms = st.vms ∧
              env.ext (.call d vm) st2 = .ok (st3, v)
          else v = d)
        st (fun st2 r2 st3 r3 ho hv hb => by
          rw [hbody st2 r2 ho hv] at hb
          by_cases hf : isFunction d = true
          · simp only [hf, if_true] at hb ⊢
            cases hc : callExt env (.call d vm) st2 with
            | throw x sx => simp [hc, Res.bind] at hb
            | diverge => simp [hc, Res.bind] at hb
            | ok a =>
              obtain ⟨st4, v⟩ := a
              obtain ⟨st0, hx, rfl⟩ := callExt_ok env _ st2 st4 v hc
              simp only [hc, Res.bind, Res.ok.injEq, Prod.mk.injEq] at hb
              exact ⟨v, ⟨{ st2 with trace := [] }, st0, ho, hv, hx⟩, hb.2.symm⟩
          · simp only [hf, Bool.false_eq_true, if_false, Res.ok.injEq, Prod.mk.injEq] at hb ⊢
            exact ⟨d, rfl, hb.2.symm⟩)
        _ st [] st1 result rfl rfl hloop (Or.inl hkey)
      exact ⟨result, v, hres, hget, hP⟩
  · rw [hsome] at hw
    exact resolveInjectKey_found env fuel (.obj inj) vm k st result decl s i v hk hdecl hfrom hw

/-- Witness for C2: Leaf injects `bar` from `y` with default 5, nobody provides `y`, and `bar`
resolves to 5. -/
theorem default_fallback_witness :
    firstProvider treeState (.str "y") [3, 2, 1, 0] = none ∧
    resolveInject quietEnv 5 (.obj 6) 3 treeState =
      .ok (treeState, some [⟨.str "bar", true, .num 5⟩]) ∧
    (∃ result v, some [(⟨.str "bar", true, .num 5⟩ : Property)] = some result ∧
      getOwn? result (.str "bar") = some v ∧
      if isFunction (.num 5) then
        ∃ st2 st3, st2.objs = treeState.objs ∧ st2.vms = treeState.vms ∧
          quietEnv.ext (.call (.num 5) 3) st2 = .ok (st3, v)
      else v = .num 5) :=
  ⟨by decide, by decide,
    ((default_fallback quietEnv 5 treeState 6 3 (.str "bar") (.obj 5) (.str "y") (.num 5)
      [3, 2, 1, 0] quietEnv_callsPure (by decide) (by decide) (by decide) (by decide)
      (by decide) (by decide) (by decide) (by decide)).1 (by decide)).2.2 treeState _
      (by decide)⟩

/-- The producer case of C2 on the example: Leaf injects `baz` from `y` with function 0 as
default; the function is called once, with Leaf as receiver, and `baz` is bound to the 7 it
returns. -/
theorem default_producer_example :
    resolveInject quietEnv 5 (.obj 11) 3 treeState =
      .ok ({ treeState with trace := [.call (.fn 0) 3] }, some [⟨.str "baz", true, .num 7⟩]) := by
  decide

/-- C2 as stated fails for the key `'__ob__'`: Leaf declares `__ob__` with source `y` and
default 5, nobody provides `y`, and the mapping returned has no entry for `__ob__`. -/
theorem ob_key_gets_no_default :
    Key.str "__ob__" ∈ declaredKeys quietEnv treeState.objs 7 ∧
    getV treeState.objs (.obj 7) (.str "__ob__") = .ok (.obj 5) ∧
    getV treeState.objs (.obj 5) (.str "from") = .ok (.str "y") ∧
    hasIn treeState.objs (.str "default") (.obj 5) = .ok true ∧
    getV treeState.objs (.obj 5) (.str "default") = .ok (.num 5) ∧
    isChain treeState (some 3) [3, 2, 1, 0] = true ∧
    firstProvider treeState (toKey (.str "y")) [3, 2, 1, 0] = none ∧
    resolveInject quietEnv 5 (.obj 7) 3 treeState = .ok (treeState, some []) ∧
    getOwn? [] (.str "__ob__") = none := by
  decide

/-! ## C3: a missing injection -/

/-- The iteration of `resolveInject` for a key under which nothing is provided and for which no
default is declared: with a string key it returns, binds nothing, and at most records a
warning. -/
theorem missing_injection_step (env : Env) (fuel : Nat) (inject : Val) (vm : Nat) (name : String)
    (st : State) (result : List Property) (decl s : Val)
    (hk : Key.str name ≠ .str "__ob__")
    (hdecl : getV st.objs inject (.str name) = .ok decl)
    (hfrom : getV st.objs decl (.str "from") = .ok s)
    (hwalk : walk st s fuel (some vm) = .ok none)
    (hhas : hasIn st.objs (.str "default") decl = .ok false) :
    resolveInjectKey env fuel inject vm (.str name) st result =
      .ok (if env.production then st
        else warn ("Injection \"" ++ name ++ "\" not found") vm st, result) := by
  cases hp : env.production <;>
    simp [resolveInjectKey, hk, hdecl, hfrom, hwalk, hhas, Res.bind, keyToString, hp]

/-- C3, the failing input: in a development build on an engine with symbols, Leaf declares the
symbol key 1 with source `y` and no default, and nobody provides `y`. Building the text of the
warning converts the symbol to a string, and `resolveInject` throws a `TypeError`. The same
declaration under a string key, and the symbol key in a production build, return a mapping
without the key. -/
theorem missing_symbol_injection_throws :
    Key.sym 1 ∈ declaredKeys quietEnv treeState.objs 9 ∧
    getV treeState.objs (.obj 9) (.sym 1) = .ok (.obj 8) ∧
    getV treeState.objs (.obj 8) (.str "from") = .ok (.str "y") ∧
    hasIn treeState.objs (.str "default") (.obj 8) = .ok false ∧
    isChain treeState (some 3) [3, 2, 1, 0] = true ∧
    firstProvider treeState (toKey (.str "y")) [3, 2, 1, 0] = none ∧
    resolveInject quietEnv 5 (.obj 9) 3 treeState = .throw .typeError treeState ∧
    resolveInject { quietEnv with production := true } 5 (.obj 9) 3 treeState =
      .ok (treeState, some []) ∧
    resolveInject quietEnv 5 (.obj 12) 3 treeState =
      .ok ({ treeState with trace := [.warn "Injection \"qux\" not found" 3] }, some []) := by
  decide

/-! ## Constructor options: lemmas -/

theorem getCtor_ok (st : State) (d : Nat) (c : Ctor) :
    getCtor st d = .ok c ↔ st.ctors[d]? = some c := by
  unfold getCtor
  cases st.ctors[d]? <;> simp

theorem modifyCtor_get (st : State) (d i : Nat) (f : Ctor → Ctor) :
    (modifyCtor st d f).ctors[i]? =
      if i = d then (st.ctors[d]?).map f else st.ctors[i]? := by
  unfold modifyCtor
  cases h : st.ctors[d]? with
  | none =>
    by_cases hi : i = d
    · subst hi; simp [h]
    · simp [hi]
  | some c =>
    by_cases hi : i = d
    · subst hi
      have hlt : i < st.ctors.length := by
        by_contra hge
        rw [List.getElem?_eq_none (by omega)] at h
        exact Option.noConfusion h
      simp [List.getElem?_set_self, hlt]
    · have hne : d ≠ i := fun e => hi e.symm
      simp [hi, List.getElem?_set_ne hne]

theorem modifyCtor_frame (st : State) (d : Nat) (f : Ctor → Ctor) :
    (modifyCtor st d f).objs = st.objs ∧ (modifyCtor st d f).trace = st.trace ∧
    (modifyCtor st d f).vms = st.vms ∧ (modifyCtor st d f).uid = st.uid ∧
    (modifyCtor st d f).uids = st.uids := by
  unfold modifyCtor
  cases st.ctors[d]? <;> simp

theorem callMerge_ok (env : Env) (p : Nat) (c : Val) (vm : Option Nat) (st st1 : State)
    (r : Nat) (h : callMerge env p c vm st = .ok (st1, r)) :
    ∃ st0, env.mergeOptions p c vm { st with trace := [] } = .ok (st0, r) ∧
      st1 = { st0 with trace := st.trace ++ [.mergeOptions p c vm r] } := by
  unfold callMerge at h
  cases hx : env.mergeOptions p c vm { st with trace := [] } with
  | ok a =>
    obtain ⟨st0, r0⟩ := a
    simp only [hx, Res.ok.injEq, Prod.mk.injEq] at h
    obtain ⟨h1, h2⟩ := h
    subst h2
    exact ⟨st0, rfl, h1.symm⟩
  | throw x sx => simp [hx] at h
  | diverge => simp [hx] at h

theorem registerSelf_ok (d o : Nat) (st st1 : State) (h : registerSelf d o st = .ok st1) :
    st1.ctors = st.ctors ∧ st1.trace = st.trace ∧ st1.vms = st.vms ∧ st1.uid = st.uid ∧
    st1.uids = st.uids := by
  unfold registerSelf at h
  simp only at h
  split at h
  · cases hs : setV st.objs (getProp st.objs o (.str "components"))
        (toKey (getProp st.objs o (.str "name"))) (.ctor d) with
    | ok objs =>
      simp only [hs, Res.bind, Res.ok.injEq, Res.bind, Res.ofExcept_ok] at h
      subst h
      simp
    | error x => simp [hs, Res.bind] at h
  · simp only [Res.ok.injEq] at h
    subst h
    simp

theorem modifyCtor_ctors (st : State) (d : Nat) (f : Ctor → Ctor) (c : Ctor)
    (h : st.ctors[d]? = some c) : (modifyCtor st d f).ctors = st.ctors.set d (f c) := by
  unfold modifyCtor
  simp [h]

/-- What a recomputation that returns has done. -/
theorem recompute_ok (env : Env) (hm : env.MergeKeepsCtors) (d p : Nat) (st st1 : State)
    (r : Nat) (h : recompute env d p st = .ok (st1, r)) :
    ∃ c, st.ctors[d]? = some c ∧
      st1.ctors = st.ctors.set d { c with superOptions := some p, options := r } ∧
      st1.trace = st.trace ++ [.mergeOptions p (.obj c.extendOptions) none r] ∧
      ∃ st2 st0, st2.objs = foldedObjs st c ∧ st2.vms = st.vms ∧
        env.mergeOptions p (.obj c.extendOptions) none st2 = .ok (st0, r) ∧
        registerSelf d r { st0 with ctors := st1.ctors, trace := st1.trace } = .ok st1 := by
  unfold recompute at h
  simp only at h
  cases hc : getCtor (modifyCtor st d fun c => { c with superOptions := some p }) d with
  | error x => simp [hc, Res.bind] at h
  | ok c1 =>
    simp only [hc, Res.bind, Res.ofExcept_ok] at h
    rw [getCtor_ok, modifyCtor_get] at hc
    simp only [if_true] at hc
    cases hc0 : st.ctors[d]? with
    | none => simp [hc0] at hc
    | some c =>
      simp only [hc0, Option.map_some', Option.some.injEq] at hc
      subst hc
      refine ⟨c, rfl, ?_⟩
      have hres : resolveModifiedOptions
          (modifyCtor st d fun c => { c with superOptions := some p })
          { c with superOptions := some p } = resolveModifiedOptions st c := by
        simp only [resolveModifiedOptions, (modifyCtor_frame st d _).1]
      rw [hres] at h
      generalize hst2 : (match resolveModifiedOptions st c with
        | some modifiedOptions =>
          { (modifyCtor st d fun c => { c with superOptions := some p }) with
            objs := extend (modifyCtor st d fun c => { c with superOptions := some p }).objs
              c.extendOptions modifiedOptions }
        | none => modifyCtor st d fun c => { c with superOptions := some p }) = st2 at h
      have h2 : st2.ctors = st.ctors.set d { c with superOptions := some p } ∧
          st2.trace = st.trace ∧ st2.objs = foldedObjs st c ∧ st2.vms = st.vms := by
        have hf := modifyCtor_frame st d fun c => { c with superOptions := some p }
        have hcs := modifyCtor_ctors st d (fun c => { c with superOptions := some p }) c hc0
        subst hst2
        unfold foldedObjs
        split <;> simp [hf.1, hf.2.1, hf.2.2.1, hcs]
      obtain ⟨h2c, h2t, h2o, h2v⟩ := h2
      cases hmg : callMerge env p (.obj c.extendOptions) none st2 with
      | throw x sx => simp [hmg] at h
      | diverge => simp [hmg] at h
      | ok a =>
        obtain ⟨st3, o⟩ := a
        simp only [hmg] at h
        obtain ⟨st0, hx, rfl⟩ := callMerge_ok env p _ none st2 st3 o hmg
        have hk := hm _ _ _ _ _ _ hx
        simp only at hk
        cases hr : registerSelf d o (modifyCtor { st0 with
            trace := st2.trace ++ [.mergeOptions p (.obj c.extendOptions) none o] } d
            fun c => { c with options := o }) with
        | throw x sx => simp [hr] at h
        | diverge => simp [hr] at h
        | ok st4 =>
          simp only [hr, Res.ok.injEq, Prod.mk.injEq] at h
          obtain ⟨rfl, rfl⟩ := h
          obtain ⟨hrc, hrt, -⟩ := registerSelf_ok _ _ _ _ hr
          have hget : st0.ctors[d]? = some { c with superOptions := some p } := by
            rw [hk, h2c]
            have hlt : d < st.ctors.length := by
              by_contra hge
              rw [List.getElem?_eq_none (by omega)] at hc0
              exact Option.noConfusion hc0
            simp [List.getElem?_set_self, hlt]
          have hmc := modifyCtor_ctors { st0 with
            trace := st2.trace ++ [.mergeOptions p (.obj c.extendOptions) none o] } d
            (fun c => { c with options := o }) _ hget
          have hmf := modifyCtor_frame { st0 with
            trace := st2.trace ++ [.mergeOptions p (.obj c.extendOptions) none o] } d
            (fun c => { c with options := o })
          have hctors : st4.ctors =
              st.ctors.set d { c with superOptions := some p, options := o } := by
            rw [hrc, hmc]
            simp only [hk, h2c, List.set_set]
          have htrace : st4.trace =
              st.trace ++ [.mergeOptions p (.obj c.extendOptions) none o] := by
            rw [hrt, hmf.2.1, ← h2t]
          refine ⟨hctors, htrace, { st2 with trace := [] }, st0, h2o, h2v, hx, ?_⟩
          rw [← hr]
          congr 1
          unfold modifyCtor
          simp only [hget]
          rw [hctors, htrace, hk, h2c, h2t]
          simp [List.set_set]

theorem getElem?_set_map {α β : Type} (l : List α) (d i : Nat) (a b : α) (g : α → β)
    (h : l[d]? = some a) (hg : g b = g a) : (l.set d b)[i]?.map g = l[i]?.map g := by
  by_cases hi : d = i
  · subst hi
    have hlt : d < l.length := by
      by_contra hge
      rw [List.getElem?_eq_none (by omega)] at h
      exact Option.noConfusion h
    simp [List.getElem?_set_self, hlt, h, hg]
  · simp [List.getElem?_set_ne hi]

/-- A resolution that returns writes only the `options` and `superOptions` of definitions; in
particular the `super` links stay. -/
theorem resolve_keeps_links (env : Env) (hm : env.MergeKeepsCtors) :
    ∀ (fuel d : Nat) (st st1 : State) (r : Nat),
      resolveConstructorOptions env fuel d st = .ok (st1, r) →
      ∀ i : Nat, (st1.ctors[i]?).map Ctor.fixed = (st.ctors[i]?).map Ctor.fixed := by
  intro fuel
  induction fuel with
  | zero => intro d st st1 r h; simp [resolveConstructorOptions] at h
  | succ n ih =>
    intro d st st1 r h i
    unfold resolveConstructorOptions at h
    cases hc : getCtor st d with
    | error x => simp [hc, Res.bind] at h
    | ok c =>
      simp only [hc, Res.bind, Res.ofExcept_ok] at h
      cases hs : c.super with
      | none =>
        simp only [hs, Res.ok.injEq, Prod.mk.injEq] at h
        rw [← h.1]
      | some sup =>
        simp only [hs] at h
        cases hrec : resolveConstructorOptions env n sup st with
        | throw x sx => simp [hrec] at h
        | diverge => simp [hrec] at h
        | ok a =>
          obtain ⟨sA, p⟩ := a
          simp only [hrec] at h
          have ihA := ih sup st sA p hrec
          cases hc1 : getCtor sA d with
          | error x => simp [hc1] at h
          | ok c1 =>
            simp only [hc1, Res.ofExcept_ok] at h
            split at h
            · obtain ⟨c2, hc2, hct, -⟩ := recompute_ok env hm d p sA st1 r h
              rw [hct, ← ihA i]
              exact getElem?_set_map sA.ctors d i c2 _ _ hc2 rfl
            · simp only [Res.ok.injEq, Prod.mk.injEq] at h
              rw [← h.1]
              exact ihA i

theorem isSuperChain_congr (st st1 : State)
    (h : ∀ i : Nat, (st1.ctors[i]?).map Ctor.fixed = (st.ctors[i]?).map Ctor.fixed)
    (c : List Nat) : ∀ src, isSuperChain st1 src c = isSuperChain st src c := by
  induction c with
  | nil => intro src; cases src <;> simp [isSuperChain]
  | cons j rest ih =>
    intro src
    cases src with
    | none => simp [isSuperChain]
    | some i =>
      simp only [isSuperChain]
      have hi := h i
      cases h1 : st1.ctors[i]? with
      | none =>
        cases h0 : st.ctors[i]? with
        | none => rfl
        | some c0 => simp [h1, h0] at hi
      | some c1 =>
        cases h0 : st.ctors[i]? with
        | none => simp [h1, h0] at hi
        | some c0 =>
          simp only [h1, h0, Option.map_some', Option.some.injEq, Ctor.fixed,
            Prod.mk.injEq] at hi
          simp only [hi.1, ih]

theorem isSuperChain_cons (st : State) (d : Nat) (c : List Nat)
    (h : isSuperChain st (some d) c = true) :
    ∃ cd rest, c = d :: rest ∧ st.ctors[d]? = some cd ∧ isSuperChain st cd.super rest = true := by
  cases c with
  | nil => simp [isSuperChain] at h
  | cons j rest =>
    simp only [isSuperChain, Bool.and_eq_true, beq_iff_eq] at h
    obtain ⟨rfl, h2⟩ := h
    cases hc : st.ctors[d]? with
    | none => simp [hc] at h2
    | some cd =>
      simp only [hc] at h2
      exact ⟨cd, rest, rfl, rfl, h2⟩

/-- A resolution that returns leaves every definition outside the chain as it is. -/
theorem resolve_frame (env : Env) (hm : env.MergeKeepsCtors) :
    ∀ (fuel d : Nat) (st st1 : State) (r : Nat) (c : List Nat),
      resolveConstructorOptions env fuel d st = .ok (st1, r) →
      isSuperChain st (some d) c = true →
      ∀ i : Nat, i ∉ c → st1.ctors[i]? = st.ctors[i]? := by
  intro fuel
  induction fuel with
  | zero => intro d st st1 r c h; simp [resolveConstructorOptions] at h
  | succ n ih =>
    intro d st st1 r c h hch i hi
    obtain ⟨cd, rest, rfl, hcd, hrest⟩ := isSuperChain_cons st d c hch
    unfold resolveConstructorOptions at h
    simp only [(getCtor_ok st d cd).mpr hcd, Res.bind, Res.ofExcept_ok] at h
    cases hs : cd.super with
    | none =>
      simp only [hs, Res.ok.injEq, Prod.mk.injEq] at h
      rw [← h.1]
    | some sup =>
      simp only [hs] at h hrest
      cases hrec : resolveConstructorOptions env n sup st with
      | throw x sx => simp [hrec] at h
      | diverge => simp [hrec] at h
      | ok a =>
        obtain ⟨sA, p⟩ := a
        simp only [hrec] at h
        have hi2 : i ∉ rest := fun hm => hi (List.mem_cons_of_mem _ hm)
        have ihA := ih sup st sA p rest hrec hrest i hi2
        cases hc1 : getCtor sA d with
        | error x => simp [hc1] at h
        | ok c1 =>
          simp only [hc1, Res.bind, Res.ofExcept_ok] at h
          split at h
          · obtain ⟨c2, hc2, hct, -⟩ := recompute_ok env hm d p sA st1 r h
            have hne : d ≠ i := fun e => hi (by rw [e]; exact List.mem_cons_self _ _)
            rw [hct, List.getElem?_set_ne hne]
            exact ihA
          · simp only [Res.ok.injEq, Prod.mk.injEq] at h
            rw [← h.1]
            exact ihA

theorem settled_congr (st st1 : State) (c : List Nat)
    (h : ∀ i : Nat, i ∈ c → st1.ctors[i]? = st.ctors[i]?) : settled st1 c = settled st c := by
  induction c with
  | nil => rfl
  | cons d rest ih =>
    cases rest with
    | nil => simp only [settled, h d (List.mem_cons_self _ _)]
    | cons s rest2 =>
      simp only [settled, h d (List.mem_cons_self _ _),
        h s (List.mem_cons_of_mem _ (List.mem_cons_self _ _))]
      rw [ih (fun i hi => h i (List.mem_cons_of_mem _ hi))]

/-- On a settled chain a resolution is a pure cache hit: it returns the cached `options` and
changes nothing. -/
theorem resolve_hit (env : Env) (st : State) :
    ∀ (c : List Nat) (fuel d : Nat) (cd : Ctor), settled st (d :: c) = true →
      c.length < fuel → st.ctors[d]? = some cd →
      resolveConstructorOptions env fuel d st = .ok (st, cd.options) := by
  intro c
  induction c with
  | nil =>
    intro fuel d cd hs hf hcd
    cases fuel with
    | zero => simp at hf
    | succ n =>
      simp only [settled, hcd, Option.isNone_iff_eq_none] at hs
      unfold resolveConstructorOptions
      simp only [(getCtor_ok st d cd).mpr hcd, Res.bind, Res.ofExcept_ok, hs]
  | cons s rest ih =>
    intro fuel d cd hs hf hcd
    cases fuel with
    | zero => simp at hf
    | succ n =>
      simp only [settled, hcd, Bool.and_eq_true] at hs
      obtain ⟨h1, h2⟩ := hs
      cases hcs : st.ctors[s]? with
      | none => simp [hcs] at h1
      | some cs =>
        simp only [hcs, Bool.and_eq_true, beq_iff_eq] at h1
        unfold resolveConstructorOptions
        simp only [(getCtor_ok st d cd).mpr hcd, Res.bind, Res.ofExcept_ok, h1.1,
          ih n s cs h2 (by simpa using hf) hcs, h1.2]
        simp

theorem getElem?_lt {α : Type} (l : List α) (d : Nat) (a : α) (h : l[d]? = some a) :
    d < l.length := by
  by_contra hge
  rw [List.getElem?_eq_none (by omega)] at h
  exact Option.noConfusion h

/-- After a resolution that returns, the chain is settled and the value returned is the
`options` the definition now caches. -/
theorem resolve_settles (env : Env) (hm : env.MergeKeepsCtors) :
    ∀ (c : List Nat) (fuel d : Nat) (st st1 : State) (r : Nat),
      isSuperChain st (some d) c = true → c.Nodup →
      resolveConstructorOptions env fuel d st = .ok (st1, r) →
      settled st1 c = true ∧ c.length ≤ fuel ∧ ∃ cd, st1.ctors[d]? = some cd ∧ cd.options = r := by
  intro c
  induction c with
  | nil => intro fuel d st st1 r hch; simp [isSuperChain] at hch
  | cons j rest ih =>
    intro fuel d st st1 r hch hnd h
    obtain ⟨cd, rest1, hc, hcd, hrest⟩ := isSuperChain_cons st d _ hch
    simp only [List.cons.injEq] at hc
    obtain ⟨rfl, rfl⟩ := hc
    cases fuel with
    | zero => simp [resolveConstructorOptions] at h
    | succ n =>
      unfold resolveConstructorOptions at h
      simp only [(getCtor_ok st j cd).mpr hcd, Res.bind, Res.ofExcept_ok] at h
      cases hs : cd.super with
      | none =>
        simp only [hs, Res.ok.injEq, Prod.mk.injEq] at h
        obtain ⟨rfl, rfl⟩ := h
        rw [hs] at hrest
        cases rest with
        | nil => exact ⟨by simp [settled, hcd, hs], by simp, cd, hcd, rfl⟩
        | cons x xs => simp [isSuperChain] at hrest
      | some sup =>
        simp only [hs] at h hrest
        obtain ⟨cs0, rest2, hr2, -, -⟩ := isSuperChain_cons st sup _ hrest
        subst hr2
        have hnd2 := List.nodup_cons.mp hnd
        cases hrec : resolveConstructorOptions env n sup st with
        | throw x sx => simp [hrec] at h
        | diverge => simp [hrec] at h
        | ok a =>
          obtain ⟨sA, p⟩ := a
          simp only [hrec] at h
          obtain ⟨hsettled, hlen, cs, hcs, hp⟩ := ih n sup st sA p hrest hnd2.2 hrec
          have hlen2 : (j :: sup :: rest2).length ≤ n + 1 := by
            simp only [List.length_cons] at hlen ⊢; omega
          have hdA : sA.ctors[j]? = some cd := by
            rw [resolve_frame env hm n sup st sA p _ hrec hrest j hnd2.1]; exact hcd
          have hne : j ≠ sup := fun e => hnd2.1 (by rw [e]; exact List.mem_cons_self _ _)
          simp only [(getCtor_ok sA j cd).mpr hdA, Res.ofExcept_ok, Res.bind] at h
          split at h
          · obtain ⟨c2, hc2, hct, -⟩ := recompute_ok env hm j p sA st1 r h
            rw [hdA] at hc2
            simp only [Option.some.injEq] at hc2
            subst hc2
            have hj : st1.ctors[j]? = some { cd with superOptions := some p, options := r } := by
              rw [hct]
              simp [List.getElem?_set_self, getElem?_lt _ _ _ hdA]
            have hsup : st1.ctors[sup]? = some cs := by
              rw [hct, List.getElem?_set_ne hne]; exact hcs
            refine ⟨?_, hlen2, _, hj, rfl⟩
            simp only [settled, hj, hsup, hs, hp, beq_self_eq_true, Bool.and_self, Bool.true_and]
            rw [settled_congr sA st1 _ (fun i hi => by
              have hij : j ≠ i := fun e => hnd2.1 (by rw [e]; exact hi)
              rw [hct, List.getElem?_set_ne hij])]
            exact hsettled
          · rename_i hhit
            simp only [Res.ok.injEq, Prod.mk.injEq] at h
            obtain ⟨rfl, rfl⟩ := h
            refine ⟨?_, hlen2, cd, hdA, rfl⟩
            have hso : cd.superOptions = some cs.options := by
              rw [hp]
              by_contra hcon
              exact hhit (fun e => hcon e.symm)
            simp only [settled, hdA, hcs, hs, hso, beq_self_eq_true, Bool.and_self,
              Bool.true_and]
            exact hsettled

theorem mergeEnv_keepsCtors : mergeEnv.MergeKeepsCtors := by
  intro p c vm st st1 r h
  simp only [mergeEnv, mergeDefault, Res.ok.injEq, Prod.mk.injEq] at h
  rw [← h.1]

/-! ## C4: merge determinism, cache hit -/

/-- C4: for a definition `d` with a finite acyclic `super` chain `c`, when a call of
`resolveConstructorOptions` returns configuration `r` in state `st1`, the same call made again
in `st1` returns the same reference `r` and leaves the state exactly as it was (no cached field
of any definition changes, nothing is called). A definition without parent gets back its own
cached `options` and nothing changes. A definition whose parent resolves to the very object it
caches as `superOptions` gets back its cached `options`, the state being the one the parent's
resolution left: the merge function is not called. The merge function is taken not to write
fields of definitions. -/
theorem resolve_twice_same (env : Env) (hm : env.MergeKeepsCtors) (fuel d : Nat)
    (st st1 : State) (r : Nat) (c : List Nat)
    (hch : isSuperChain st (some d) c = true) (hnd : c.Nodup)
    (h1 : resolveConstructorOptions env fuel d st = .ok (st1, r)) :
    resolveConstructorOptions env fuel d st1 = .ok (st1, r) ∧
    (∀ cd n, st.ctors[d]? = some cd → cd.super = none →
      resolveConstructorOptions env (n + 1) d st = .ok (st, cd.options)) ∧
    (∀ cd sup n sA p cA, st.ctors[d]? = some cd → cd.super = some sup →
      resolveConstructorOptions env n sup st = .ok (sA, p) → sA.ctors[d]? = some cA →
      cA.superOptions = some p →
      resolveConstructorOptions env (n + 1) d st = .ok (sA, cd.options)) := by
  refine ⟨?_, ?_, ?_⟩
  · obtain ⟨hs, hlen, cd, hcd, hr⟩ := resolve_settles env hm c fuel d st st1 r hch hnd h1
    obtain ⟨_, rest, rfl, _, _⟩ := isSuperChain_cons st d c hch
    rw [← hr]
    exact resolve_hit env st1 rest fuel d cd hs (by simpa using hlen) hcd
  · intro cd n hcd hs
    unfold resolveConstructorOptions
    simp only [(getCtor_ok st d cd).mpr hcd, Res.bind, Res.ofExcept_ok, hs]
  · intro cd sup n sA p cA hcd hs hrec hcA hso
    unfold resolveConstructorOptions
    simp only [(getCtor_ok st d cd).mpr hcd, Res.bind, Res.ofExcept_ok, hs, hrec, (getCtor_ok sA d cA).mpr hcA,
      hso]
    simp

/-- Witness for C4: `Base`'s configuration was replaced, the first resolution of `Child` computes
the new object 5, the second returns object 5 again and changes nothing. -/
theorem resolve_twice_same_witness :
    resolveConstructorOptions mergeEnv 2 1 baseReplaced = .ok (childRecomputed, 5) ∧
    resolveConstructorOptions mergeEnv 2 1 childRecomputed = .ok (childRecomputed, 5) :=
  ⟨by decide,
    (resolve_twice_same mergeEnv mergeEnv_keepsCtors 2 1 baseReplaced childRecomputed 5 [1, 0]
      (by decide) (by decide) (by decide)).1⟩
/-! ## Heap writes and late-modified options: lemmas -/

theorem setProp_length (objs : List Obj) (t : Nat) (k : Key) (v : Val) :
    (setProp objs t k v).length = objs.length := by
  unfold setProp
  cases objs[t]? <;> simp

theorem setProp_get (objs : List Obj) (t r : Nat) (k : Key) (v : Val) :
    (setProp objs t k v)[r]? =
      if r = t then (objs[t]?).map fun o => { o with props := setOwn o.props k v }
      else objs[r]? := by
  unfold setProp
  cases h : objs[t]? with
  | none =>
    by_cases hr : r = t
    · subst hr; simp [h]
    · simp [hr]
  | some o =>
    by_cases hr : r = t
    · subst hr
      simp [List.getElem?_set_self, getElem?_lt _ _ _ h]
    · have hne : t ≠ r := fun e => hr e.symm
      simp [hr, List.getElem?_set_ne hne]

theorem getChain_setProp_ne (objs : List Obj) (t : Nat) (k f : Key) (v : Val) (hkf : f ≠ k) :
    ∀ (n r : Nat), getChain (setProp objs t k v) n r f = getChain objs n r f := by
  intro n
  induction n with
  | zero => intro r; rfl
  | succ n ih =>
    intro r
    simp only [getChain, setProp_get]
    by_cases hr : r = t
    · subst hr
      cases h : objs[r]? with
      | none => simp
      | some o =>
        simp only [if_true, Option.map_some', getOwn?_setOwn_ne o.props k f v hkf, ih]
    · simp only [hr, if_false, ih]

theorem getProp_setProp_ne (objs : List Obj) (t r : Nat) (k f : Key) (v : Val) (hkf : f ≠ k) :
    getProp (setProp objs t k v) r f = getProp objs r f := by
  unfold getProp
  rw [setProp_length, getChain_setProp_ne objs t k f v hkf]

theorem foldl_setProp_ne (t r : Nat) (f : Key) (ps : List Property) :
    ∀ objs : List Obj, (∀ p ∈ ps, p.key ≠ f) →
      getProp (ps.foldl (fun h p => setProp h t p.key p.value) objs) r f = getProp objs r f := by
  induction ps with
  | nil => intro objs _; rfl
  | cons p ps ih =>
    intro objs h
    simp only [List.foldl_cons]
    rw [ih _ (fun q hq => h q (List.mem_cons_of_mem _ hq))]
    exact getProp_setProp_ne objs t r p.key f p.value
      (fun e => h p (List.mem_cons_self _ _) e.symm)

/-- Folding fields into an object leaves every lookup of another key as it was. -/
theorem getProp_extend_ne (objs : List Obj) (t r : Nat) (f : Key) (m : List Property)
    (h : ∀ p ∈ m, p.key ≠ f) : getProp (extend objs t m) r f = getProp objs r f := by
  unfold extend
  exact foldl_setProp_ne t r f _ objs (fun p hp => h p (List.mem_of_mem_filter hp))

theorem mem_setOwn (ps : List Property) (k : Key) (v : Val) (q : Property)
    (h : q ∈ setOwn ps k v) : q.key = k ∧ q.value = v ∨ q ∈ ps := by
  induction ps with
  | nil =>
    simp only [setOwn, List.mem_singleton] at h
    subst h
    exact Or.inl ⟨rfl, rfl⟩
  | cons p ps ih =>
    simp only [setOwn] at h
    split at h
    · rename_i hp
      rcases List.mem_cons.mp h with h | h
      · subst h
        exact Or.inl ⟨hp, rfl⟩
      · exact Or.inr (List.mem_cons_of_mem _ h)
    · rcases List.mem_cons.mp h with h | h
      · subst h
        exact Or.inr (List.mem_cons_self _ _)
      · rcases ih h with h | h
        · exact Or.inl h
        · exact Or.inr (List.mem_cons_of_mem _ h)

/-- What the loop of `resolveModifiedOptions` collects: under each visited key whose current
value differs from the sealed one, the current value; under any other key what was there. -/
theorem modifiedLoop_get (objs : List Obj) (l s : Nat) (k : Key) :
    ∀ (keys : List Key) (modified : Option (List Property)),
      getOwn? ((modifiedLoop objs l s keys modified).getD []) k =
        if k ∈ keys ∧ getProp objs l k ≠ getProp objs s k then some (getProp objs l k)
        else getOwn? (modified.getD []) k := by
  intro keys
  induction keys with
  | nil => intro modified; simp [modifiedLoop]
  | cons key keys ih =>
    intro modified
    simp only [modifiedLoop]
    by_cases hd : getProp objs l key = getProp objs s key
    · simp only [hd, ne_eq, not_true_eq_false, if_false, ih]
      by_cases hk : k = key
      · subst hk
        simp [hd]
      · simp [hk]
    · simp only [ne_eq, hd, not_false_eq_true, if_true, ih, Option.getD_some]
      by_cases hk : k = key
      · subst hk
        simp [hd, getOwn?_setOwn_self]
      · simp [hk, getOwn?_setOwn_ne _ _ _ _ hk]

theorem modifiedLoop_none (objs : List Obj) (l s : Nat) :
    ∀ (keys : List Key) (modified : Option (List Property)),
      modifiedLoop objs l s keys modified = none ↔
        modified = none ∧ ∀ k ∈ keys, getProp objs l k = getProp objs s k := by
  intro keys
  induction keys with
  | nil => intro modified; simp [modifiedLoop]
  | cons key keys ih =>
    intro modified
    simp only [modifiedLoop]
    by_cases hd : getProp objs l key = getProp objs s key
    · simp only [hd, ne_eq, not_true_eq_false, if_false, ih, List.mem_cons, forall_eq_or_imp,
        true_and]
    · simp only [ne_eq, hd, not_false_eq_true, if_true, ih, List.mem_cons, forall_eq_or_imp,
        false_and, and_false]
      simp

theorem forInChain_str (objs : List Obj) :
    ∀ (n r : Nat) (seen : List Key) (k : Key), k ∈ forInChain objs n r seen →
      ∃ s, k = .str s := by
  intro n
  induction n with
  | zero => intro r seen k h; simp [forInChain] at h
  | succ n ih =>
    intro r seen k h
    simp only [forInChain] at h
    cases ho : objs[r]? with
    | none => simp [ho] at h
    | some o =>
      simp only [ho, List.mem_append, List.mem_map, List.mem_filter, Bool.and_eq_true] at h
      rcases h with ⟨p, ⟨_, hl, _⟩, rfl⟩ | h
      · unfold Property.listed at hl
        cases hk : p.key with
        | str s => exact ⟨s, rfl⟩
        | sym i => simp [hk] at hl
      · cases hp : o.proto with
        | none => simp [hp] at h
        | some q =>
          simp only [hp] at h
          exact ih q _ k h

theorem ownKeys_setOwn (ps : List Property) (k : Key) (v : Val) :
    ownKeys (setOwn ps k v) = if k ∈ ownKeys ps then ownKeys ps else ownKeys ps ++ [k] := by
  induction ps with
  | nil => simp [setOwn, ownKeys]
  | cons p ps ih =>
    simp only [ownKeys] at ih
    by_cases hp : p.key = k
    · simp [setOwn, ownKeys, hp]
    · have hp2 : ¬ k = p.key := fun e => hp e.symm
      simp only [setOwn, hp, if_false, ownKeys, List.map_cons, List.mem_cons, hp2, false_or, ih]
      split <;> simp

theorem setOwn_plain (m : List Property) (s : String) (v : Val) (h : PlainProps m) :
    PlainProps (setOwn m (.str s) v) := by
  obtain ⟨hl, hn⟩ := h
  constructor
  · clear hn
    induction m with
    | nil =>
      intro p hp
      simp only [setOwn, List.mem_singleton] at hp
      subst hp
      rfl
    | cons q qs ih =>
      intro p hp
      simp only [setOwn] at hp
      split at hp
      · rename_i hq
        rcases List.mem_cons.mp hp with hp | hp
        · subst hp
          have := hl q (List.mem_cons_self _ _)
          simpa [Property.listed] using this
        · exact hl p (List.mem_cons_of_mem _ hp)
      · rcases List.mem_cons.mp hp with hp | hp
        · subst hp
          exact hl p (List.mem_cons_self _ _)
        · exact ih (fun x hx => hl x (List.mem_cons_of_mem _ hx)) p hp
  · rw [ownKeys_setOwn]
    split
    · exact hn
    · rename_i hk
      exact List.Nodup.append hn (List.nodup_singleton _) (by simpa using hk)

theorem modifiedLoop_plain (objs : List Obj) (l s : Nat) :
    ∀ (keys : List Key) (modified : Option (List Property)),
      (∀ k ∈ keys, ∃ x, k = Key.str x) → PlainProps (modified.getD []) →
      PlainProps ((modifiedLoop objs l s keys modified).getD []) := by
  intro keys
  induction keys with
  | nil => intro modified _ h; simpa [modifiedLoop] using h
  | cons key keys ih =>
    intro modified hk h
    simp only [modifiedLoop]
    obtain ⟨x, rfl⟩ := hk key (List.mem_cons_self _ _)
    split
    · exact ih _ (fun k hk2 => hk k (List.mem_cons_of_mem _ hk2)) (setOwn_plain _ x _ h)
    · exact ih _ (fun k hk2 => hk k (List.mem_cons_of_mem _ hk2)) h

theorem ownProps_setProp (objs : List Obj) (t r : Nat) (k : Key) (v : Val)
    (ht : t < objs.length) :
    ownProps (setProp objs t k v) r =
      if r = t then setOwn (ownProps objs t) k v else ownProps objs r := by
  unfold ownProps
  rw [setProp_get]
  by_cases hr : r = t
  · subst hr
    simp only [if_true]
    cases h : objs[r]? with
    | none =>
      rw [List.getElem?_eq_none_iff] at h
      omega
    | some o => rfl
  · simp only [hr, if_false]

theorem foldl_setProp_own (t : Nat) (k : Key) (ps : List Property) :
    ∀ objs : List Obj, t < objs.length → (ownKeys ps).Nodup →
      getOwn? (ownProps (ps.foldl (fun h p => setProp h t p.key p.value) objs) t) k =
        match getOwn? ps k with
        | some v => some v
        | none => getOwn? (ownProps objs t) k := by
  induction ps with
  | nil => intro objs _ _; rfl
  | cons p ps ih =>
    intro objs ht hn
    simp only [ownKeys, List.map_cons, List.nodup_cons] at hn
    simp only [List.foldl_cons]
    rw [ih _ (by rw [setProp_length]; exact ht) hn.2, ownProps_setProp objs t t _ _ ht]
    simp only [if_true, getOwn?]
    by_cases hp : p.key = k
    · subst hp
      have hnone : getOwn? ps p.key = none := by
        have hnot := hn.1
        clear ih hn
        induction ps with
        | nil => rfl
        | cons q qs ihq =>
          simp only [List.map_cons, List.mem_cons, not_or] at hnot
          simp only [getOwn?]
          rw [if_neg (fun e => hnot.1 e.symm)]
          exact ihq hnot.2
      simp [hnone, getOwn?_setOwn_self]
    · have hk : k ≠ p.key := fun e => hp e.symm
      simp only [hp, if_false, getOwn?_setOwn_ne _ _ _ _ hk]

theorem foldl_setProp_other (t r : Nat) (hr : r ≠ t) (ps : List Property) :
    ∀ objs : List Obj,
      ownProps (ps.foldl (fun h p => setProp h t p.key p.value) objs) r = ownProps objs r := by
  induction ps with
  | nil => intro objs; rfl
  | cons p ps ih =>
    intro objs
    simp only [List.foldl_cons]
    rw [ih]
    unfold ownProps
    rw [setProp_get]
    simp [hr]

/-- Folding plain fields into an object of the heap: each field lands as an own entry with its
value, the other own entries of the object stay, and no other object is written. -/
theorem extend_own (objs : List Obj) (t : Nat) (m : List Property) (hm : PlainProps m)
    (ht : t < objs.length) :
    (∀ k, getOwn? (ownProps (extend objs t m) t) k =
      match getOwn? m k with
      | some v => some v
      | none => getOwn? (ownProps objs t) k) ∧
    (∀ r, r ≠ t → ownProps (extend objs t m) r = ownProps objs r) := by
  have hf : m.filter Property.listed = m := List.filter_eq_self.mpr hm.1
  unfold extend
  rw [hf]
  exact ⟨fun k => foldl_setProp_own t k m objs ht hm.2,
    fun r hr => foldl_setProp_other t r hr m objs⟩

theorem resolveModifiedOptions_get (st : State) (c : Ctor) (m : List Property)
    (h : resolveModifiedOptions st c = some m) (k : Key) :
    getOwn? m k =
      if lateModified st.objs c k then some (getProp st.objs c.options k) else none := by
  have hg := modifiedLoop_get st.objs c.options c.sealedOptions k
    (forInKeys st.objs c.options) none
  unfold resolveModifiedOptions at h
  rw [h] at hg
  simp only [Option.getD_some, Option.getD_none, getOwn?] at hg
  rw [hg]
  unfold lateModified
  by_cases h1 : k ∈ forInKeys st.objs c.options <;>
    by_cases h2 : getProp st.objs c.options k = getProp st.objs c.sealedOptions k <;>
    simp [h1, h2]

theorem resolveModifiedOptions_plain (st : State) (c : Ctor) (m : List Property)
    (h : resolveModifiedOptions st c = some m) : PlainProps m := by
  have hp := modifiedLoop_plain st.objs c.options c.sealedOptions (forInKeys st.objs c.options)
    none (fun k hk => forInChain_str st.objs _ _ _ k hk) ⟨by simp, by simp [ownKeys]⟩
  unfold resolveModifiedOptions at h
  rw [h] at hp
  exact hp

theorem resolveModifiedOptions_none (st : State) (c : Ctor) :
    resolveModifiedOptions st c = none ↔
      ∀ k ∈ forInKeys st.objs c.options,
        getProp st.objs c.options k = getProp st.objs c.sealedOptions k := by
  unfold resolveModifiedOptions
  rw [modifiedLoop_none]
  simp

/-- The own entries of `extendOptions` in the heap handed to the merge. -/
theorem foldedObjs_own (st : State) (c : Ctor) (hext : c.extendOptions < st.objs.length) :
    (∀ k, getOwn? (ownProps (foldedObjs st c) c.extendOptions) k =
      if lateModified st.objs c k then some (getProp st.objs c.options k)
      else getOwn? (ownProps st.objs c.extendOptions) k) ∧
    (∀ x, x ≠ c.extendOptions → ownProps (foldedObjs st c) x = ownProps st.objs x) := by
  unfold foldedObjs
  cases hmo : resolveModifiedOptions st c with
  | none =>
    refine ⟨fun k => ?_, fun x _ => rfl⟩
    have hall := (resolveModifiedOptions_none st c).mp hmo
    have : lateModified st.objs c k = false := by
      unfold lateModified
      by_cases h1 : k ∈ forInKeys st.objs c.options
      · simp [h1, hall k h1]
      · simp [h1]
    simp [this]
  | some m =>
    obtain ⟨h1, h2⟩ := extend_own st.objs c.extendOptions m
      (resolveModifiedOptions_plain st c m hmo) hext
    refine ⟨fun k => ?_, h2⟩
    rw [h1 k, resolveModifiedOptions_get st c m hmo k]
    cases lateModified st.objs c k <;> simp

/-! ## C6: late-modification capture -/

/-- C6: `resolveModifiedOptions` returns absent exactly when every field the `for in` loop
visits on the current `options` has a value identical to the one in `sealedOptions`, and
otherwise a map with exactly the late-modified fields, each with its current value. When
`resolveConstructorOptions(d)` finds the parent configuration `p` different from the cached
`superOptions` and returns `r`, then `r` is what `mergeOptions(p, extendOptions)` returned in a
heap where every late-modified field is an own entry of `extendOptions` with its current value,
the other own entries of `extendOptions` are as before, and no other object has been written.
(`sA` is the state the parent's resolution left; the merge function is taken not to write fields
of definitions.) -/
theorem late_modification_capture (env : Env) (hm : env.MergeKeepsCtors) (fuel d sup : Nat)
    (st sA st1 : State) (cd0 cd : Ctor) (p r : Nat)
    (hcd0 : st.ctors[d]? = some cd0) (hsup : cd0.super = some sup)
    (hrec : resolveConstructorOptions env fuel sup st = .ok (sA, p))
    (hcd : sA.ctors[d]? = some cd) (hnew : cd.superOptions ≠ some p)
    (hext : cd.extendOptions < sA.objs.length)
    (h : resolveConstructorOptions env (fuel + 1) d st = .ok (st1, r)) :
    (∀ (s : State) (c : Ctor), resolveModifiedOptions s c = none ↔
      ∀ k ∈ forInKeys s.objs c.options,
        getProp s.objs c.options k = getProp s.objs c.sealedOptions k) ∧
    (∀ (s : State) (c : Ctor) (m : List Property), resolveModifiedOptions s c = some m →
      ∀ k, getOwn? m k =
        if lateModified s.objs c k then some (getProp s.objs c.options k) else none) ∧
    (∃ st2 st0, env.mergeOptions p (.obj cd.extendOptions) none st2 = .ok (st0, r) ∧
      (∀ k, getOwn? (ownProps st2.objs cd.extendOptions) k =
        if lateModified sA.objs cd k then some (getProp sA.objs cd.options k)
        else getOwn? (ownProps sA.objs cd.extendOptions) k) ∧
      (∀ x, x ≠ cd.extendOptions → ownProps st2.objs x = ownProps sA.objs x)) := by
  refine ⟨resolveModifiedOptions_none, resolveModifiedOptions_get, ?_⟩
  unfold resolveConstructorOptions at h
  have hne : some p ≠ cd.superOptions := fun e => hnew e.symm
  simp only [(getCtor_ok st d cd0).mpr hcd0, Res.bind, Res.ofExcept_ok, hsup, hrec,
    (getCtor_ok sA d cd).mpr hcd, Res.ofExcept_ok, hne, ne_eq, not_false_eq_true, if_true] at h
  obtain ⟨c, hc, -, -, st2, st0, ho, -, hmg, -⟩ := recompute_ok env hm d p sA st1 r h
  rw [hcd] at hc
  simp only [Option.some.injEq] at hc
  subst hc
  obtain ⟨h1, h2⟩ := foldedObjs_own sA cd hext
  exact ⟨st2, st0, hmg, fun k => by rw [ho]; exact h1 k, fun x hx => by rw [ho]; exact h2 x hx⟩

/-- Witness for C6: `late` was attached to `Child`'s configuration after sealing and `Base`'s
configuration was replaced; the resolution of `Child` returns object 5, which has `late`, and
the merge that produced it was given `late` as an own entry of `extendOptions` (object 2). -/
theorem late_modification_capture_witness :
    resolveConstructorOptions mergeEnv 2 1 lateState = .ok (lateResolved, 5) ∧
    getOwn? (ownProps lateResolved.objs 5) (.str "late") = some (.num 9) ∧
    lateModified lateState.objs ⟨1, some 0, some 0, 2, 3⟩ (.str "late") = true ∧
    (∃ st2 st0, mergeEnv.mergeOptions 4 (.obj 2) none st2 = .ok (st0, 5) ∧
      (∀ k, getOwn? (ownProps st2.objs 2) k =
        if lateModified lateState.objs ⟨1, some 0, some 0, 2, 3⟩ k
        then some (getProp lateState.objs 1 k)
        else getOwn? (ownProps lateState.objs 2) k) ∧
      (∀ x, x ≠ 2 → ownProps st2.objs x = ownProps lateState.objs x)) :=
  ⟨by decide, by decide, by decide,
    (late_modification_capture mergeEnv mergeEnv_keepsCtors 1 1 0 lateState lateState
      lateResolved ⟨1, some 0, some 0, 2, 3⟩ ⟨1, some 0, some 0, 2, 3⟩ 4 5 (by decide)
      (by decide) (by decide) (by decide) (by decide) (by decide) (by decide)).2.2⟩

/-! ## C7: recomputation postcondition and cache invariant -/

/-- A resolution that returns only adds to the history, and keeps the cache invariant of every
definition. -/
theorem resolve_keeps_inv (env : Env) (hm : env.MergeKeepsCtors) :
    ∀ (fuel e : Nat) (st st1 : State) (r : Nat),
      resolveConstructorOptions env fuel e st = .ok (st1, r) →
      (∃ t, st1.trace = st.trace ++ t) ∧ ∀ d, CacheInv st d → CacheInv st1 d := by
  intro fuel
  induction fuel with
  | zero => intro e st st1 r h; simp [resolveConstructorOptions] at h
  | succ n ih =>
    intro e st st1 r h
    unfold resolveConstructorOptions at h
    cases hc : getCtor st e with
    | error x => simp [hc, Res.bind] at h
    | ok c =>
      simp only [hc, Res.bind, Res.ofExcept_ok] at h
      cases hs : c.super with
      | none =>
        simp only [hs, Res.ok.injEq, Prod.mk.injEq] at h
        rw [← h.1]
        exact ⟨⟨[], by simp⟩, fun d hd => hd⟩
      | some sup =>
        simp only [hs] at h
        cases hrec : resolveConstructorOptions env n sup st with
        | throw x sx => simp [hrec] at h
        | diverge => simp [hrec] at h
        | ok a =>
          obtain ⟨sA, p⟩ := a
          simp only [hrec] at h
          obtain ⟨⟨t, ht⟩, hinv⟩ := ih sup st sA p hrec
          cases hc1 : getCtor sA e with
          | error x => simp [hc1] at h
          | ok c1 =>
            simp only [hc1, Res.ofExcept_ok] at h
            split at h
            · obtain ⟨c2, hc2, hct, htr, -⟩ := recompute_ok env hm e p sA st1 r h
              refine ⟨⟨t ++ [.mergeOptions p (.obj c2.extendOptions) none r], by
                rw [htr, ht, List.append_assoc]⟩, fun d hd => ?_⟩
              by_cases hde : d = e
              · subst hde
                refine ⟨{ c2 with superOptions := some p, options := r }, p, ?_, rfl, ?_⟩
                · rw [hct]
                  simp [List.getElem?_set_self, getElem?_lt _ _ _ hc2]
                · rw [htr]
                  simp
              · obtain ⟨cd, q, hcd, hq, hmem⟩ := hinv d hd
                refine ⟨cd, q, ?_, hq, ?_⟩
                · rw [hct, List.getElem?_set_ne (fun x => hde x.symm)]
                  exact hcd
                · rw [htr]
                  exact List.mem_append_left _ hmem
            · simp only [Res.ok.injEq, Prod.mk.injEq] at h
              rw [← h.1]
              exact ⟨⟨t, ht⟩, hinv⟩

/-- C7: when `resolveConstructorOptions(d)` finds the parent configuration `p` different from
the cached `superOptions` and returns `r`, then on return the definition's `superOptions` is
`p`, its `options` is `r`, its other fields are as before, and `r` is the object
`mergeOptions(p, extendOptions)` returned in the heap where the late-modified fields have been
folded into `extendOptions`. Moreover every call of `resolveConstructorOptions` that returns
keeps the cache invariant of every definition for which it held before. (`sA` is the state the
parent's resolution left; the merge function is taken not to write fields of definitions.) -/
theorem recompute_postcondition (env : Env) (hm : env.MergeKeepsCtors) (fuel d sup : Nat)
    (st sA st1 : State) (cd0 cd : Ctor) (p r : Nat)
    (hcd0 : st.ctors[d]? = some cd0) (hsup : cd0.super = some sup)
    (hrec : resolveConstructorOptions env fuel sup st = .ok (sA, p))
    (hcd : sA.ctors[d]? = some cd) (hnew : cd.superOptions ≠ some p)
    (h : resolveConstructorOptions env (fuel + 1) d st = .ok (st1, r)) :
    st1.ctors[d]? = some { cd with superOptions := some p, options := r } ∧
    (∃ st2 st0, st2.objs = foldedObjs sA cd ∧
      env.mergeOptions p (.obj cd.extendOptions) none st2 = .ok (st0, r)) ∧
    CacheInv st1 d ∧
    (∀ (n e : Nat) (s s1 : State) (x i : Nat),
      resolveConstructorOptions env n e s = .ok (s1, x) → CacheInv s i → CacheInv s1 i) := by
  have hall : ∀ (n e : Nat) (s s1 : State) (x i : Nat),
      resolveConstructorOptions env n e s = .ok (s1, x) → CacheInv s i → CacheInv s1 i :=
    fun n e s s1 x i hres hi => (resolve_keeps_inv env hm n e s s1 x hres).2 i hi
  unfold resolveConstructorOptions at h
  have hne : some p ≠ cd.superOptions := fun e => hnew e.symm
  simp only [(getCtor_ok st d cd0).mpr hcd0, Res.bind, Res.ofExcept_ok, hsup, hrec,
    (getCtor_ok sA d cd).mpr hcd, Res.ofExcept_ok, hne, ne_eq, not_false_eq_true, if_true] at h
  obtain ⟨c, hc, hct, htr, st2, st0, ho, -, hmg, -⟩ := recompute_ok env hm d p sA st1 r h
  rw [hcd] at hc
  simp only [Option.some.injEq] at hc
  subst hc
  have hget : st1.ctors[d]? = some { cd with superOptions := some p, options := r } := by
    rw [hct]
    simp [List.getElem?_set_self, getElem?_lt _ _ _ hcd]
  refine ⟨hget, ⟨st2, st0, ho, hmg⟩, ⟨_, p, hget, rfl, ?_⟩, hall⟩
  rw [htr]
  simp

/-- Witness for C7: `Base`'s configuration was replaced by object 4; the resolution of `Child`
returns the new object 5, and `Child` then caches object 4 as `superOptions` and object 5 as
`options`. -/
theorem recompute_postcondition_witness :
    resolveConstructorOptions mergeEnv 2 1 baseReplaced = .ok (childRecomputed, 5) ∧
    childRecomputed.ctors[1]? = some ⟨5, some 0, some 4, 2, 3⟩ :=
  ⟨by decide,
    (recompute_postcondition mergeEnv mergeEnv_keepsCtors 1 1 0 baseReplaced baseReplaced
      childRecomputed ⟨1, some 0, some 0, 2, 3⟩ ⟨1, some 0, some 0, 2, 3⟩ 4 5 (by decide)
      (by decide) (by decide) (by decide) (by decide) (by decide)).1⟩

/-! ## C5: cache invalidation -/

theorem mem_filter_setOwn (g : Property → Bool) (k f : Key) (v : Val) (hkf : k ≠ f) :
    ∀ ps : List Property,
      f ∈ ((setOwn ps k v).filter g).map (fun p => p.key) ↔
        f ∈ (ps.filter g).map (fun p => p.key) := by
  intro ps
  induction ps with
  | nil =>
    simp only [setOwn, List.filter_nil, List.map_nil, List.not_mem_nil, iff_false]
    intro h
    simp only [List.mem_map, List.mem_filter, List.mem_singleton] at h
    obtain ⟨p, ⟨rfl, _⟩, hp⟩ := h
    exact hkf hp
  | cons p ps ih =>
    simp only [setOwn]
    by_cases hp : p.key = k
    · simp only [hp, if_true, List.mem_map, List.mem_filter, List.mem_cons]
      constructor
      · rintro ⟨q, ⟨hq | hq, hg⟩, hqf⟩
        · subst hq; exact absurd hqf hkf
        · exact ⟨q, ⟨Or.inr hq, hg⟩, hqf⟩
      · rintro ⟨q, ⟨hq | hq, hg⟩, hqf⟩
        · subst hq; rw [hp] at hqf; exact absurd hqf hkf
        · exact ⟨q, ⟨Or.inr hq, hg⟩, hqf⟩
    · simp only [hp, if_false, List.mem_map, List.mem_filter, List.mem_cons]
      simp only [List.mem_map, List.mem_filter] at ih
      constructor
      · rintro ⟨q, ⟨hq | hq, hg⟩, hqf⟩
        · exact ⟨q, ⟨Or.inl hq, hg⟩, hqf⟩
        · obtain ⟨q2, ⟨h1, h2⟩, h3⟩ := ih.mp ⟨q, ⟨hq, hg⟩, hqf⟩
          exact ⟨q2, ⟨Or.inr h1, h2⟩, h3⟩
      · rintro ⟨q, ⟨hq | hq, hg⟩, hqf⟩
        · exact ⟨q, ⟨Or.inl hq, hg⟩, hqf⟩
        · obtain ⟨q2, ⟨h1, h2⟩, h3⟩ := ih.mpr ⟨q, ⟨hq, hg⟩, hqf⟩
          exact ⟨q2, ⟨Or.inr h1, h2⟩, h3⟩

theorem mem_filter_seen (ps : List Property) (f : Key) (seen seen1 : List Key)
    (hs : f ∈ seen1 ↔ f ∈ seen) :
    f ∈ (ps.filter fun p => p.listed && !seen1.contains p.key).map (fun p => p.key) ↔
      f ∈ (ps.filter fun p => p.listed && !seen.contains p.key).map (fun p => p.key) := by
  have hc : seen1.contains f = seen.contains f := by
    by_cases h : f ∈ seen
    · simp [h, hs.mpr h]
    · have h1 : f ∉ seen1 := fun x => h (hs.mp x)
      simp [h, h1]
  simp only [List.mem_map, List.mem_filter, Bool.and_eq_true]
  constructor
  · rintro ⟨q, ⟨hq, hl, hn⟩, rfl⟩
    exact ⟨q, ⟨hq, hl, by rw [← hc]; exact hn⟩, rfl⟩
  · rintro ⟨q, ⟨hq, hl, hn⟩, rfl⟩
    exact ⟨q, ⟨hq, hl, by rw [hc]; exact hn⟩, rfl⟩

theorem mem_forInChain_setProp (objs : List Obj) (t : Nat) (k f : Key) (v : Val)
    (hkf : k ≠ f) :
    ∀ (n r : Nat) (seen seen1 : List Key), (f ∈ seen1 ↔ f ∈ seen) →
      (f ∈ forInChain (setProp objs t k v) n r seen1 ↔ f ∈ forInChain objs n r seen) := by
  intro n
  induction n with
  | zero => intro r seen seen1 _; simp [forInChain]
  | succ n ih =>
    intro r seen seen1 hs
    simp only [forInChain, setProp_get]
    by_cases hr : r = t
    · subst hr
      cases h : objs[r]? with
      | none => simp
      | some o =>
        simp only [if_true, Option.map_some', List.mem_append]
        have h1 := mem_filter_setOwn (fun p => p.listed && !seen1.contains p.key) k f v hkf
          o.props
        have h2 := mem_filter_seen o.props f seen seen1 hs
        have hs2 : f ∈ seen1 ++ ownKeys (setOwn o.props k v) ↔ f ∈ seen ++ ownKeys o.props := by
          rw [ownKeys_setOwn]
          split
          · simp [hs]
          · simp only [List.mem_append, hs, List.mem_singleton]
            constructor
            · rintro (h | h | h)
              · exact Or.inl h
              · exact Or.inr h
              · exact absurd h.symm hkf
            · rintro (h | h)
              · exact Or.inl h
              · exact Or.inr (Or.inl h)
        rw [h1, h2]
        cases o.proto with
        | none => simp
        | some p => simp only [ih p _ _ hs2]
    · simp only [hr, if_false]
      cases objs[r]? with
      | none => simp
      | some o =>
        simp only [List.mem_append]
        rw [mem_filter_seen o.props f seen seen1 hs]
        have hs2 : f ∈ seen1 ++ ownKeys o.props ↔ f ∈ seen ++ ownKeys o.props := by
          simp [hs]
        cases o.proto with
        | none => simp
        | some p => simp only [ih p _ _ hs2]

theorem mem_forInKeys_setProp (objs : List Obj) (t r : Nat) (k f : Key) (v : Val)
    (hkf : k ≠ f) : f ∈ forInKeys (setProp objs t k v) r ↔ f ∈ forInKeys objs r := by
  unfold forInKeys
  rw [setProp_length]
  exact mem_forInChain_setProp objs t k f v hkf _ r [] [] Iff.rfl

theorem mem_forInKeys_extend (t r : Nat) (f : Key) (m : List Property)
    (h : ∀ p ∈ m, p.key ≠ f) (objs : List Obj) :
    f ∈ forInKeys (extend objs t m) r ↔ f ∈ forInKeys objs r := by
  unfold extend
  have h2 : ∀ p ∈ m.filter Property.listed, p.key ≠ f :=
    fun p hp => h p (List.mem_of_mem_filter hp)
  generalize m.filter Property.listed = ps at h2
  induction ps generalizing objs with
  | nil => rfl
  | cons p ps ih =>
    simp only [List.foldl_cons]
    exact (ih _ (fun q hq => h2 q (List.mem_cons_of_mem _ hq))).trans
      (mem_forInKeys_setProp objs t r p.key f p.value (h2 p (List.mem_cons_self _ _)))

theorem key_ne_of_getOwn?_none (m : List Property) (f : Key) (h : getOwn? m f = none) :
    ∀ p ∈ m, p.key ≠ f := by
  induction m with
  | nil => intro p hp; simp at hp
  | cons q qs ih =>
    intro p hp
    simp only [getOwn?] at h
    split at h
    · exact Option.noConfusion h
    · rename_i hq
      rcases List.mem_cons.mp hp with hp | hp
      · subst hp; exact hq
      · exact ih h p hp

/-- A field that is not late-modified is the same in the heap handed to the merge: same lookup
from every object, visited by the same `for in` loops. -/
theorem foldedObjs_other (st : State) (c : Ctor) (f : Key)
    (hlate : lateModified st.objs c f = false) (x : Nat) :
    getProp (foldedObjs st c) x f = getProp st.objs x f ∧
    (f ∈ forInKeys (foldedObjs st c) x ↔ f ∈ forInKeys st.objs x) := by
  unfold foldedObjs
  cases hmo : resolveModifiedOptions st c with
  | none => exact ⟨rfl, Iff.rfl⟩
  | some m =>
    have hget := resolveModifiedOptions_get st c m hmo f
    simp only [hlate, Bool.false_eq_true, if_false] at hget
    have hne := key_ne_of_getOwn?_none m f hget
    exact ⟨getProp_extend_ne st.objs _ x f m hne, mem_forInKeys_extend _ x f m hne st.objs⟩

theorem registerSelf_getProp (d o : Nat) (st st1 : State) (f : Key) (x : Nat)
    (h : registerSelf d o st = .ok st1)
    (hname : toKey (getProp st.objs o (.str "name")) ≠ f) :
    getProp st1.objs x f = getProp st.objs x f := by
  unfold registerSelf at h
  simp only at h
  split at h
  · cases hc : getProp st.objs o (.str "components") <;>
      simp only [hc, setV, Res.bind, Res.ok.injEq, Res.ofExcept_ok, Res.ofExcept_error] at h <;>
      first
      | contradiction
      | (subst h; simp only; try exact getProp_setProp_ne _ _ _ _ _ _ (fun e => hname e.symm))
  · simp only [Res.ok.injEq] at h
    subst h
    rfl

theorem foldl_setOwn_get (val : Key → Val) (f : Key) :
    ∀ (keys : List Key) (acc : List Property),
      getOwn? (keys.foldl (fun a k => setOwn a k (val k)) acc) f =
        if f ∈ keys then some (val f) else getOwn? acc f := by
  intro keys
  induction keys with
  | nil => intro acc; simp
  | cons k ks ih =>
    intro acc
    simp only [List.foldl_cons, ih, List.mem_cons]
    by_cases h1 : f ∈ ks
    · simp [h1]
    · by_cases h2 : f = k
      · subst h2; simp [h1, getOwn?_setOwn_self]
      · simp [h1, h2, getOwn?_setOwn_ne _ _ _ _ h2]

theorem getProp_append_new (objs : List Obj) (props : List Property) (f : Key) :
    getProp (objs ++ [⟨none, props⟩]) objs.length f = (getOwn? props f).getD .undefined := by
  unfold getProp
  simp only [List.length_append, List.length_singleton, getChain]
  simp only [List.getElem?_append_right (le_refl _), Nat.sub_self, List.getElem?_cons_zero]
  cases getOwn? props f <;> rfl

theorem mergeEnv_defaultStrategy (f : Key) : mergeEnv.DefaultStrategy f := by
  intro p c vm s s1 x h hf hc
  simp only [mergeEnv, mergeDefault, Res.ok.injEq, Prod.mk.injEq] at h
  obtain ⟨rfl, rfl⟩ := h
  simp only [getProp_append_new, foldl_setOwn_get, List.mem_append, hf, true_or, if_true, hc,
    Option.getD_some]

theorem registryEnv_keepsCtors : registryEnv.MergeKeepsCtors := by
  intro p c vm st st1 r h
  simp only [registryEnv, mergeRegistry, mergeDefault, Res.ok.injEq, Prod.mk.injEq] at h
  rw [← h.1]

theorem getProp_noproto (objs : List Obj) (r : Nat) (props : List Property) (f : Key)
    (h : objs[r]? = some ⟨none, props⟩) :
    getProp objs r f = (getOwn? props f).getD .undefined := by
  unfold getProp
  obtain ⟨n, hn⟩ := Nat.exists_eq_add_of_lt (getElem?_lt _ _ _ h)
  have hl : objs.length = (r + n) + 1 := by omega
  rw [hl]
  simp only [getChain, h]
  cases getOwn? props f <;> rfl

theorem registryEnv_defaultStrategy (f : Key) (hf : f ≠ .str "components") :
    registryEnv.DefaultStrategy f := by
  intro p c vm s s1 x h hfield hc
  simp only [registryEnv, mergeRegistry, mergeDefault, Res.ok.injEq, Prod.mk.injEq] at h
  obtain ⟨rfl, rfl⟩ := h
  simp only
  have hget : ∀ (props : List Property) (extra : List Obj),
      (s.objs ++ [⟨none, props⟩] ++ extra)[s.objs.length]? = some ⟨none, props⟩ := by
    intro props extra
    rw [List.append_assoc, List.getElem?_append_right (le_refl _)]
    simp
  rw [getProp_setProp_ne _ _ _ _ _ _ hf, getProp_noproto _ _ _ f (hget _ _)]
  simp only [foldl_setOwn_get, List.mem_append, hfield, true_or, if_true, hc, Option.getD_some]

/-- C5 (amended): `Child` extends `Base`. If the configuration `p` that `Base` resolves to is an
object other than the one `Child` caches as `superOptions` (`Base`'s configuration was replaced,
as a global mixin does), and `f` is a field the `for in` loop visits on `p` that `Child` does
not declare in `extendOptions` and that is not late-modified on `Child`, then under the default
strategy the configuration the next `resolveConstructorOptions(Child)` returns has for `f` the
value it has in `p`, and `Child` caches the new objects. The field is any key but the name
carried by the configuration the merge returns, under which the definition registers itself.
`Base` may be a root or have parents of its own; when its own chain is up to date (as it is for
a root), `p` is `Base`'s configuration itself and resolving `Base` changes nothing. (`sA` is the
state the resolution of `Base` left; the merge function is taken not to write fields of
definitions.) -/
theorem invalidation_reflects_field (env : Env) (hm : env.MergeKeepsCtors) (fuel : Nat)
    (st sA st1 : State) (b d : Nat) (cd0 cd : Ctor) (f : Key) (p r : Nat)
    (hstrat : env.DefaultStrategy f)
    (hd : st.ctors[d]? = some cd0) (hsup : cd0.super = some b)
    (hrec : resolveConstructorOptions env fuel b st = .ok (sA, p))
    (hcd : sA.ctors[d]? = some cd)
    (hnew : cd.superOptions ≠ some p)
    (hfield : f ∈ forInKeys sA.objs p)
    (hdecl : getProp sA.objs cd.extendOptions f = .undefined)
    (hlate : lateModified sA.objs cd f = false)
    (hname : ∀ st2 s0, st2.objs = foldedObjs sA cd →
      env.mergeOptions p (.obj cd.extendOptions) none st2 = .ok (s0, r) →
      toKey (getProp s0.objs r (.str "name")) ≠ f)
    (h : resolveConstructorOptions env (fuel + 1) d st = .ok (st1, r)) :
    getProp st1.objs r f = getProp sA.objs p f ∧
    st1.ctors[d]? = some { cd with superOptions := some p, options := r } ∧
    (∀ (cb : Ctor) (rest : List Nat), st.ctors[b]? = some cb →
      settled st (b :: rest) = true → rest.length < fuel → sA = st ∧ p = cb.options) := by
  unfold resolveConstructorOptions at h
  have hne : some p ≠ cd.superOptions := fun e => hnew e.symm
  simp only [(getCtor_ok st d cd0).mpr hd, Res.bind, Res.ofExcept_ok, hsup, hrec,
    (getCtor_ok sA d cd).mpr hcd, hne, ne_eq, not_false_eq_true, if_true] at h
  obtain ⟨c, hc, hct, -, st2, st0, ho, -, hmg, hreg⟩ := recompute_ok env hm d p sA st1 r h
  rw [hcd] at hc
  simp only [Option.some.injEq] at hc
  subst hc
  refine ⟨?_, ?_, fun cb rest hb hs hf => ?_⟩
  · have hfold := foldedObjs_other sA cd f hlate
    have hmerged : getProp st0.objs r f = getProp sA.objs p f := by
      rw [hstrat _ _ _ _ _ _ hmg (by rw [ho]; exact (hfold _).2.mpr hfield)
        (by rw [ho, (hfold _).1]; exact hdecl), ho, (hfold _).1]
    rw [registerSelf_getProp d r _ st1 f r hreg (hname st2 st0 ho hmg)]
    exact hmerged
  · rw [hct]
    simp [List.getElem?_set_self, getElem?_lt _ _ _ hcd]
  · have hhit := resolve_hit env st rest fuel b cb hs hf hb
    rw [hhit] at hrec
    simp only [Res.ok.injEq, Prod.mk.injEq] at hrec
    exact ⟨hrec.1.symm, hrec.2.symm⟩

/-- Witness for C5 (amended). `Base`, a root, had its configuration replaced by object 4, which
carries the new field `c`: the next resolution of `Child` returns object 5, where `c` is 3. In
the chain `A` ← `B` ← `C` the configuration of `B`, which is not a root, was replaced by object
7, which carries the new field `m`: `B` resolves to object 7 and the next resolution of `C`
returns object 8, where `m` is 5. `Base` had its configuration replaced by object 5, whose new
field is `name`: the next resolution of `Child` returns object 6, where `name` is `'foo'`. -/
theorem invalidation_reflects_field_witness :
    (resolveConstructorOptions mergeEnv 2 1 baseReplaced = .ok (childRecomputed, 5) ∧
      getProp baseReplaced.objs 4 (.str "c") = .num 3 ∧
      getProp childRecomputed.objs 5 (.str "c") = getProp baseReplaced.objs 4 (.str "c")) ∧
    (resolveConstructorOptions mergeEnv 2 1 midReplaced = .ok (midReplaced, 7) ∧
      resolveConstructorOptions mergeEnv 3 2 midReplaced = .ok (midResolved, 8) ∧
      getProp midReplaced.objs 7 (.str "m") = .num 5 ∧
      getProp midResolved.objs 8 (.str "m") = getProp midReplaced.objs 7 (.str "m")) ∧
    (resolveConstructorOptions registryEnv 2 1 renamedState = .ok (renamedResolved, 6) ∧
      getProp renamedState.objs 5 (.str "name") = .str "foo" ∧
      getProp renamedResolved.objs 6 (.str "name") =
        getProp renamedState.objs 5 (.str "name")) :=
  ⟨⟨by decide, by decide,
    (invalidation_reflects_field mergeEnv mergeEnv_keepsCtors 1 baseReplaced baseReplaced
      childRecomputed 0 1 ⟨1, some 0, some 0, 2, 3⟩ ⟨1, some 0, some 0, 2, 3⟩ (.str "c") 4 5
      (mergeEnv_defaultStrategy _) (by decide) (by decide) (by decide) (by decide) (by decide)
      (by decide) (by decide) (by decide)
      (by
        intro st2 s0 ho hmg
        simp only [mergeEnv, mergeDefault, Res.ok.injEq, Prod.mk.injEq] at hmg
        rw [← hmg.1]
        simp only [ho]
        decide)
      (by decide)).1⟩,
    ⟨by decide, by decide, by decide,
    (invalidation_reflects_field mergeEnv mergeEnv_keepsCtors 2 midReplaced midReplaced
      midResolved 1 2 ⟨4, some 1, some 1, 5, 6⟩ ⟨4, some 1, some 1, 5, 6⟩ (.str "m") 7 8
      (mergeEnv_defaultStrategy _) (by decide) (by decide) (by decide) (by decide) (by decide)
      (by decide) (by decide) (by decide)
      (by
        intro st2 s0 ho hmg
        simp only [mergeEnv, mergeDefault, Res.ok.injEq, Prod.mk.injEq] at hmg
        rw [← hmg.1]
        simp only [ho]
        decide)
      (by decide)).1⟩,
    ⟨by decide, by decide,
    (invalidation_reflects_field registryEnv registryEnv_keepsCtors 1 renamedState renamedState
      renamedResolved 0 1 ⟨1, some 0, some 0, 2, 3⟩ ⟨1, some 0, some 0, 2, 3⟩ (.str "name") 5 6
      (registryEnv_defaultStrategy _ (by decide)) (by decide) (by decide) (by decide)
      (by decide) (by decide) (by decide) (by decide) (by decide)
      (by
        intro st2 s0 ho hmg
        simp only [registryEnv, mergeRegistry, mergeDefault, Res.ok.injEq, Prod.mk.injEq] at hmg
        rw [← hmg.1]
        simp only [ho]
        decide)
      (by decide)).1⟩⟩

/-- C5 as stated fails when the field is added to `Base`'s configuration object in place:
`Child` was resolved, then `c` is set on object 0 itself; the next resolution of `Child` is a
cache hit and returns the old object 1, which has no `c`. -/
theorem in_place_addition_not_seen :
    resolveConstructorOptions mergeEnv 2 1 defsState = .ok (defsState, 1) ∧
    getProp defsState.objs 0 (.str "c") = .undefined ∧
    getProp baseMutated.objs 0 (.str "c") = .num 3 ∧
    getProp baseMutated.objs 2 (.str "c") = .undefined ∧
    resolveConstructorOptions mergeEnv 2 1 baseMutated = .ok (baseMutated, 1) ∧
    getProp baseMutated.objs 1 (.str "c") = .undefined := by
  decide
/-! ## Relations every step respects -/

theorem Res.Holds.bind {α β : Type} {R : State → State → Prop} {st : State}
    {pa : α → State} {pb : β → State} {r : Res α} {f : α → Res β}
    (h1 : r.Holds R st pa) (h2 : ∀ a, R st (pa a) → (f a).Holds R st pb) :
    (r.bind f).Holds R st pb := by
  cases r with
  | ok a => exact h2 a h1
  | throw e s => exact h1
  | diverge => trivial

theorem Res.Holds.shift {α : Type} {R : State → State → Prop}
    (htrans : ∀ a b c, R a b → R b c → R a c) {st s1 : State} {p : α → State} {r : Res α}
    (h0 : R st s1) (h : r.Holds R s1 p) : r.Holds R st p := by
  cases r with
  | ok a => exact htrans _ _ _ h0 h
  | throw e s => exact htrans _ _ _ h0 h
  | diverge => trivial

theorem Res.Holds.ofExcept {α : Type} {R : State → State → Prop} {st s : State}
    (x : Except Exn α) (h : R st s) : (Res.ofExcept s x).Holds R st (fun _ => s) := by
  cases x with
  | ok a => exact h
  | error e => exact h

theorem Respected.modifyVm {env : Env} {R : State → State → Prop} (hR : Respected env R)
    (s : State) (vm : Nat) (f : Instance → Instance) : R s (modifyVm s vm f) := by
  unfold Vue.modifyVm
  cases s.vms[vm]? with
  | none => exact hR.refl s
  | some i => exact hR.vms s _

theorem Respected.modifyCtor {env : Env} {R : State → State → Prop} (hR : Respected env R)
    (s : State) (d : Nat) (f : Ctor → Ctor) : R s (modifyCtor s d f) := by
  unfold Vue.modifyCtor
  cases s.ctors[d]? with
  | none => exact hR.refl s
  | some i => exact hR.ctors s _

theorem Respected.walk {env : Env} {R : State → State → Prop} (hR : Respected env R)
    (st : State) (s : Val) (fuel : Nat) (src : Option Nat) :
    (walk st s fuel src).Holds R st (fun _ => st) := by
  induction fuel generalizing src with
  | zero => cases src <;> simp [Vue.walk, Res.Holds, hR.refl]
  | succ n ih =>
    cases src with
    | none => simp [Vue.walk, Res.Holds, hR.refl]
    | some i =>
      simp only [Vue.walk]
      cases st.vms[i]? with
      | none => simp [Res.Holds, hR.refl]
      | some inst =>
        simp only
        split
        · simp [Res.Holds, hR.refl]
        · exact ih _

theorem Respected.resolveInjectKey {env : Env} {R : State → State → Prop}
    (hR : Respected env R) (fuel : Nat) (inject : Val) (vm : Nat) (key : Key) (st : State)
    (result : List Property) :
    (resolveInjectKey env fuel inject vm key st result).Holds R st (fun p => p.1) := by
  unfold Vue.resolveInjectKey
  split
  · exact hR.refl st
  · refine Res.Holds.bind (Res.Holds.ofExcept _ (hR.refl st)) fun decl _ => ?_
    refine Res.Holds.bind (Res.Holds.ofExcept _ (hR.refl st)) fun provideKey _ => ?_
    refine Res.Holds.bind (hR.walk st _ _ _) fun found _ => ?_
    cases found with
    | some iv => exact hR.refl st
    | none =>
      refine Res.Holds.bind (Res.Holds.ofExcept _ (hR.refl st)) fun hasDefault _ => ?_
      split
      · refine Res.Holds.bind (Res.Holds.ofExcept _ (hR.refl st)) fun d _ => ?_
        split
        · exact Res.Holds.bind (hR.ext _ st rfl) fun a ha => ha
        · exact hR.refl st
      · split
        · refine Res.Holds.bind (Res.Holds.ofExcept _ (hR.refl st)) fun name _ => ?_
          exact hR.log st _ rfl
        · exact hR.refl st

theorem Respected.resolveInjectLoop {env : Env} {R : State → State → Prop}
    (hR : Respected env R) (fuel : Nat) (inject : Val) (vm : Nat) :
    ∀ (keys : List Key) (st : State) (result : List Property),
      (resolveInjectLoop env fuel inject vm keys st result).Holds R st (fun p => p.1) := by
  intro keys
  induction keys with
  | nil => intro st result; exact hR.refl st
  | cons key keys ih =>
    intro st result
    unfold Vue.resolveInjectLoop
    exact Res.Holds.bind (hR.resolveInjectKey fuel inject vm key st result)
      fun a ha => Res.Holds.shift hR.trans ha (ih a.1 a.2)

theorem Respected.resolveInject {env : Env} {R : State → State → Prop}
    (hR : Respected env R) (fuel : Nat) (inject : Val) (vm : Nat) (st : State) :
    (resolveInject env fuel inject vm st).Holds R st (fun p => p.1) := by
  unfold Vue.resolveInject
  split
  · refine Res.Holds.bind (Res.Holds.ofExcept _ (hR.refl st)) fun keys _ => ?_
    exact Res.Holds.bind (hR.resolveInjectLoop fuel inject vm keys st []) fun a ha => ha
  · exact hR.refl st

theorem Respected.registerSelf {env : Env} {R : State → State → Prop} (hR : Respected env R)
    (d o : Nat) (st : State) : (registerSelf d o st).Holds R st id := by
  unfold Vue.registerSelf
  simp only
  split
  · exact Res.Holds.bind (Res.Holds.ofExcept _ (hR.refl st)) fun objs _ => hR.objs st objs
  · exact hR.refl st

theorem Respected.recompute {env : Env} {R : State → State → Prop} (hR : Respected env R)
    (d p : Nat) (st : State) : (recompute env d p st).Holds R st (fun a => a.1) := by
  unfold Vue.recompute
  simp only
  have h1 := hR.modifyCtor st d fun c => { c with superOptions := some p }
  refine Res.Holds.bind (Res.Holds.ofExcept _ h1) fun c _ => ?_
  have h2 : R st (match resolveModifiedOptions
      (Vue.modifyCtor st d fun c => { c with superOptions := some p }) c with
    | some modifiedOptions =>
      { (Vue.modifyCtor st d fun c => { c with superOptions := some p }) with
        objs := extend (Vue.modifyCtor st d fun c => { c with superOptions := some p }).objs
          c.extendOptions modifiedOptions }
    | none => Vue.modifyCtor st d fun c => { c with superOptions := some p }) := by
    split
    · exact hR.trans _ _ _ h1 (hR.objs _ _)
    · exact h1
  refine Res.Holds.bind (Res.Holds.shift hR.trans h2 (hR.merge _ _ _ _)) fun a ha => ?_
  have h3 := hR.trans _ _ _ ha (hR.modifyCtor a.1 d fun c => { c with options := a.2 })
  exact Res.Holds.bind (Res.Holds.shift hR.trans h3 (hR.registerSelf d a.2 _)) fun s hs => hs

theorem Respected.resolveConstructorOptions {env : Env} {R : State → State → Prop}
    (hR : Respected env R) :
    ∀ (fuel d : Nat) (st : State),
      (resolveConstructorOptions env fuel d st).Holds R st (fun a => a.1) := by
  intro fuel
  induction fuel with
  | zero => intro d st; trivial
  | succ n ih =>
    intro d st
    unfold Vue.resolveConstructorOptions
    refine Res.Holds.bind (Res.Holds.ofExcept _ (hR.refl st)) fun c _ => ?_
    simp only
    split
    · exact hR.refl st
    · refine Res.Holds.bind (ih _ st) fun a ha => ?_
      refine Res.Holds.bind (Res.Holds.ofExcept _ ha) fun c1 _ => ?_
      split
      · exact Res.Holds.shift hR.trans ha (hR.recompute d a.2 a.1)
      · exact ha

theorem Respected.defineLoop {env : Env} {R : State → State → Prop} (hR : Respected env R)
    (vm : Nat) (result : List Property) :
    ∀ (keys : List Key) (st : State), (defineLoop env vm result keys st).Holds R st id := by
  intro keys
  induction keys with
  | nil => intro st; exact hR.refl st
  | cons key keys ih =>
    intro st
    unfold Vue.defineLoop
    exact Res.Holds.bind (hR.ext _ st rfl) fun a ha => Res.Holds.shift hR.trans ha (ih a.1)

theorem Respected.initInjections {env : Env} {R : State → State → Prop}
    (hR : Respected env R) (fuel vm : Nat) (st : State) :
    (initInjections env fuel vm st).Holds R st id := by
  unfold Vue.initInjections
  refine Res.Holds.bind (Res.Holds.ofExcept _ (hR.refl st)) fun inst _ => ?_
  refine Res.Holds.bind (Res.Holds.ofExcept _ (hR.refl st)) fun inject _ => ?_
  refine Res.Holds.bind (hR.resolveInject fuel inject vm st) fun a ha => ?_
  cases hres : a.2 with
  | none => simp only [hres]; exact ha
  | some result =>
    simp only [hres]
    refine Res.Holds.bind (Res.Holds.shift hR.trans ha (hR.ext _ a.1 rfl)) fun b hb => ?_
    refine Res.Holds.bind (Res.Holds.shift hR.trans hb (hR.defineLoop vm result _ b.1))
      fun s hs => ?_
    exact Res.Holds.bind (Res.Holds.shift hR.trans hs (hR.ext _ s rfl)) fun e he => he

theorem Respected.initProvide {env : Env} {R : State → State → Prop}
    (hR : Respected env R) (vm : Nat) (st : State) :
    (initProvide env vm st).Holds R st id := by
  unfold Vue.initProvide
  refine Res.Holds.bind (Res.Holds.ofExcept _ (hR.refl st)) fun inst _ => ?_
  refine Res.Holds.bind (Res.Holds.ofExcept _ (hR.refl st)) fun provide _ => ?_
  split
  · split
    · exact Res.Holds.bind (hR.ext _ st rfl) fun a ha =>
        hR.trans _ _ _ ha (hR.modifyVm a.1 vm _)
    · exact hR.modifyVm st vm _
  · exact hR.refl st

theorem Respected.assign {env : Env} {R : State → State → Prop} (hR : Respected env R)
    (s : State) (r : Nat) (k : Key) (v : Val) : R s (assign s r k v) :=
  hR.objs s _

theorem Respected.initInternalComponent {env : Env} {R : State → State → Prop}
    (hR : Respected env R) (vm : Nat) (options : Val) (st : State) :
    (initInternalComponent vm options st).Holds R st id := by
  unfold Vue.initInternalComponent
  refine Res.Holds.bind (Res.Holds.ofExcept _ (hR.refl st)) fun inst _ => ?_
  refine Res.Holds.bind (Res.Holds.ofExcept _ (hR.refl st)) fun c _ => ?_
  simp only
  have h1 := hR.trans _ _ _ (hR.objs st (st.objs ++ [⟨some c.options, []⟩]))
    (hR.modifyVm _ vm fun i => { i with options := .obj st.objs.length })
  refine Res.Holds.bind (Res.Holds.ofExcept _ h1) fun parentVnode _ => ?_
  refine Res.Holds.bind (Res.Holds.ofExcept _ h1) fun parent _ => ?_
  have h2 := hR.trans _ _ _ h1 (hR.assign _ st.objs.length (.str "parent") parent)
  have h3 := hR.trans _ _ _ h2 (hR.assign _ st.objs.length (.str "_parentVnode") parentVnode)
  refine Res.Holds.bind (Res.Holds.ofExcept _ h3) fun vco _ => ?_
  refine Res.Holds.bind (Res.Holds.ofExcept _ h3) fun propsData _ => ?_
  have h4 := hR.trans _ _ _ h3 (hR.assign _ st.objs.length (.str "propsData") propsData)
  refine Res.Holds.bind (Res.Holds.ofExcept _ h4) fun listeners _ => ?_
  have h5 := hR.trans _ _ _ h4 (hR.assign _ st.objs.length (.str "_parentListeners") listeners)
  refine Res.Holds.bind (Res.Holds.ofExcept _ h5) fun children _ => ?_
  have h6 := hR.trans _ _ _ h5 (hR.assign _ st.objs.length (.str "_renderChildren") children)
  refine Res.Holds.bind (Res.Holds.ofExcept _ h6) fun tag _ => ?_
  have h7 := hR.trans _ _ _ h6 (hR.assign _ st.objs.length (.str "_componentTag") tag)
  refine Res.Holds.bind (Res.Holds.ofExcept _ h7) fun render _ => ?_
  split
  · have h8 := hR.trans _ _ _ h7 (hR.assign _ st.objs.length (.str "render") render)
    refine Res.Holds.bind (Res.Holds.ofExcept _ h8) fun srf _ => ?_
    exact hR.trans _ _ _ h8 (hR.assign _ st.objs.length (.str "staticRenderFns") srf)
  · exact h7
/-! ## `_init` and the counter -/

theorem Respected.optionsOrEmpty {env : Env} {R : State → State → Prop} (hR : Respected env R)
    (options : Val) (s : State) : R s (optionsOrEmpty options s).1 := by
  unfold Vue.optionsOrEmpty
  split
  · exact hR.refl s
  · exact hR.objs s _

theorem Respected.initOptions {env : Env} {R : State → State → Prop} (hR : Respected env R)
    (hlog : ∀ s e, R s (State.log s e)) (fuel vm : Nat) (options : Val) (st : State) :
    (initOptions env fuel vm options st).Holds R st id := by
  unfold Vue.initOptions
  split
  · exact Res.Holds.shift hR.trans (hlog st _) (hR.initInternalComponent vm options _)
  · simp only
    have h0 := hlog st (.resolveOptions vm false)
    refine Res.Holds.bind (Res.Holds.ofExcept _ h0) fun inst _ => ?_
    refine Res.Holds.bind
      (Res.Holds.shift hR.trans h0 (hR.resolveConstructorOptions fuel _ _)) fun a ha => ?_
    have h1 := hR.trans _ _ _ ha (hR.optionsOrEmpty options a.1)
    refine Res.Holds.bind (Res.Holds.shift hR.trans h1 (hR.merge _ _ _ _)) fun b hb => ?_
    exact hR.trans _ _ _ hb (hR.modifyVm b.1 vm _)

theorem Respected.mountIfEl {env : Env} {R : State → State → Prop} (hR : Respected env R)
    (hext : ∀ e s, (callExt env e s).Holds R s (fun p => p.1)) (vm : Nat) (st : State) :
    (mountIfEl env vm st).Holds R st id := by
  unfold Vue.mountIfEl
  refine Res.Holds.bind (Res.Holds.ofExcept _ (hR.refl st)) fun inst _ => ?_
  refine Res.Holds.bind (Res.Holds.ofExcept _ (hR.refl st)) fun el _ => ?_
  split
  · exact Res.Holds.bind (hext _ st) fun a ha => ha
  · exact hR.refl st

theorem Respected.initAfterOptions {env : Env} {R : State → State → Prop}
    (hR : Respected env R) (hlog : ∀ s e, R s (State.log s e))
    (hext : ∀ e s, (callExt env e s).Holds R s (fun p => p.1)) (fuel vm : Nat) (st : State) :
    (initAfterOptions env fuel vm st).Holds R st id := by
  unfold Vue.initAfterOptions
  have hproxy : (if (!env.production) = true then
        (callExt env (.initProxy vm) st).bind fun (st1, _) => Res.ok st1
      else Res.ok (Vue.modifyVm st vm fun i => { i with _renderProxy := .vm vm })).Holds R st
        id := by
    split
    · exact Res.Holds.bind (hext _ st) fun a ha => ha
    · exact hR.modifyVm st vm _
  refine Res.Holds.bind hproxy fun s1 h1 => ?_
  simp only [id] at h1
  have h2 := hR.trans _ _ _ h1 (hR.modifyVm s1 vm fun i => { i with _self := .vm vm })
  refine Res.Holds.bind (Res.Holds.shift hR.trans h2 (hext _ _)) fun a3 h3 => ?_
  refine Res.Holds.bind (Res.Holds.shift hR.trans h3 (hext _ _)) fun a4 h4 => ?_
  refine Res.Holds.bind (Res.Holds.shift hR.trans h4 (hext _ _)) fun a5 h5 => ?_
  refine Res.Holds.bind (Res.Holds.shift hR.trans h5 (hext _ _)) fun a6 h6 => ?_
  have h6b := hR.trans _ _ _ h6 (hlog a6.1 (.initInjections vm))
  refine Res.Holds.bind (Res.Holds.shift hR.trans h6b (hR.initInjections fuel vm _))
    fun s7 h7 => ?_
  simp only [id] at h7
  refine Res.Holds.bind (Res.Holds.shift hR.trans h7 (hext _ _)) fun a8 h8 => ?_
  have h8b := hR.trans _ _ _ h8 (hlog a8.1 (.initProvide vm))
  refine Res.Holds.bind (Res.Holds.shift hR.trans h8b (hR.initProvide vm _)) fun s9 h9 => ?_
  simp only [id] at h9
  refine Res.Holds.bind (Res.Holds.shift hR.trans h9 (hext _ _)) fun a10 h10 => ?_
  exact Res.Holds.shift hR.trans h10 (hR.mountIfEl hext vm _)

/-- A relation that all steps and all outside calls respect, and the assignment of the identity
too, holds between the state before `_init` and every state `_init` can leave. -/
theorem Respected.init {env : Env} {R : State → State → Prop} (hR : Respected env R)
    (hlog : ∀ s e, R s (State.log s e))
    (hext : ∀ e s, (callExt env e s).Holds R s (fun p => p.1))
    (huid : ∀ s vm, R s (assignUid vm s)) (fuel vm : Nat) (options : Val) (st : State) :
    (_init env fuel vm options st).Holds R st id := by
  unfold Vue._init initRest
  have h1 := hR.trans _ _ _ (huid st vm)
    (hR.modifyVm (assignUid vm st) vm fun i => { i with _isVue := true })
  refine Res.Holds.bind (Res.Holds.shift hR.trans h1 (hR.initOptions hlog fuel vm options _))
    fun s2 h2 => ?_
  simp only [id] at h2
  exact Res.Holds.shift hR.trans h2 (hR.initAfterOptions hlog hext fuel vm s2)

theorem counterStep_refl (s : State) : CounterStep s s := ⟨0, by simp, by simp⟩

theorem counterStep_trans (a b c : State) (h1 : CounterStep a b) (h2 : CounterStep b c) :
    CounterStep a c := by
  obtain ⟨n, hn1, hn2⟩ := h1
  obtain ⟨m, hm1, hm2⟩ := h2
  refine ⟨n + m, by omega, ?_⟩
  rw [hm2, hn2, hn1, List.append_assoc, List.range'_append_1, Nat.add_comm m n]

theorem counterStep_of_eq (s s1 : State) (h1 : s1.uid = s.uid) (h2 : s1.uids = s.uids) :
    CounterStep s s1 := ⟨0, by simp [h1], by simp [h2]⟩

theorem counterStep_assignUid (s : State) (vm : Nat) : CounterStep s (assignUid vm s) := by
  refine ⟨1, ?_, ?_⟩
  · unfold Vue.assignUid modifyVm
    simp only
    split <;> rfl
  · unfold Vue.assignUid modifyVm
    simp only
    split <;> simp

theorem callExt_holds (env : Env) (e : Event) (s : State)
    (h : (env.ext e { s with trace := [] }).Holds CounterStep { s with trace := [] }
      (fun p => p.1)) :
    (callExt env e s).Holds CounterStep s (fun p => p.1) := by
  unfold callExt
  cases hx : env.ext e { s with trace := [] } with
  | ok a =>
    obtain ⟨s1, v⟩ := a
    rw [hx] at h
    obtain ⟨n, h1, h2⟩ := h
    exact ⟨n, h1, h2⟩
  | throw x s1 =>
    rw [hx] at h
    obtain ⟨n, h1, h2⟩ := h
    exact ⟨n, h1, h2⟩
  | diverge => trivial

theorem World.merge_holds (w : World) (p : Nat) (c : Val) (vm : Option Nat) (s : State)
    (ext : Event → State → Res (State × Val)) :
    (callMerge ⟨w.hasSymbol, w.production, w.merge, ext⟩ p c vm s).Holds CounterStep s
      (fun a => a.1) := by
  unfold callMerge World.merge
  simp only
  cases w.mergeOptions p c vm { s with trace := [] } with
  | ok a => exact counterStep_of_eq _ _ rfl rfl
  | throw x s1 => exact counterStep_of_eq _ _ rfl rfl
  | diverge => trivial

/-- Whatever a program does, the counter only goes up and the identities handed out are
consecutive. -/
theorem run_counter (w : World) (fuel : Nat) :
    ∀ (b : Beh) (st : State), (run w fuel b st).Holds CounterStep st (fun p => p.1) := by
  intro b
  induction b with
  | ret v => intro st; exact counterStep_refl st
  | throw e => intro st; exact counterStep_refl st
  | diverge => intro st; trivial
  | effect f next ih =>
    intro st
    simp only [run]
    exact Res.Holds.shift counterStep_trans (counterStep_of_eq _ _ rfl rfl) (ih _)
  | construct ctor options calls next ihc ihn =>
    intro st
    simp only [run]
    have hext : ∀ e s, (callExt ⟨w.hasSymbol, w.production, w.merge,
        fun e => run w fuel (calls e)⟩ e s).Holds CounterStep s (fun p => p.1) :=
      fun e s => callExt_holds _ e s (ihc e _)
    have hR : Respected ⟨w.hasSymbol, w.production, w.merge, fun e => run w fuel (calls e)⟩
        CounterStep :=
      { refl := counterStep_refl
        trans := counterStep_trans
        objs := fun s o => counterStep_of_eq _ _ rfl rfl
        ctors := fun s c => counterStep_of_eq _ _ rfl rfl
        vms := fun s v => counterStep_of_eq _ _ rfl rfl
        log := fun s e _ => counterStep_of_eq _ _ rfl rfl
        ext := fun e s _ => hext e s
        merge := fun p c vm s => World.merge_holds w p c vm s _ }
    have hinit := hR.init (fun s e => counterStep_of_eq _ _ rfl rfl) hext
      counterStep_assignUid fuel st.vms.length options
      { st with vms := st.vms ++ [newInstance ctor] }
    have h0 : CounterStep st { st with vms := st.vms ++ [newInstance ctor] } :=
      counterStep_of_eq _ _ rfl rfl
    cases hi : _init ⟨w.hasSymbol, w.production, w.merge, fun e => run w fuel (calls e)⟩ fuel
        st.vms.length options { st with vms := st.vms ++ [newInstance ctor] } with
    | ok s1 =>
      rw [hi] at hinit
      exact Res.Holds.shift counterStep_trans (counterStep_trans _ _ _ h0 hinit) (ihn s1)
    | throw e s1 =>
      rw [hi] at hinit
      exact counterStep_trans _ _ _ h0 hinit
    | diverge => trivial
  | attempt body handler next ihb ihh ihn =>
    intro st
    simp only [run]
    have hb := ihb st
    cases hrb : run w fuel body st with
    | ok a =>
      rw [hrb] at hb
      exact Res.Holds.shift counterStep_trans hb (ihn a.1)
    | throw e s1 =>
      rw [hrb] at hb
      have hh := ihh s1
      simp only
      cases hrh : run w fuel handler s1 with
      | ok a =>
        rw [hrh] at hh
        exact Res.Holds.shift counterStep_trans (counterStep_trans _ _ _ hb hh) (ihn a.1)
      | throw e2 s2 =>
        rw [hrh] at hh
        exact counterStep_trans _ _ _ hb hh
      | diverge => trivial
    | diverge => trivial

theorem range_of_counterStep (s s1 : State) (h : CounterStep s s1)
    (hs : s.uids = List.range s.uid) :
    s.uid ≤ s1.uid ∧ s1.uids = List.range s1.uid ∧ s1.uids.Pairwise (· < ·) ∧ s1.uids.Nodup := by
  obtain ⟨n, h1, h2⟩ := h
  have hr : s1.uids = List.range s1.uid := by
    rw [h2, hs, h1, List.range_eq_range', List.range_eq_range']
    have := List.range'_append_1 0 s.uid n
    simp only [Nat.zero_add] at this
    rw [this, Nat.add_comm]
  refine ⟨by omega, hr, ?_, ?_⟩
  · rw [hr]; exact List.pairwise_lt_range _
  · rw [hr]; exact List.nodup_range _

/-! ## C8: identity uniqueness -/

/-- C8: one call of `_init` gives the instance the current value of the counter and puts the
counter up by exactly one before anything else happens. In every program (instantiations in
sequence, nested inside the outside calls of another `_init`, inside `try`/`catch`), from a
state in which the identities handed out so far are `0, ..., uid - 1`, whether the program
returns or throws: the counter has not gone down, and the identities handed out, in the order
in which the `_init` calls began, are `0, ..., uid - 1` for the new counter, so they are
strictly increasing and pairwise distinct. -/
theorem uid_unique (w : World) (fuel : Nat) (b : Beh) (st : State)
    (hst : st.uids = List.range st.uid) :
    (∀ (env : Env) (n vm : Nat) (options : Val) (s : State),
      _init env n vm options s = initRest env n vm options (assignUid vm s) ∧
      (assignUid vm s).uid = s.uid + 1 ∧ (assignUid vm s).uids = s.uids ++ [s.uid] ∧
      ∀ i, s.vms[vm]? = some i → (assignUid vm s).vms[vm]? = some { i with _uid := some s.uid }) ∧
    (∀ s1 v, run w fuel b st = .ok (s1, v) →
      st.uid ≤ s1.uid ∧ s1.uids = List.range s1.uid ∧ s1.uids.Pairwise (· < ·) ∧
        s1.uids.Nodup) ∧
    (∀ s1 e, run w fuel b st = .throw e s1 →
      st.uid ≤ s1.uid ∧ s1.uids = List.range s1.uid ∧ s1.uids.Pairwise (· < ·) ∧
        s1.uids.Nodup) := by
  refine ⟨fun env n vm options s => ⟨rfl, ?_, ?_, ?_⟩, fun s1 v h => ?_, fun s1 e h => ?_⟩
  · unfold assignUid modifyVm
    simp only
    split <;> rfl
  · unfold assignUid modifyVm
    simp only
    split <;> rfl
  · intro i hi
    unfold assignUid modifyVm
    simp only [hi]
    simp [List.getElem?_set_self, getElem?_lt _ _ _ hi]
  · have hc := run_counter w fuel b st
    rw [h] at hc
    exact range_of_counterStep st s1 hc hst
  · have hc := run_counter w fuel b st
    rw [h] at hc
    exact range_of_counterStep st s1 hc hst

/-- Witness for C8: the program of the example makes four instances, one of them nested in the
mount call of another and one whose `created` hook throws; they get the identities 0, 1, 2, 3
in the order in which their `_init` began. -/
theorem uid_unique_witness :
    (match run demoWorld 5 demoProgram appState with
      | .ok (s, _) => (s.uid, s.uids, s.vms.map fun (i : Instance) => i._uid)
      | _ => (0, [], [])) = (4, [0, 1, 2, 3], [none, none, some 0, some 1, some 2, some 3]) ∧
    (∀ s1 v, run demoWorld 5 demoProgram appState = .ok (s1, v) →
      appState.uid ≤ s1.uid ∧ s1.uids = List.range s1.uid ∧ s1.uids.Pairwise (· < ·) ∧
        s1.uids.Nodup) :=
  ⟨by decide, (uid_unique demoWorld 5 demoProgram appState (by decide)).2.1⟩
/-! ## The stages of `_init` -/

theorem Res.bind_ok {α β : Type} {r : Res α} {f : α → Res β} {b : β}
    (h : r.bind f = .ok b) : ∃ a, r = .ok a ∧ f a = .ok b := by
  cases r with
  | ok a => exact ⟨a, rfl, h⟩
  | throw e s => simp [Res.bind] at h
  | diverge => simp [Res.bind] at h

theorem Res.ofExcept_eq_ok {α : Type} {st : State} {x : Except Exn α} {a : α}
    (h : Res.ofExcept st x = .ok a) : x = .ok a := by
  cases x with
  | ok b => simp only [Res.ofExcept_ok, Res.ok.injEq] at h; rw [h]
  | error e => simp at h

theorem stages_refl (s : State) : Stages [] s s := ⟨[], by simp, rfl⟩

theorem stages_trans {l1 l2 : List Event} {a b c : State} (h1 : Stages l1 a b)
    (h2 : Stages l2 b c) : Stages (l1 ++ l2) a c := by
  obtain ⟨t1, ht1, hf1⟩ := h1
  obtain ⟨t2, ht2, hf2⟩ := h2
  exact ⟨t1 ++ t2, by rw [ht2, ht1, List.append_assoc], by rw [List.filter_append, hf1, hf2]⟩

theorem stages_of_trace {a b : State} (h : b.trace = a.trace) : Stages [] a b :=
  ⟨[], by simp [h], rfl⟩

theorem stages_log (s : State) (e : Event) :
    Stages (if e.isStage then [e] else []) s (s.log e) := by
  refine ⟨[e], rfl, ?_⟩
  cases h : e.isStage <;> simp [List.filter, h]

theorem stages_modifyVm (s : State) (vm : Nat) (f : Instance → Instance) :
    Stages [] s (modifyVm s vm f) := by
  apply stages_of_trace
  unfold Vue.modifyVm
  split <;> rfl

theorem callExt_stages (env : Env) (e : Event) (s s1 : State) (v : Val)
    (h : callExt env e s = .ok (s1, v)) : Stages (if e.isStage then [e] else []) s s1 := by
  obtain ⟨s0, -, rfl⟩ := callExt_ok env e s s1 v h
  exact stages_log s e

theorem isStage_of_isSub (e : Event) (h : e.isSub = true) : e.isStage = false := by
  cases e <;> simp [Event.isSub] at h <;> rfl

/-- Whatever the environment, the helpers of `_init` add no stage to the history. -/
theorem stages_respected (env : Env) : Respected env (Stages []) where
  refl := stages_refl
  trans := fun a b c h1 h2 => by simpa using stages_trans h1 h2
  objs := fun s o => stages_of_trace rfl
  ctors := fun s c => stages_of_trace rfl
  vms := fun s v => stages_of_trace rfl
  log := fun s e he => by simpa [isStage_of_isSub e he] using stages_log s e
  ext := fun e s he => by
    unfold callExt
    cases env.ext e { s with trace := [] } with
    | ok a => simpa [Res.Holds, isStage_of_isSub e he] using stages_log s e
    | throw x s1 => simpa [Res.Holds, isStage_of_isSub e he] using stages_log s e
    | diverge => trivial
  merge := fun p c vm s => by
    unfold callMerge
    cases env.mergeOptions p c vm { s with trace := [] } with
    | ok a =>
      simpa [Res.Holds, Event.isStage] using stages_log s (.mergeOptions p c vm a.2)
    | throw x s1 => exact stages_of_trace rfl
    | diverge => trivial

theorem Res.Holds.of_ok {α : Type} {R : State → State → Prop} {st : State} {p : α → State}
    {r : Res α} {a : α} (h : r.Holds R st p) (hr : r = .ok a) : R st (p a) := by
  rw [hr] at h
  exact h

/-- The configuration step adds exactly one stage to the history, its own. -/
theorem initOptions_stages (env : Env) (fuel vm : Nat) (options : Val) (s s1 : State)
    (h : initOptions env fuel vm options s = .ok s1) :
    Stages [.resolveOptions vm (isInternal s.objs options)] s s1 := by
  have hR := stages_respected env
  unfold initOptions at h
  split at h
  · rename_i hint
    rw [hint]
    have h1 := (hR.initInternalComponent vm options _).of_ok h
    simpa [Event.isStage] using stages_trans (stages_log s (.resolveOptions vm true)) h1
  · rename_i hint
    simp only [Bool.not_eq_true] at hint
    rw [hint]
    simp only at h
    have h0 : Stages [Event.resolveOptions vm false] s (s.log (.resolveOptions vm false)) := by
      simpa [Event.isStage] using stages_log s (.resolveOptions vm false)
    obtain ⟨inst, -, h⟩ := Res.bind_ok h
    obtain ⟨a, ha, h⟩ := Res.bind_ok h
    have h1 := (hR.resolveConstructorOptions fuel inst.constructor _).of_ok ha
    obtain ⟨b, hb, h⟩ := Res.bind_ok h
    have h2 := (hR.merge _ _ _ _).of_ok hb
    simp only [Res.ok.injEq] at h
    subst h
    have h3 := hR.optionsOrEmpty options a.1
    simpa using stages_trans h0
      (stages_trans h1 (stages_trans h3 (stages_trans h2 (stages_modifyVm b.1 vm _))))

theorem mountIfEl_stages (env : Env) (vm : Nat) (s s1 : State)
    (h : mountIfEl env vm s = .ok s1) :
    ∃ inst el, getVm s vm = .ok inst ∧ getV s.objs inst.options (.str "el") = .ok el ∧
      Stages (if truthy el then [Event.mount vm el] else []) s s1 := by
  unfold mountIfEl at h
  obtain ⟨inst, hi, h⟩ := Res.bind_ok h
  obtain ⟨el, he, h⟩ := Res.bind_ok h
  refine ⟨inst, el, Res.ofExcept_eq_ok hi, Res.ofExcept_eq_ok he, ?_⟩
  split at h
  · rename_i ht
    obtain ⟨a, ha, h⟩ := Res.bind_ok h
    simp only [Res.ok.injEq] at h
    subst h
    simpa [ht, Event.isStage] using callExt_stages env _ s a.1 a.2 ha
  · rename_i ht
    simp only [Res.ok.injEq] at h
    subst h
    simpa [ht] using stages_refl s

/-- The stages of everything `_init` does after the configuration step, up to the `created`
hook, and the mount decision taken in the state the hook left. -/
theorem initAfterOptions_stages (env : Env) (fuel vm : Nat) (s s1 : State)
    (h : initAfterOptions env fuel vm s = .ok s1) :
    ∃ sC inst el,
      Stages [.initLifecycle vm, .initEvents vm, .initRender vm, .callHook vm "beforeCreate",
        .initInjections vm, .initState vm, .initProvide vm, .callHook vm "created"] s sC ∧
      getVm sC vm = .ok inst ∧ getV sC.objs inst.options (.str "el") = .ok el ∧
      mountIfEl env vm sC = .ok s1 ∧
      Stages (if truthy el then [Event.mount vm el] else []) sC s1 := by
  have hR := stages_respected env
  unfold initAfterOptions at h
  obtain ⟨sp, hp, h⟩ := Res.bind_ok h
  have h1 : Stages [] s sp := by
    split at hp
    · obtain ⟨a, ha, hp⟩ := Res.bind_ok hp
      simp only [Res.ok.injEq] at hp
      subst hp
      simpa [Event.isStage] using callExt_stages env _ s a.1 a.2 ha
    · simp only [Res.ok.injEq] at hp
      subst hp
      exact stages_modifyVm s vm _
  simp only at h
  have h2 := stages_modifyVm sp vm fun i => { i with _self := .vm vm }
  obtain ⟨a3, ha3, h⟩ := Res.bind_ok h
  have h3 := callExt_stages env _ _ a3.1 a3.2 ha3
  obtain ⟨a4, ha4, h⟩ := Res.bind_ok h
  have h4 := callExt_stages env _ _ a4.1 a4.2 ha4
  obtain ⟨a5, ha5, h⟩ := Res.bind_ok h
  have h5 := callExt_stages env _ _ a5.1 a5.2 ha5
  obtain ⟨a6, ha6, h⟩ := Res.bind_ok h
  have h6 := callExt_stages env _ _ a6.1 a6.2 ha6
  obtain ⟨s7, hs7, h⟩ := Res.bind_ok h
  have h7a := stages_log a6.1 (.initInjections vm)
  have h7 := (hR.initInjections fuel vm _).of_ok hs7
  obtain ⟨a8, ha8, h⟩ := Res.bind_ok h
  have h8 := callExt_stages env _ _ a8.1 a8.2 ha8
  obtain ⟨s9, hs9, h⟩ := Res.bind_ok h
  have h9a := stages_log a8.1 (.initProvide vm)
  have h9 := (hR.initProvide vm _).of_ok hs9
  obtain ⟨a10, ha10, h⟩ := Res.bind_ok h
  have h10 := callExt_stages env _ _ a10.1 a10.2 ha10
  obtain ⟨inst, el, hi, he, hm⟩ := mountIfEl_stages env vm a10.1 s1 h
  refine ⟨a10.1, inst, el, ?_, hi, he, h, hm⟩
  simpa [Event.isStage] using
    stages_trans h1 (stages_trans h2 (stages_trans h3 (stages_trans h4 (stages_trans h5
      (stages_trans h6 (stages_trans h7a (stages_trans h7 (stages_trans h8
        (stages_trans h9a (stages_trans h9 h10))))))))))

/-! ## C9: construction order -/

/-- C9: in the history of one `_init` call that returns, the stages are, each once and in this
order: the configuration step, `initLifecycle`, `initEvents`, `initRender`, the hook
`beforeCreate`, `initInjections`, `initState`, `initProvide`, the hook `created`; after them
comes one call of `$mount` with `$options.el` if the `el` of the configuration, read in the
state `sC` the `created` hook left, is truthy, and nothing otherwise. -/
theorem construction_order (env : Env) (fuel vm : Nat) (options : Val) (st st1 : State)
    (h : _init env fuel vm options st = .ok st1) :
    ∃ sC inst el,
      Stages [.resolveOptions vm (isInternal st.objs options), .initLifecycle vm,
        .initEvents vm, .initRender vm, .callHook vm "beforeCreate", .initInjections vm,
        .initState vm, .initProvide vm, .callHook vm "created"] st sC ∧
      getVm sC vm = .ok inst ∧ getV sC.objs inst.options (.str "el") = .ok el ∧
      mountIfEl env vm sC = .ok st1 ∧
      Stages (if truthy el then [Event.mount vm el] else []) sC st1 ∧
      Stages ([.resolveOptions vm (isInternal st.objs options), .initLifecycle vm,
        .initEvents vm, .initRender vm, .callHook vm "beforeCreate", .initInjections vm,
        .initState vm, .initProvide vm, .callHook vm "created"] ++
        (if truthy el then [Event.mount vm el] else [])) st st1 := by
  unfold _init initRest at h
  obtain ⟨s2, hs2, h⟩ := Res.bind_ok h
  have h0 : Stages [] st (modifyVm (assignUid vm st) vm fun i => { i with _isVue := true }) := by
    apply stages_of_trace
    unfold assignUid modifyVm
    simp only
    split <;> split <;> rfl
  have hobjs : (modifyVm (assignUid vm st) vm fun i => { i with _isVue := true }).objs =
      st.objs := by
    unfold assignUid modifyVm
    simp only
    split <;> split <;> rfl
  have h1 := initOptions_stages env fuel vm options _ s2 hs2
  rw [hobjs] at h1
  obtain ⟨sC, inst, el, h2, hi, he, hm, h3⟩ := initAfterOptions_stages env fuel vm s2 st1 h
  have h9 := stages_trans h0 (stages_trans h1 h2)
  simp only [List.nil_append, List.singleton_append] at h9
  exact ⟨sC, inst, el, h9, hi, he, hm, h3, stages_trans h9 h3⟩

/-- Witness for C9: `_init` on instance 0 with `{el: '#app'}`; the history is the configuration
step with its merge, the proxy, the eight further stages and the mount call. -/
theorem construction_order_witness :
    appMounted.trace =
      [.resolveOptions 0 false, .mergeOptions 0 (.obj 1) (some 0) 3, .initProxy 0,
        .initLifecycle 0, .initEvents 0, .initRender 0, .callHook 0 "beforeCreate",
        .initInjections 0, .initState 0, .initProvide 0, .callHook 0 "created",
        .mount 0 (.str "#app")] ∧
    ∃ sC inst el,
      Stages [.resolveOptions 0 (isInternal appState.objs (.obj 1)), .initLifecycle 0,
        .initEvents 0, .initRender 0, .callHook 0 "beforeCreate", .initInjections 0,
        .initState 0, .initProvide 0, .callHook 0 "created"] appState sC ∧
      getVm sC 0 = .ok inst ∧ getV sC.objs inst.options (.str "el") = .ok el ∧
      mountIfEl mergeEnv 0 sC = .ok appMounted ∧
      Stages (if truthy el then [Event.mount 0 el] else []) sC appMounted ∧
      Stages ([.resolveOptions 0 (isInternal appState.objs (.obj 1)), .initLifecycle 0,
        .initEvents 0, .initRender 0, .callHook 0 "beforeCreate", .initInjections 0,
        .initState 0, .initProvide 0, .callHook 0 "created"] ++
        (if truthy el then [Event.mount 0 el] else [])) appState appMounted :=
  ⟨by decide, construction_order mergeEnv 5 0 (.obj 1) appState appMounted (by decide)⟩

/-! ## C10: the configuration branch -/

theorem isInternal_iff (objs : List Obj) (options : Val) :
    isInternal objs options = true ↔
      ∃ r, options = .obj r ∧ truthy (getProp objs r (.str "_isComponent")) = true := by
  cases options <;> simp [isInternal, truthy, getV]

/-- C10: the configuration step of `_init` (lines 31-49, run right after the identity and the
`_isVue` mark) takes the fast path exactly when `options` is an object whose `_isComponent` is
truthy, and is then `initInternalComponent(vm, options)`. In every other case in which it
returns, the configuration of the instance is the object returned by the call
`mergeOptions(resolveConstructorOptions(vm.constructor), child, vm)`, where `child` is
`options` when truthy and otherwise a new empty object. -/
theorem configuration_branch (env : Env) (fuel vm : Nat) (options : Val) (st : State) :
    _init env fuel vm options st =
      (initOptions env fuel vm options
        (modifyVm (assignUid vm st) vm fun i => { i with _isVue := true })).bind
        (initAfterOptions env fuel vm) ∧
    (∀ s : State, isInternal s.objs options = true ↔
      ∃ r, options = .obj r ∧ truthy (getProp s.objs r (.str "_isComponent")) = true) ∧
    (∀ s : State, isInternal s.objs options = true →
      initOptions env fuel vm options s =
        initInternalComponent vm options (s.log (.resolveOptions vm true))) ∧
    (∀ s s1 : State, isInternal s.objs options = false →
      initOptions env fuel vm options s = .ok s1 →
      ∃ inst sR base sM merged,
        s.vms[vm]? = some inst ∧
        resolveConstructorOptions env fuel inst.constructor (s.log (.resolveOptions vm false)) =
          .ok (sR, base) ∧
        env.mergeOptions base (optionsOrEmpty options sR).2 (some vm)
          { (optionsOrEmpty options sR).1 with trace := [] } = .ok (sM, merged) ∧
        (truthy options = true → optionsOrEmpty options sR = (sR, options)) ∧
        (truthy options = false → optionsOrEmpty options sR =
          ({ sR with objs := sR.objs ++ [⟨none, []⟩] }, .obj sR.objs.length)) ∧
        s1 = modifyVm { sM with trace := sR.trace ++
            [.mergeOptions base (optionsOrEmpty options sR).2 (some vm) merged] } vm
          (fun i => { i with options := .obj merged })) := by
  refine ⟨rfl, fun s => isInternal_iff s.objs options, fun s hs => ?_, fun s s1 hs h => ?_⟩
  · unfold initOptions
    simp [hs]
  · unfold initOptions at h
    simp only [hs, Bool.false_eq_true, if_false] at h
    obtain ⟨inst, hi, h⟩ := Res.bind_ok h
    obtain ⟨a, ha, h⟩ := Res.bind_ok h
    obtain ⟨b, hb, h⟩ := Res.bind_ok h
    simp only [Res.ok.injEq] at h
    obtain ⟨s0, hx, hb1⟩ := callMerge_ok env _ _ _ _ b.1 b.2 hb
    have hinst : s.vms[vm]? = some inst := by
      have := Res.ofExcept_eq_ok hi
      unfold getVm at this
      simp only [State.log] at this
      cases hv : s.vms[vm]? with
      | none => simp [hv] at this
      | some j => simp only [hv, Except.ok.injEq] at this; rw [this]
    refine ⟨inst, a.1, a.2, s0, b.2, hinst, ha, hx, ?_, ?_, ?_⟩
    · intro ht; simp [optionsOrEmpty, ht]
    · intro ht; simp [optionsOrEmpty, ht]
    · rw [← h, hb1]
      have : ((optionsOrEmpty options a.1).1).trace = a.1.trace := by
        unfold optionsOrEmpty; split <;> rfl
      rw [this]

/-- An example for C10: with the internal options (object 3) `_init` on instance 1 takes the
fast path: no merge is called, and the configuration of the instance is the new object 7, whose
prototype is the configuration of the definition (object 0). With no options at all the
configuration is the object the merge returned for a new empty object. -/
theorem configuration_branch_example :
    isInternal internalState.objs (.obj 3) = true ∧
    (match _init mergeEnv 5 1 (.obj 3) internalState with
      | .ok s => (s.trace.take 2, s.vms[1]?.map (fun (i : Instance) => i.options), s.objs[7]?)
      | _ => ([], none, none)) =
      ([.resolveOptions 1 true, .initProxy 1], some (.obj 7),
        some ⟨some 0, [⟨.str "parent", true, .vm 0⟩, ⟨.str "_parentVnode", true, .obj 4⟩,
          ⟨.str "propsData", true, .obj 6⟩, ⟨.str "_parentListeners", true, .undefined⟩,
          ⟨.str "_renderChildren", true, .undefined⟩,
          ⟨.str "_componentTag", true, .str "child"⟩]⟩) ∧
    (match _init mergeEnv 5 1 .undefined internalState with
      | .ok s => (s.trace.take 2, s.vms[1]?.map (fun (i : Instance) => i.options), s.objs[7]?)
      | _ => ([], none, none)) =
      ([.resolveOptions 1 false, .mergeOptions 0 (.obj 7) (some 1) 8], some (.obj 8),
        some ⟨none, []⟩) := by
  decide

/-! ## Heaps that grow: lemmas -/

theorem protoClosed_get (objs : List Obj) (h : protoClosed objs = true) (r : Nat) (o : Obj)
    (p : Nat) (ho : objs[r]? = some o) (hp : o.proto = some p) : p < objs.length := by
  unfold protoClosed at h
  rw [List.all_eq_true] at h
  have := h o (List.mem_iff_getElem?.mpr ⟨r, ho⟩)
  simpa [hp] using this

theorem getChain_succ (objs : List Obj) (k : Key) (n r : Nat) :
    getChain objs (n + 1) r k =
      match protoStep objs k r with
      | some p => getChain objs n p k
      | none => getChain objs 1 r k := by
  simp only [getChain, protoStep]
  cases ho : objs[r]? with
  | none => rfl
  | some o =>
    cases hg : getOwn? o.props k with
    | some v => simp only [hg]
    | none =>
      cases hp : o.proto with
      | none => simp only [hg, hp]
      | some p => simp only [hg, hp]

theorem protoStep_lt (objs : List Obj) (k : Key) (r p : Nat) (h : protoStep objs k r = some p) :
    r < objs.length := by
  unfold protoStep at h
  cases ho : objs[r]? with
  | none => simp [ho] at h
  | some o => exact getElem?_lt _ _ _ ho

/-- A lookup that one more step changes has walked a full path of objects of the heap and ends
on the last one. -/
theorem getChain_path (objs : List Obj) (k : Key) :
    ∀ (m r : Nat), getChain objs (m + 1) r k ≠ getChain objs m r k →
      (∀ t, t ≤ m → ∃ x, (fun o : Option Nat => o.bind (protoStep objs k))^[t] (some r) = some x ∧
        x < objs.length) ∧
      (fun o : Option Nat => o.bind (protoStep objs k))^[m + 1] (some r) = none := by
  intro m
  induction m with
  | zero =>
    intro r h
    have hr : r < objs.length ∧ protoStep objs k r = none := by
      simp only [getChain, protoStep] at h ⊢
      cases ho : objs[r]? with
      | none => simp [ho] at h
      | some o =>
        refine ⟨getElem?_lt _ _ _ ho, ?_⟩
        cases hg : getOwn? o.props k with
        | some v => simp only [hg]
        | none =>
          simp only [ho, hg] at h
          cases hp : o.proto <;> simp [hp] at h
    refine ⟨fun t ht => ?_, ?_⟩
    · have : t = 0 := by omega
      subst this
      exact ⟨r, rfl, hr.1⟩
    · simp [hr.2]
  | succ m ih =>
    intro r h
    rw [getChain_succ objs k (m + 1), getChain_succ objs k m] at h
    cases hs : protoStep objs k r with
    | none => simp [hs] at h
    | some p =>
      simp only [hs] at h
      obtain ⟨h1, h2⟩ := ih p h
      refine ⟨fun t ht => ?_, ?_⟩
      · cases t with
        | zero => exact ⟨r, rfl, protoStep_lt objs k r p hs⟩
        | succ t =>
          rw [Function.iterate_succ_apply]
          simp only [Option.bind, hs]
          exact h1 t (by omega)
      · rw [Function.iterate_succ_apply]
        simp only [Option.bind, hs]
        exact h2

/-- A lookup that has as many steps as the heap has objects needs no more. -/
theorem getChain_stable_succ (objs : List Obj) (k : Key) (m r : Nat) (hm : objs.length ≤ m) :
    getChain objs (m + 1) r k = getChain objs m r k := by
  by_contra hne
  obtain ⟨h1, h2⟩ := getChain_path objs k m r hne
  let f := fun o : Option Nat => o.bind (protoStep objs k)
  let g := fun t : Nat => ((f^[t]) (some r)).getD 0
  have hmaps : ∀ t ∈ Finset.range (m + 1), g t ∈ Finset.range objs.length := by
    intro t ht
    obtain ⟨x, hx, hlt⟩ := h1 t (by simpa [Nat.lt_succ_iff] using ht)
    simp only [g, f, hx, Option.getD_some, Finset.mem_range]
    exact hlt
  have hcard : (Finset.range objs.length).card < (Finset.range (m + 1)).card := by
    simp only [Finset.card_range]; omega
  obtain ⟨i, hi, j, hj, hij, hg⟩ := Finset.exists_ne_map_eq_of_card_lt_of_maps_to hcard hmaps
  have key : ∀ a b : Nat, a < b → b ≤ m → f^[a] (some r) = f^[b] (some r) → False := by
    intro a b hab hb he
    have e1 : f^[m + 1] (some r) = f^[m + 1 - b + a] (some r) := by
      have : m + 1 = (m + 1 - b) + b := by omega
      conv_lhs => rw [this]
      rw [Function.iterate_add_apply, ← he, ← Function.iterate_add_apply]
    obtain ⟨x, hx, -⟩ := h1 (m + 1 - b + a) (by omega)
    rw [h2] at e1
    rw [hx] at e1
    exact Option.noConfusion e1
  have hi2 : i ≤ m := by simpa [Nat.lt_succ_iff] using hi
  have hj2 : j ≤ m := by simpa [Nat.lt_succ_iff] using hj
  obtain ⟨x, hx, -⟩ := h1 i hi2
  obtain ⟨y, hy, -⟩ := h1 j hj2
  have hxy : f^[i] (some r) = f^[j] (some r) := by
    have : x = y := by simpa [g, f, hx, hy] using hg
    rw [hx, hy, this]
  rcases Nat.lt_or_gt_of_ne hij with hlt | hgt
  · exact key i j hlt hj2 hxy
  · exact key j i hgt hi2 hxy.symm

theorem getChain_stable (objs : List Obj) (k : Key) (r : Nat) :
    ∀ n : Nat, getChain objs (objs.length + n) r k = getChain objs objs.length r k := by
  intro n
  induction n with
  | zero => rfl
  | succ n ih =>
    rw [← Nat.add_assoc, getChain_stable_succ objs k _ r (by omega), ih]

theorem extends_length (objs objs1 : List Obj) (h : Extends objs objs1) :
    objs.length ≤ objs1.length := by
  by_contra hlt
  have hpos : objs1.length < objs.length := by omega
  have h1 := h objs1.length hpos
  rw [List.getElem?_eq_none (le_refl _), List.getElem?_eq_getElem hpos] at h1
  exact Option.noConfusion h1

theorem extends_refl (objs : List Obj) : Extends objs objs := fun _ _ => rfl

theorem extends_append (objs extra : List Obj) : Extends objs (objs ++ extra) :=
  fun _ hr => List.getElem?_append_left hr

theorem extends_setProp (objs objs1 : List Obj) (t : Nat) (k : Key) (v : Val)
    (h : Extends objs objs1) (ht : objs.length ≤ t) : Extends objs (setProp objs1 t k v) := by
  intro r hr
  rw [setProp_get, if_neg (by omega)]
  exact h r hr

theorem getChain_extends (objs objs1 : List Obj) (h : Extends objs objs1)
    (hc : protoClosed objs = true) (k : Key) :
    ∀ (m r : Nat), r < objs.length → getChain objs1 m r k = getChain objs m r k := by
  intro m
  induction m with
  | zero => intro r _; rfl
  | succ m ih =>
    intro r hr
    simp only [getChain, h r hr]
    cases ho : objs[r]? with
    | none => rfl
    | some o =>
      cases hg : getOwn? o.props k with
      | some v => simp only [hg]
      | none =>
        cases hp : o.proto with
        | none => simp only [hg, hp]
        | some p =>
          simp only [hg, hp]
          exact ih p (protoClosed_get objs hc r o p ho hp)

theorem getChain_extends_heap (objs objs1 : List Obj) (h : Extends objs objs1)
    (hc : protoClosed objs = true) (k : Key) (r : Nat) (hr : r < objs.length) :
    getChain objs1 objs1.length r k = getChain objs objs.length r k := by
  rw [getChain_extends objs objs1 h hc k _ r hr]
  obtain ⟨n, hn⟩ := Nat.exists_eq_add_of_le (extends_length objs objs1 h)
  rw [hn, getChain_stable]

theorem getProp_extends (objs objs1 : List Obj) (h : Extends objs objs1)
    (hc : protoClosed objs = true) (k : Key) (r : Nat) (hr : r < objs.length) :
    getProp objs1 r k = getProp objs r k := by
  unfold getProp
  rw [getChain_extends_heap objs objs1 h hc k r hr]

theorem hasProp_extends (objs objs1 : List Obj) (h : Extends objs objs1)
    (hc : protoClosed objs = true) (k : Key) (r : Nat) (hr : r < objs.length) :
    hasProp objs1 r k = hasProp objs r k := by
  unfold hasProp
  rw [getChain_extends_heap objs objs1 h hc k r hr]

theorem getV_extends (objs objs1 : List Obj) (h : Extends objs objs1)
    (hc : protoClosed objs = true) (v : Val) (k : Key) (hv : inHeap objs v = true) :
    getV objs1 v k = getV objs v k := by
  cases v <;> simp only [getV]
  case obj r =>
    simp only [inHeap, decide_eq_true_eq] at hv
    rw [getProp_extends objs objs1 h hc k r hv]

theorem ownProps_extends (objs objs1 : List Obj) (h : Extends objs objs1) (r : Nat)
    (hr : r < objs.length) : ownProps objs1 r = ownProps objs r := by
  unfold ownProps
  rw [h r hr]

/-! ## The fast path: lemmas -/

theorem setProp_append_new (objs : List Obj) (pr : Option Nat) (ps : List Property) (k : Key)
    (v : Val) :
    setProp (objs ++ [⟨pr, ps⟩]) objs.length k v = objs ++ [⟨pr, setOwn ps k v⟩] := by
  unfold setProp
  simp [List.getElem?_append_right (le_refl _)]

theorem modifyVm_objs (st : State) (vm : Nat) (f : Instance → Instance) :
    (modifyVm st vm f).objs = st.objs := by
  unfold modifyVm
  cases st.vms[vm]? <;> rfl

/-- What the fast path does when its reads succeed: it returns, the heap has one more object,
the new configuration, with the definition's configuration as prototype and the copied fields
as own fields, and the instance refers to it; nothing else changes. -/
theorem initInternalComponent_ok (vm : Nat) (options : Val) (st : State) (inst : Instance)
    (c : Ctor)
    (parent parentVnode componentOptions propsData listeners children tag render
      staticRenderFns : Val)
    (hclosed : protoClosed st.objs = true)
    (hvm : st.vms[vm]? = some inst) (hc : st.ctors[inst.constructor]? = some c)
    (ho : inHeap st.objs options = true) (hpv : inHeap st.objs parentVnode = true)
    (hco : inHeap st.objs componentOptions = true)
    (h1 : getV st.objs options (.str "_parentVnode") = .ok parentVnode)
    (h2 : getV st.objs options (.str "parent") = .ok parent)
    (h3 : getV st.objs parentVnode (.str "componentOptions") = .ok componentOptions)
    (h4 : getV st.objs componentOptions (.str "propsData") = .ok propsData)
    (h5 : getV st.objs componentOptions (.str "listeners") = .ok listeners)
    (h6 : getV st.objs componentOptions (.str "children") = .ok children)
    (h7 : getV st.objs componentOptions (.str "tag") = .ok tag)
    (h8 : getV st.objs options (.str "render") = .ok render)
    (h9 : getV st.objs options (.str "staticRenderFns") = .ok staticRenderFns) :
    initInternalComponent vm options st = .ok
      { st with
        objs := st.objs ++ [⟨some c.options, fastPathFields parent parentVnode propsData
          listeners children tag render staticRenderFns⟩],
        vms := st.vms.set vm { inst with options := .obj st.objs.length } } := by
  have rd : ∀ (ps : List Property) (x : Val) (k : Key), inHeap st.objs x = true →
      getV (st.objs ++ [⟨some c.options, ps⟩]) x k = getV st.objs x k :=
    fun ps x k hx => getV_extends st.objs _ (extends_append st.objs _) hclosed x k hx
  unfold initInternalComponent
  simp only [getVm, hvm, getCtor, hc, Res.bind, Res.ofExcept_ok, assign, modifyVm,
    setProp_append_new, rd _ _ _ ho, rd _ _ _ hpv, rd _ _ _ hco, h1, h2, h3, h4, h5, h6, h7,
    h8, h9]
  by_cases hr : truthy render = true
  · simp [hr, fastPathFields, setOwn, rd _ _ _ ho, h9, setProp_append_new]
  · simp [hr, fastPathFields, setOwn]

/-! ## C11: the fields the fast path copies -/

/-- C11: when the reads of `initInternalComponent(vm, options)` succeed (`options`, its
`_parentVnode` and that node's `componentOptions` are not `undefined` or `null`), the call
returns, the configuration of the instance is a new object, and the own fields of that object
are exactly `parent`, `_parentVnode`, `propsData`, `_parentListeners`, `_renderChildren` and
`_componentTag`, holding the very values of `options.parent`, `options._parentVnode` and of
the `propsData`, `listeners`, `children` and `tag` of `options._parentVnode.componentOptions`,
followed by `render` and `staticRenderFns` (the values of `options.render` and
`options.staticRenderFns`) when `options.render` is truthy; when it is not, the object has no
own `render` and no own `staticRenderFns`. The heap is taken to have no prototype link and no
reference among the three objects read that leaves it. -/
theorem fast_path_field_copy (vm : Nat) (options : Val) (st : State) (inst : Instance)
    (c : Ctor)
    (parent parentVnode componentOptions propsData listeners children tag render
      staticRenderFns : Val)
    (hclosed : protoClosed st.objs = true)
    (hvm : st.vms[vm]? = some inst) (hc : st.ctors[inst.constructor]? = some c)
    (ho : inHeap st.objs options = true) (hpv : inHeap st.objs parentVnode = true)
    (hco : inHeap st.objs componentOptions = true)
    (h1 : getV st.objs options (.str "_parentVnode") = .ok parentVnode)
    (h2 : getV st.objs options (.str "parent") = .ok parent)
    (h3 : getV st.objs parentVnode (.str "componentOptions") = .ok componentOptions)
    (h4 : getV st.objs componentOptions (.str "propsData") = .ok propsData)
    (h5 : getV st.objs componentOptions (.str "listeners") = .ok listeners)
    (h6 : getV st.objs componentOptions (.str "children") = .ok children)
    (h7 : getV st.objs componentOptions (.str "tag") = .ok tag)
    (h8 : getV st.objs options (.str "render") = .ok render)
    (h9 : getV st.objs options (.str "staticRenderFns") = .ok staticRenderFns) :
    ∃ st1, initInternalComponent vm options st = .ok st1 ∧
      (st1.vms[vm]?).map (fun i : Instance => i.options) = some (.obj st.objs.length) ∧
      ownProps st1.objs st.objs.length =
        fastPathFields parent parentVnode propsData listeners children tag render
          staticRenderFns ∧
      (truthy render = true →
        getOwn? (ownProps st1.objs st.objs.length) (.str "render") = some render ∧
        getOwn? (ownProps st1.objs st.objs.length) (.str "staticRenderFns") =
          some staticRenderFns) ∧
      (truthy render = false →
        getOwn? (ownProps st1.objs st.objs.length) (.str "render") = none ∧
        getOwn? (ownProps st1.objs st.objs.length) (.str "staticRenderFns") = none) := by
  refine ⟨_, initInternalComponent_ok vm options st inst c parent parentVnode componentOptions
    propsData listeners children tag render staticRenderFns hclosed hvm hc ho hpv hco h1 h2 h3
    h4 h5 h6 h7 h8 h9, ?_, ?_, ?_, ?_⟩
  · simp [List.getElem?_set_self, getElem?_lt _ _ _ hvm]
  · simp [ownProps, List.getElem?_append_right (le_refl _)]
  · intro hr
    simp [ownProps, List.getElem?_append_right (le_refl _), fastPathFields, hr, getOwn?]
  · intro hr
    simp [ownProps, List.getElem?_append_right (le_refl _), fastPathFields, hr, getOwn?]

/-- Witness for C11: the internal options (object 3) on instance 1: the configuration is the
new object 7 with the six copied fields and no `render`. -/
theorem fast_path_field_copy_witness :
    ∃ st1, initInternalComponent 1 (.obj 3) internalState = .ok st1 ∧
      (st1.vms[1]?).map (fun i : Instance => i.options) = some (.obj 7) ∧
      ownProps st1.objs 7 =
        [⟨.str "parent", true, .vm 0⟩, ⟨.str "_parentVnode", true, .obj 4⟩,
          ⟨.str "propsData", true, .obj 6⟩, ⟨.str "_parentListeners", true, .undefined⟩,
          ⟨.str "_renderChildren", true, .undefined⟩,
          ⟨.str "_componentTag", true, .str "child"⟩] ∧
      (truthy .undefined = true →
        getOwn? (ownProps st1.objs 7) (.str "render") = some .undefined ∧
        getOwn? (ownProps st1.objs 7) (.str "staticRenderFns") = some .undefined) ∧
      (truthy .undefined = false →
        getOwn? (ownProps st1.objs 7) (.str "render") = none ∧
        getOwn? (ownProps st1.objs 7) (.str "staticRenderFns") = none) :=
  fast_path_field_copy 1 (.obj 3) internalState (freshVm none .undefined) ⟨0, none, none, 0, 0⟩
    (.vm 0) (.obj 4) (.obj 5) (.obj 6) .undefined .undefined (.str "child") .undefined .undefined
    (by decide) (by decide) (by decide) (by decide) (by decide) (by decide) (by decide)
    (by decide) (by decide) (by decide) (by decide) (by decide) (by decide) (by decide)
    (by decide)

/-! ## C12: what the fast-path configuration falls back to -/

theorem getOwn?_none_of_not_mem (ps : List Property) (f : Key) (h : f ∉ ownKeys ps) :
    getOwn? ps f = none := by
  induction ps with
  | nil => rfl
  | cons p ps ih =>
    simp only [ownKeys, List.map_cons, List.mem_cons, not_or] at h
    have hp : ¬ p.key = f := fun e => h.1 e.symm
    simp only [getOwn?, hp, if_false]
    exact ih h.2

/-- C12 (amended): when the reads of `initInternalComponent(vm, options)` succeed, the call
returns and, for every field the fast path does not assign, reading the field from the new
configuration of the instance yields the value the field has in the definition's cached
configuration `vm.constructor.options`, before the call and after it alike; the call writes no
field of any definition and no object that was in the heap. That cached configuration is the
object `resolveConstructorOptions` returns at that moment when no configuration along the
definition's `super` chain is out of date: the resolver then returns it and changes nothing.
The heap is taken to have no prototype link and no reference among the objects read that
leaves it. -/
theorem fast_path_fallback (env : Env) (fuel : Nat) (vm : Nat) (options : Val) (st : State)
    (inst : Instance) (c : Ctor)
    (parent parentVnode componentOptions propsData listeners children tag render
      staticRenderFns : Val)
    (hclosed : protoClosed st.objs = true)
    (hvm : st.vms[vm]? = some inst) (hc : st.ctors[inst.constructor]? = some c)
    (hopt : c.options < st.objs.length)
    (ho : inHeap st.objs options = true) (hpv : inHeap st.objs parentVnode = true)
    (hco : inHeap st.objs componentOptions = true)
    (h1 : getV st.objs options (.str "_parentVnode") = .ok parentVnode)
    (h2 : getV st.objs options (.str "parent") = .ok parent)
    (h3 : getV st.objs parentVnode (.str "componentOptions") = .ok componentOptions)
    (h4 : getV st.objs componentOptions (.str "propsData") = .ok propsData)
    (h5 : getV st.objs componentOptions (.str "listeners") = .ok listeners)
    (h6 : getV st.objs componentOptions (.str "children") = .ok children)
    (h7 : getV st.objs componentOptions (.str "tag") = .ok tag)
    (h8 : getV st.objs options (.str "render") = .ok render)
    (h9 : getV st.objs options (.str "staticRenderFns") = .ok staticRenderFns) :
    ∃ st1, initInternalComponent vm options st = .ok st1 ∧
      (∀ f, f ∉ ownKeys (fastPathFields parent parentVnode propsData listeners children tag
          render staticRenderFns) →
        getProp st1.objs st.objs.length f = getProp st.objs c.options f ∧
        getProp st1.objs st.objs.length f = getProp st1.objs c.options f) ∧
      st1.ctors = st.ctors ∧ Extends st.objs st1.objs ∧
      (∀ rest, settled st (inst.constructor :: rest) = true → rest.length < fuel →
        resolveConstructorOptions env fuel inst.constructor st1 = .ok (st1, c.options)) := by
  refine ⟨_, initInternalComponent_ok vm options st inst c parent parentVnode componentOptions
    propsData listeners children tag render staticRenderFns hclosed hvm hc ho hpv hco h1 h2 h3
    h4 h5 h6 h7 h8 h9, ?_, rfl, extends_append st.objs _, ?_⟩
  · intro f hf
    have hread : getProp (st.objs ++ [⟨some c.options, fastPathFields parent parentVnode
        propsData listeners children tag render staticRenderFns⟩]) st.objs.length f =
        getProp st.objs c.options f := by
      unfold getProp
      simp only [List.length_append, List.length_singleton, getChain,
        List.getElem?_append_right (le_refl _), Nat.sub_self, List.getElem?_cons_zero,
        getOwn?_none_of_not_mem _ f hf]
      rw [getChain_extends st.objs _ (extends_append st.objs _) hclosed f _ _ hopt]
    refine ⟨hread, ?_⟩
    rw [hread]
    exact (getProp_extends st.objs _ (extends_append st.objs _) hclosed f _ hopt).symm
  · intro rest hs hf
    refine resolve_hit env _ rest fuel inst.constructor c ?_ hf hc
    rw [← hs]
    exact settled_congr st _ _ (fun i _ => rfl)

/-- Witness for C12: the internal options (object 3) on instance 1 of the root definition: the
field `a`, which the fast path does not assign, reads as 1 from the new configuration (object
7), the value it has in the configuration of the definition (object 0), and the resolver
returns object 0. -/
theorem fast_path_fallback_witness :
    ∃ st1, initInternalComponent 1 (.obj 3) internalState = .ok st1 ∧
      getProp st1.objs 7 (.str "a") = .num 1 ∧
      getProp st1.objs 0 (.str "a") = .num 1 ∧
      resolveConstructorOptions mergeEnv 5 0 st1 = .ok (st1, 0) := by
  obtain ⟨st1, h, hread, -, -, hres⟩ := fast_path_fallback mergeEnv 5 1 (.obj 3) internalState
    (freshVm none .undefined) ⟨0, none, none, 0, 0⟩
    (.vm 0) (.obj 4) (.obj 5) (.obj 6) .undefined .undefined (.str "child") .undefined .undefined
    (by decide) (by decide) (by decide) (by decide) (by decide) (by decide) (by decide)
    (by decide) (by decide) (by decide) (by decide) (by decide) (by decide) (by decide)
    (by decide) (by decide)
  have ha := hread (.str "a") (by decide)
  refine ⟨st1, h, ?_, ?_, hres [] (by decide) (by decide)⟩
  · exact ha.1.trans (by decide)
  · exact (ha.2.symm.trans ha.1).trans (by decide)

/-- Counterexample to C12 as stated: `Base`'s configuration has been replaced by an object with
the new field `c` and `Child` has not been resolved since. The fast path builds the
configuration of an instance of `Child` (the new object 8) on `Child`'s cached configuration:
`c` reads as `undefined` from it, while the object `resolveConstructorOptions(Child)` returns
at that moment has `c` equal to 3. -/
theorem stale_fallback_differs :
    (match initInternalComponent 0 (.obj 5) staleState with
      | .ok s1 =>
        some (getProp s1.objs 8 (.str "c"),
          match resolveConstructorOptions mergeEnv 2 1 s1 with
          | .ok (s2, r) => some (getProp s2.objs r (.str "c"))
          | _ => none)
      | _ => none) = some (.undefined, some (.num 3)) := by
  decide

/-! ## C13: self-registration -/

theorem registerSelf_registered (d r : Nat) (s s1 : State) (h : registerSelf d r s = .ok s1) :
    SelfRegistered s s1 r d := by
  unfold registerSelf at h
  simp only at h
  constructor
  · intro hn reg hreg hlt
    simp only [hn, if_true, hreg, setV, Res.ofExcept_ok, Res.bind, Res.ok.injEq] at h
    subst h
    simp only
    refine ⟨?_, fun k hk => ?_, ?_, fun x hx => ?_⟩
    · rw [ownProps_setProp _ _ _ _ _ hlt, if_pos rfl, getOwn?_setOwn_self]
    · rw [ownProps_setProp _ _ _ _ _ hlt, if_pos rfl, getOwn?_setOwn_ne _ _ _ _ hk]
    · rw [setProp_get, if_pos rfl]
      cases s.objs[reg]? <;> rfl
    · rw [setProp_get, if_neg hx]
  · intro hn
    simp only [hn, Bool.false_eq_true, if_false, Res.ok.injEq] at h
    rw [← h]

/-- C13: when `resolveConstructorOptions(d)` finds the parent configuration `p` different from
the cached `superOptions` and returns `r`, then `r` is the object the merge returned and the
only write made after the merge is the self-registration: if `r` has a truthy `name`, its
registry `r.components` (an object of the heap) maps the name to the definition `d` itself on
return, while every other own entry of the registry, its prototype and every other object are
as the merge left them; if `r` has no truthy `name`, the heap on return is the heap the merge
left. (`sA` is the state the parent's resolution left; the merge function is taken not to
write fields of definitions.) -/
theorem self_registration (env : Env) (hm : env.MergeKeepsCtors) (fuel d sup : Nat)
    (st sA st1 : State) (cd0 cd : Ctor) (p r : Nat)
    (hcd0 : st.ctors[d]? = some cd0) (hsup : cd0.super = some sup)
    (hrec : resolveConstructorOptions env fuel sup st = .ok (sA, p))
    (hcd : sA.ctors[d]? = some cd) (hnew : cd.superOptions ≠ some p)
    (h : resolveConstructorOptions env (fuel + 1) d st = .ok (st1, r)) :
    ∃ st2 s0, st2.objs = foldedObjs sA cd ∧
      env.mergeOptions p (.obj cd.extendOptions) none st2 = .ok (s0, r) ∧
      SelfRegistered s0 st1 r d := by
  unfold resolveConstructorOptions at h
  have hne : some p ≠ cd.superOptions := fun e => hnew e.symm
  simp only [(getCtor_ok st d cd0).mpr hcd0, Res.bind, Res.ofExcept_ok, hsup, hrec,
    (getCtor_ok sA d cd).mpr hcd, Res.ofExcept_ok, hne, ne_eq, not_false_eq_true, if_true] at h
  obtain ⟨c, hc, -, -, st2, s0, ho, -, hmg, hreg⟩ := recompute_ok env hm d p sA st1 r h
  rw [hcd] at hc
  simp only [Option.some.injEq] at hc
  subst hc
  have hsr := registerSelf_registered d r _ st1 hreg
  exact ⟨st2, s0, ho, hmg, hsr⟩

/-- Witness for C13: `Child`, named `child`, is resolved after `Base`'s configuration was
replaced, with the merge that builds a new registry: the merged configuration is the new object
6, its registry (the new object 7) maps `child` to `Child` and still maps `base` to `Base`, and
`Base`'s own registry (object 4) is as it was. -/
theorem self_registration_witness :
    resolveConstructorOptions registryEnv 2 1 namedState = .ok (namedResolved, 6) ∧
    getProp namedResolved.objs 6 (.str "components") = .obj 7 ∧
    getOwn? (ownProps namedResolved.objs 7) (.str "child") = some (.ctor 1) ∧
    getProp namedResolved.objs 7 (.str "base") = .ctor 0 ∧
    ownProps namedResolved.objs 4 = [⟨.str "base", true, .ctor 0⟩] ∧
    ∃ st2 s0, st2.objs = foldedObjs namedState ⟨1, some 0, some 0, 2, 3⟩ ∧
      registryEnv.mergeOptions 5 (.obj 2) none st2 = .ok (s0, 6) ∧
      SelfRegistered s0 namedResolved 6 1 :=
  ⟨by decide, by decide, by decide, by decide, by decide,
    self_registration registryEnv registryEnv_keepsCtors 1 1 0 namedState namedState
      namedResolved ⟨1, some 0, some 0, 2, 3⟩ ⟨1, some 0, some 0, 2, 3⟩ 5 6 (by decide)
      (by decide) (by decide) (by decide) (by decide) (by decide)⟩

/-! ## Termination: lemmas -/

theorem isChain_cons (st : State) (i : Nat) (c : List Nat)
    (h : isChain st (some i) c = true) :
    ∃ inst rest, c = i :: rest ∧ st.vms[i]? = some inst ∧ isChain st inst.parent rest = true := by
  cases c with
  | nil => simp [isChain] at h
  | cons j rest =>
    simp only [isChain, Bool.and_eq_true, beq_iff_eq] at h
    obtain ⟨rfl, h2⟩ := h
    cases hc : st.vms[i]? with
    | none => simp [hc] at h2
    | some inst =>
      simp only [hc] at h2
      exact ⟨inst, rest, rfl, rfl, h2⟩

theorem isChain_unique (st : State) : ∀ (c1 c2 : List Nat) (src : Option Nat),
    isChain st src c1 = true → isChain st src c2 = true → c1 = c2 := by
  intro c1
  induction c1 with
  | nil =>
    intro c2 src h1 h2
    cases src with
    | none => cases c2 with
      | nil => rfl
      | cons _ _ => simp [isChain] at h2
    | some i => simp [isChain] at h1
  | cons j rest ih =>
    intro c2 src h1 h2
    cases src with
    | none => simp [isChain] at h1
    | some i =>
      obtain ⟨inst, r1, e1, hv1, hr1⟩ := isChain_cons st i _ h1
      obtain ⟨inst2, r2, e2, hv2, hr2⟩ := isChain_cons st i _ h2
      rw [hv1] at hv2
      simp only [Option.some.injEq] at hv2
      subst hv2
      simp only [List.cons.injEq] at e1
      obtain ⟨rfl, rfl⟩ := e1
      rw [e2, ih r2 inst.parent hr1 hr2]

theorem isChain_from_mem (st : State) : ∀ (c : List Nat) (src : Option Nat) (j : Nat),
    isChain st src c = true → j ∈ c →
    ∃ c1, isChain st (some j) c1 = true ∧ c1.length ≤ c.length := by
  intro c
  induction c with
  | nil => intro src j _ hj; simp at hj
  | cons i rest ih =>
    intro src j h hj
    cases src with
    | none => simp [isChain] at h
    | some i0 =>
      obtain ⟨inst, r1, e1, -, hr1⟩ := isChain_cons st i0 _ h
      simp only [List.cons.injEq] at e1
      obtain ⟨rfl, rfl⟩ := e1
      rcases List.mem_cons.mp hj with hj | hj
      · subst hj
        exact ⟨_, h, le_refl _⟩
      · obtain ⟨c1, hc1, hl⟩ := ih inst.parent j hr1 hj
        exact ⟨c1, hc1, by simp only [List.length_cons]; omega⟩

/-- A `$parent` chain that ends has no instance twice. -/
theorem isChain_nodup (st : State) : ∀ (c : List Nat) (src : Option Nat),
    isChain st src c = true → c.Nodup := by
  intro c
  induction c with
  | nil => intro _ _; exact List.nodup_nil
  | cons i rest ih =>
    intro src h
    cases src with
    | none => simp [isChain] at h
    | some i0 =>
      obtain ⟨inst, r1, e1, -, hr1⟩ := isChain_cons st i0 _ h
      simp only [List.cons.injEq] at e1
      obtain ⟨rfl, rfl⟩ := e1
      refine List.nodup_cons.mpr ⟨fun hmem => ?_, ih inst.parent hr1⟩
      obtain ⟨c1, hc1, hl⟩ := isChain_from_mem st rest inst.parent i hr1 hmem
      have := isChain_unique st _ _ _ hc1 h
      rw [this] at hl
      simp only [List.length_cons] at hl
      omega

theorem walkVisits_prefix (st : State) (s : Val) : ∀ (c : List Nat) (fuel : Nat)
    (src : Option Nat), isChain st src c = true → walkVisits st s fuel src <+: c := by
  intro c
  induction c with
  | nil =>
    intro fuel src h
    cases src with
    | none => cases fuel <;> simp [walkVisits]
    | some i => simp [isChain] at h
  | cons j rest ih =>
    intro fuel src h
    cases src with
    | none => simp [isChain] at h
    | some i =>
      obtain ⟨inst, r1, e1, hv, hr1⟩ := isChain_cons st i _ h
      simp only [List.cons.injEq] at e1
      obtain ⟨rfl, rfl⟩ := e1
      cases fuel with
      | zero => simp [walkVisits]
      | succ n =>
        simp only [walkVisits, hv]
        split
        · exact ⟨rest, rfl⟩
        · exact (List.prefix_cons_inj j).mpr (ih n inst.parent hr1)

theorem Res.bind_ne_diverge {α β : Type} (r : Res α) (f : α → Res β) (hr : r ≠ .diverge)
    (hf : ∀ a, f a ≠ .diverge) : r.bind f ≠ .diverge := by
  cases r with
  | ok a => exact hf a
  | throw e s => simp [Res.bind]
  | diverge => exact absurd rfl hr

theorem Res.ofExcept_ne_diverge {α : Type} (st : State) (x : Except Exn α) :
    Res.ofExcept st x ≠ .diverge := by
  cases x <;> simp [Res.ofExcept]

theorem callMerge_ne_diverge (env : Env)
    (hnd : ∀ p ch v s, env.mergeOptions p ch v s ≠ .diverge) (p : Nat) (ch : Val)
    (v : Option Nat) (st : State) : callMerge env p ch v st ≠ .diverge := by
  unfold callMerge
  cases hm : env.mergeOptions p ch v { st with trace := [] } with
  | diverge => exact absurd hm (hnd _ _ _ _)
  | throw x sx => simp
  | ok a => simp

theorem registerSelf_ne_diverge (d o : Nat) (st : State) : registerSelf d o st ≠ .diverge := by
  unfold registerSelf
  simp only
  split
  · exact Res.bind_ne_diverge _ _ (Res.ofExcept_ne_diverge _ _) (fun _ => by simp)
  · simp

theorem recompute_ne_diverge (env : Env)
    (hnd : ∀ p ch v s, env.mergeOptions p ch v s ≠ .diverge) (d p : Nat) (st : State) :
    recompute env d p st ≠ .diverge := by
  unfold recompute
  refine Res.bind_ne_diverge _ _ (Res.ofExcept_ne_diverge _ _) (fun c => ?_)
  refine Res.bind_ne_diverge _ _ (callMerge_ne_diverge env hnd _ _ _ _) (fun a => ?_)
  exact Res.bind_ne_diverge _ _ (registerSelf_ne_diverge _ _ _) (fun _ => by simp)

theorem resolve_ne_diverge (env : Env)
    (hnd : ∀ p ch v s, env.mergeOptions p ch v s ≠ .diverge) (st : State) :
    ∀ (c : List Nat) (fuel d : Nat), isSuperChain st (some d) c = true → c.length ≤ fuel →
      resolveConstructorOptions env fuel d st ≠ .diverge := by
  intro c
  induction c with
  | nil => intro fuel d h; simp [isSuperChain] at h
  | cons j rest ih =>
    intro fuel d hch hf
    obtain ⟨cd, rest1, hc, hcd, hrest⟩ := isSuperChain_cons st d _ hch
    simp only [List.cons.injEq] at hc
    obtain ⟨rfl, rfl⟩ := hc
    cases fuel with
    | zero => simp at hf
    | succ n =>
      unfold resolveConstructorOptions
      simp only [(getCtor_ok st j cd).mpr hcd, Res.bind, Res.ofExcept_ok]
      cases hs : cd.super with
      | none => simp
      | some sup =>
        simp only
        rw [hs] at hrest
        have hpar := ih n sup hrest (by simpa using hf)
        cases hrec : resolveConstructorOptions env n sup st with
        | diverge => exact absurd hrec hpar
        | throw x sx => simp
        | ok a =>
          obtain ⟨sA, p⟩ := a
          simp only
          cases hc1 : getCtor sA j with
          | error x => simp
          | ok c1 =>
            simp only [Res.ofExcept_ok]
            split
            · exact recompute_ne_diverge env hnd j p sA
            · simp

theorem recompute_shape (env : Env) (d p : Nat) (st : State) (c : Ctor)
    (hc : st.ctors[d]? = some c) :
    ∃ st2, recompute env d p st =
      (callMerge env p (.obj c.extendOptions) none st2).bind fun a =>
        (registerSelf d a.2 (modifyCtor a.1 d fun c => { c with options := a.2 })).bind
          fun st4 => .ok (st4, a.2) := by
  unfold recompute
  have hget : getCtor (modifyCtor st d fun c => { c with superOptions := some p }) d =
      .ok { c with superOptions := some p } := by
    rw [getCtor_ok, modifyCtor_get]
    simp [hc]
  simp only [hget, Res.ofExcept_ok, Res.bind]
  exact ⟨_, rfl⟩

theorem recompute_returns (env : Env) (ht : env.MergeTotal) (hg : env.MergeGivesRegistry)
    (d p : Nat) (st : State) (c : Ctor) (hc : st.ctors[d]? = some c) :
    ∃ st1 r, recompute env d p st = .ok (st1, r) := by
  obtain ⟨st2, he⟩ := recompute_shape env d p st c hc
  rw [he]
  obtain ⟨s0, r, hm⟩ := ht p (.obj c.extendOptions) none { st2 with trace := [] }
  have hreg := hg _ _ _ _ _ _ hm
  simp only [callMerge, hm, Res.bind, registerSelf, (modifyCtor_frame _ d _).1]
  by_cases hn : truthy (getProp s0.objs r (.str "name")) = true
  · have ha := hreg hn
    simp only [hn, if_true]
    cases hv : getProp s0.objs r (.str "components") <;> simp only [hv, assignable] at ha <;>
      first
        | exact absurd ha (by decide)
        | exact ⟨_, _, rfl⟩
  · simp only [hn]
    exact ⟨_, _, rfl⟩

theorem resolve_returns (env : Env) (hm : env.MergeKeepsCtors) (ht : env.MergeTotal)
    (hg : env.MergeGivesRegistry) (st : State) :
    ∀ (c : List Nat) (fuel d : Nat), isSuperChain st (some d) c = true → c.length ≤ fuel →
      ∃ st1 r, resolveConstructorOptions env fuel d st = .ok (st1, r) := by
  intro c
  induction c with
  | nil => intro fuel d h; simp [isSuperChain] at h
  | cons j rest ih =>
    intro fuel d hch hf
    obtain ⟨cd, rest1, hc, hcd, hrest⟩ := isSuperChain_cons st d _ hch
    simp only [List.cons.injEq] at hc
    obtain ⟨rfl, rfl⟩ := hc
    cases fuel with
    | zero => simp at hf
    | succ n =>
      unfold resolveConstructorOptions
      simp only [(getCtor_ok st j cd).mpr hcd, Res.bind, Res.ofExcept_ok]
      cases hs : cd.super with
      | none => exact ⟨_, _, rfl⟩
      | some sup =>
        simp only
        rw [hs] at hrest
        obtain ⟨sA, p, hrec⟩ := ih n sup hrest (by simpa using hf)
        simp only [hrec]
        have hfix := resolve_keeps_links env hm n sup st sA p hrec j
        cases hcA : sA.ctors[j]? with
        | none => simp [hcA, hcd] at hfix
        | some c1 =>
          simp only [(getCtor_ok sA j c1).mpr hcA, Res.ofExcept_ok]
          split
          · exact recompute_returns env ht hg j p sA c1 hcA
          · exact ⟨_, _, rfl⟩

theorem walkVisits_last (st : State) (s : Val) : ∀ (fuel : Nat) (src : Option Nat) (i : Nat)
    (v : Val), walk st s fuel src = .ok (some (i, v)) →
    (walkVisits st s fuel src).getLast? = some i := by
  intro fuel
  induction fuel with
  | zero => intro src i v h; cases src <;> simp [walk] at h
  | succ n ih =>
    intro src i v h
    cases src with
    | none => simp [walk] at h
    | some j =>
      simp only [walk, walkVisits] at h ⊢
      cases hv : st.vms[j]? with
      | none => simp [hv] at h
      | some inst =>
        simp only [hv] at h ⊢
        split at h
        · rename_i hp
          simp only [Res.ok.injEq, Option.some.injEq, Prod.mk.injEq] at h
          simp [hp, h.1]
        · rename_i hp
          simp only [hp]
          have := ih inst.parent i v h
          cases hw : walkVisits st s n inst.parent with
          | nil => simp [hw] at this
          | cons x xs =>
            rw [hw] at this
            simp only [Bool.false_eq_true, if_false]
            rw [List.getLast?_cons_cons]
            exact this

theorem getProp_setProp_self (objs : List Obj) (r : Nat) (k : Key) (v : Val)
    (hr : r < objs.length) : getProp (setProp objs r k v) r k = v := by
  unfold getProp
  rw [setProp_length]
  obtain ⟨n, hn⟩ := Nat.exists_eq_add_of_lt hr
  have hl : objs.length = (r + n) + 1 := by omega
  rw [hl]
  simp only [getChain, setProp_get, if_true, List.getElem?_eq_getElem hr, Option.map_some',
    getOwn?_setOwn_self, Option.getD_some]

theorem registryEnv_total : registryEnv.MergeTotal := by
  intro p c vm s
  exact ⟨_, _, rfl⟩

theorem registryEnv_givesRegistry : registryEnv.MergeGivesRegistry := by
  intro p c vm s s1 r h _
  simp only [registryEnv, mergeRegistry, mergeDefault, Res.ok.injEq, Prod.mk.injEq] at h
  obtain ⟨rfl, rfl⟩ := h
  simp only
  rw [getProp_setProp_self _ _ _ _ (by simp)]
  rfl

/-! ## C14: termination -/

/-- C14 (amended): for a definition `d` whose `super` chain is the finite list `c`, a call of
`resolveConstructorOptions` with a bound of one call per definition of the chain does not run
out of the bound whenever the merge function always terminates, and it returns a
configuration when the merge function is total, does not write fields of definitions, and
gives every configuration that has a truthy `name` a `components` to which the definition can
be assigned. For an instance `vm` whose `$parent` chain is the finite list `cv`, the walk of
`resolveInject` for any source key returns, with the first provider of the chain if there is
one; the instances it visits are an initial part of the chain, each visited once, and the walk
stops at the provider it finds. -/
theorem resolution_terminates (env : Env) (st : State) (d : Nat) (c : List Nat) (fuel : Nat)
    (sv : State) (vm : Nat) (cv : List Nat) (fuelv : Nat)
    (hch : isSuperChain st (some d) c = true) (hfuel : c.length ≤ fuel)
    (hvc : isChain sv (some vm) cv = true) (hfv : cv.length < fuelv) :
    ((∀ p ch v s, env.mergeOptions p ch v s ≠ .diverge) →
      resolveConstructorOptions env fuel d st ≠ .diverge) ∧
    (env.MergeTotal → env.MergeKeepsCtors → env.MergeGivesRegistry →
      ∃ st1 r, resolveConstructorOptions env fuel d st = .ok (st1, r)) ∧
    (∀ key : Val,
      walk sv key fuelv (some vm) = .ok (firstProvider sv (toKey key) cv) ∧
      walkVisits sv key fuelv (some vm) <+: cv ∧
      (walkVisits sv key fuelv (some vm)).Nodup ∧
      (∀ i v, firstProvider sv (toKey key) cv = some (i, v) →
        (walkVisits sv key fuelv (some vm)).getLast? = some i)) := by
  refine ⟨fun hnd => resolve_ne_diverge env hnd st c fuel d hch hfuel,
    fun ht hm hg => resolve_returns env hm ht hg st c fuel d hch hfuel, fun key => ?_⟩
  have hw := walk_chain sv key cv fuelv (some vm) hvc hfv
  have hp := walkVisits_prefix sv key cv fuelv (some vm) hvc
  refine ⟨hw, hp, (isChain_nodup sv cv _ hvc).sublist hp.sublist, fun i v hf => ?_⟩
  exact walkVisits_last sv key fuelv (some vm) i v (by rw [hw, hf])

/-- Witness for C14: `Child`, named `child`, resolves with the merge that builds a registry;
in the tree Root → A → B → Leaf the walk from Leaf for `x` visits Leaf, B and A and stops at A,
the first provider. -/
theorem resolution_terminates_witness :
    resolveConstructorOptions registryEnv 2 1 namedState ≠ .diverge ∧
    (∃ st1 r, resolveConstructorOptions registryEnv 2 1 namedState = .ok (st1, r)) ∧
    walk treeState (.str "x") 5 (some 3) = .ok (some (1, .num 2)) ∧
    walkVisits treeState (.str "x") 5 (some 3) = [3, 2, 1] ∧
    (walkVisits treeState (.str "x") 5 (some 3)).Nodup := by
  have h := resolution_terminates registryEnv namedState 1 [1, 0] 2 treeState 3 [3, 2, 1, 0] 5
    (by decide) (by decide) (by decide) (by decide)
  refine ⟨h.1 (fun p ch v s => by simp [registryEnv, mergeRegistry, mergeDefault]),
    h.2.1 registryEnv_total registryEnv_keepsCtors registryEnv_givesRegistry, ?_, by decide,
    (h.2.2 (.str "x")).2.2.1⟩
  exact (h.2.2 (.str "x")).1.trans (by decide)

/-- Counterexample to C14 as stated: the chain `Child` → `Base` is finite and the merge
function is total, but the merged configuration has the name `child` and no `components`, and
the self-registration of line 135 throws a `TypeError`. -/
theorem unregistered_name_throws :
    isSuperChain bareState (some 1) [1, 0] = true ∧
    (∀ p c vm s, ∃ s1 r, mergeEnv.mergeOptions p c vm s = .ok (s1, r)) ∧
    (match resolveConstructorOptions mergeEnv 2 1 bareState with
      | .throw e _ => some e
      | _ => none) = some .typeError :=
  ⟨by decide, fun _ _ _ _ => ⟨_, _, rfl⟩, by decide⟩


/-! ## The injection result: lemmas -/

theorem mem_ownKeys_setOwn (ps : List Property) (k f : Key) (v : Val) :
    f ∈ ownKeys (setOwn ps k v) ↔ f ∈ ownKeys ps ∨ f = k := by
  rw [ownKeys_setOwn]
  split
  · rename_i hk
    constructor
    · exact Or.inl
    · rintro (h | h)
      · exact h
      · rw [h]; exact hk
  · simp

/-- One iteration of the loop of `resolveInject` that returns binds its key exactly when the
key is not `'__ob__'` and is resolved, and leaves the result as it is otherwise. -/
theorem resolveInjectKey_shape (env : Env) (hpure : env.CallsPure) (fuel : Nat) (inject : Val)
    (vm : Nat) (key : Key) (st0 st st1 : State) (c : List Nat) (result result1 : List Property)
    (hchain : isChain st0 (some vm) c = true) (hfuel : c.length < fuel)
    (ho : st.objs = st0.objs) (hv : st.vms = st0.vms)
    (h : resolveInjectKey env fuel inject vm key st result = .ok (st1, result1)) :
    st1.objs = st0.objs ∧ st1.vms = st0.vms ∧
    (key ≠ .str "__ob__" → resolvedBy st0 c inject key = true →
      ∃ v, result1 = setOwn result key v) ∧
    ((key = .str "__ob__" ∨ resolvedBy st0 c inject key = false) → result1 = result) := by
  obtain ⟨ho1, hv1, -⟩ := resolveInjectKey_ok env hpure fuel inject vm key st st1 result
    result1 h
  refine ⟨ho1.trans ho, hv1.trans hv, ?_⟩
  unfold resolveInjectKey at h
  split at h
  · rename_i hk
    simp only [Res.ok.injEq, Prod.mk.injEq] at h
    exact ⟨fun hne => absurd hk hne, fun _ => h.2.symm⟩
  · rename_i hk
    rw [ho] at h
    cases h1 : getV st0.objs inject key <;>
      simp only [h1, Res.bind, Res.ofExcept_ok, Res.ofExcept_error] at h <;> try contradiction
    rename_i decl
    cases h2 : getV st0.objs decl (.str "from") <;>
      simp only [h2, Res.ofExcept_ok, Res.ofExcept_error] at h <;> try contradiction
    rename_i s
    have hres : resolvedBy st0 c inject key =
        ((firstProvider st0 (toKey s) c).isSome ||
          (hasIn st0.objs (.str "default") decl == .ok true)) := by
      simp only [resolvedBy, h1, h2]
    rw [hres]
    rw [walk_congr st0 st ho hv, walk_chain st0 s c fuel (some vm) hchain hfuel] at h
    simp only at h
    cases hf : firstProvider st0 (toKey s) c with
    | some iv =>
      simp only [hf, Res.ok.injEq, Prod.mk.injEq] at h
      refine ⟨fun _ _ => ⟨_, h.2.symm⟩, fun hx => ?_⟩
      rcases hx with hx | hx
      · exact absurd hx hk
      · simp at hx
    | none =>
      simp only [hf] at h
      simp only [Option.isSome_none, Bool.false_or, beq_iff_eq]
      cases h4 : hasIn st0.objs (.str "default") decl <;>
        simp only [h4, Res.ofExcept_ok, Res.ofExcept_error] at h <;> try contradiction
      rename_i hasDefault
      cases hasDefault with
      | true =>
        simp only [if_true] at h
        have hb : ∃ v, result1 = setOwn result key v := by
          cases h5 : getV st0.objs decl (.str "default") <;>
            simp only [h5, Res.ofExcept_ok, Res.ofExcept_error] at h <;> try contradiction
          rename_i dflt
          split at h
          · cases h6 : callExt env (.call dflt vm) st <;> simp only [h6] at h <;>
              try contradiction
            simp only [Res.ok.injEq, Prod.mk.injEq] at h
            exact ⟨_, h.2.symm⟩
          · simp only [Res.ok.injEq, Prod.mk.injEq] at h
            exact ⟨_, h.2.symm⟩
        refine ⟨fun _ _ => hb, fun hx => ?_⟩
        rcases hx with hx | hx
        · exact absurd hx hk
        · simp at hx
      | false =>
        simp only [Bool.false_eq_true, if_false] at h
        have hb : result1 = result := by
          split at h
          · cases h7 : keyToString key <;>
              simp only [h7, Res.ofExcept_ok, Res.ofExcept_error] at h <;> try contradiction
            simp only [Res.ok.injEq, Prod.mk.injEq] at h
            exact h.2.symm
          · simp only [Res.ok.injEq, Prod.mk.injEq] at h
            exact h.2.symm
        exact ⟨fun _ hx => by simp at hx, fun _ => hb⟩

theorem resolveInjectLoop_keys (env : Env) (hpure : env.CallsPure) (fuel : Nat) (inject : Val)
    (vm : Nat) (st0 : State) (c : List Nat)
    (hchain : isChain st0 (some vm) c = true) (hfuel : c.length < fuel) :
    ∀ (keys : List Key) (st : State) (res : List Property) (st1 : State)
      (res1 : List Property), st.objs = st0.objs → st.vms = st0.vms →
      resolveInjectLoop env fuel inject vm keys st res = .ok (st1, res1) →
      ∀ k, k ∈ ownKeys res1 ↔
        (k ∈ ownKeys res ∨
          (k ∈ keys ∧ k ≠ .str "__ob__" ∧ resolvedBy st0 c inject k = true)) := by
  intro keys
  induction keys with
  | nil =>
    intro st res st1 res1 _ _ h k
    simp only [resolveInjectLoop, Res.ok.injEq, Prod.mk.injEq] at h
    simp [h.2]
  | cons key keys ih =>
    intro st res st1 res1 ho hv h k
    simp only [resolveInjectLoop] at h
    cases hb : resolveInjectKey env fuel inject vm key st res with
    | throw x sx => simp [hb, Res.bind] at h
    | diverge => simp [hb, Res.bind] at h
    | ok a =>
      obtain ⟨st2, res2⟩ := a
      simp only [hb, Res.bind] at h
      obtain ⟨ho2, hv2, hyes, hno⟩ := resolveInjectKey_shape env hpure fuel inject vm key st0
        st st2 c res res2 hchain hfuel ho hv hb
      rw [ih st2 res2 st1 res1 ho2 hv2 h k]
      by_cases hcond : key ≠ .str "__ob__" ∧ resolvedBy st0 c inject key = true
      · obtain ⟨v, hv3⟩ := hyes hcond.1 hcond.2
        rw [hv3, mem_ownKeys_setOwn, List.mem_cons]
        constructor
        · rintro ((h1 | h1) | h1)
          · exact Or.inl h1
          · exact Or.inr ⟨Or.inl h1, by rw [h1]; exact hcond.1, by rw [h1]; exact hcond.2⟩
          · exact Or.inr ⟨Or.inr h1.1, h1.2⟩
        · rintro (h1 | ⟨h1 | h1, h2⟩)
          · exact Or.inl (Or.inl h1)
          · exact Or.inl (Or.inr h1)
          · exact Or.inr ⟨h1, h2⟩
      · have hres2 : res2 = res := by
          apply hno
          by_cases hk : key = .str "__ob__"
          · exact Or.inl hk
          · right
            cases hr : resolvedBy st0 c inject key with
            | false => rfl
            | true => exact absurd ⟨hk, hr⟩ hcond
        rw [hres2, List.mem_cons]
        constructor
        · rintro (h1 | h1)
          · exact Or.inl h1
          · exact Or.inr ⟨Or.inr h1.1, h1.2⟩
        · rintro (h1 | ⟨h1 | h1, h2⟩)
          · exact Or.inl h1
          · exact absurd (by rw [← h1]; exact h2) hcond
          · exact Or.inr ⟨h1, h2⟩

theorem callExt_returns (env : Env) (e : Event) (st : State)
    (h : ∃ s1 v, env.ext e { st with trace := [] } = .ok (s1, v)) :
    ∃ s1 v, callExt env e st = .ok (s1, v) := by
  obtain ⟨s1, v, hx⟩ := h
  unfold callExt
  rw [hx]
  exact ⟨_, _, rfl⟩

/-- One iteration of the loop of `resolveInject` returns when the walk ends, the declaration is
an object, the default producer returns, and the warning for a missing injection, if one is
due, is about a string key. -/
theorem resolveInjectKey_returns (env : Env) (fuel : Nat) (inject : Val) (vm : Nat) (key : Key)
    (st0 st : State) (c : List Nat) (result : List Property)
    (hchain : isChain st0 (some vm) c = true) (hfuel : c.length < fuel)
    (ho : st.objs = st0.objs) (hv : st.vms = st0.vms)
    (hdecl : key ≠ .str "__ob__" → ∃ d, getV st0.objs inject key = .ok (.obj d))
    (hcalls : ∀ f s, ∃ s1 v, env.ext (.call f vm) s = .ok (s1, v))
    (hwarn : key ≠ .str "__ob__" → resolvedBy st0 c inject key = false →
      env.production = true ∨ ∃ name, key = .str name) :
    ∃ st1 result1, resolveInjectKey env fuel inject vm key st result = .ok (st1, result1) := by
  unfold resolveInjectKey
  split
  · exact ⟨_, _, rfl⟩
  · rename_i hk
    obtain ⟨d, hd⟩ := hdecl hk
    rw [ho]
    have hfrom : ∀ k, getV st0.objs (.obj d) k = .ok (getProp st0.objs d k) := fun _ => rfl
    simp only [hd, Res.ofExcept_ok, Res.bind, hfrom]
    rw [walk_congr st0 st ho hv, walk_chain st0 _ c fuel (some vm) hchain hfuel]
    simp only
    have hres : resolvedBy st0 c inject key =
        ((firstProvider st0 (toKey (getProp st0.objs d (.str "from"))) c).isSome ||
          (hasIn st0.objs (.str "default") (.obj d) == .ok true)) := by
      simp only [resolvedBy, hd, hfrom]
    cases hf : firstProvider st0 (toKey (getProp st0.objs d (.str "from"))) c with
    | some iv => exact ⟨_, _, rfl⟩
    | none =>
      simp only [hasIn, Res.ofExcept_ok]
      cases hh : hasProp st0.objs d (.str "default") with
      | true =>
        simp only [if_true]
        split
        · obtain ⟨s1, v, hc⟩ := callExt_returns env
            (.call (getProp st0.objs d (.str "default")) vm) st (hcalls _ _)
          rw [hc]
          exact ⟨_, _, rfl⟩
        · exact ⟨_, _, rfl⟩
      | false =>
        simp only [Bool.false_eq_true, if_false]
        have hr : resolvedBy st0 c inject key = false := by
          rw [hres, hf]
          simp [hasIn, hh]
        rcases hwarn hk hr with hp | ⟨name, hn⟩
        · simp only [hp, Bool.not_true, Bool.false_eq_true, if_false]
          exact ⟨_, _, rfl⟩
        · split
          · subst hn
            exact ⟨_, _, rfl⟩
          · exact ⟨_, _, rfl⟩

theorem resolveInjectLoop_returns (env : Env) (hpure : env.CallsPure) (fuel : Nat)
    (inject : Val) (vm : Nat) (st0 : State) (c : List Nat)
    (hchain : isChain st0 (some vm) c = true) (hfuel : c.length < fuel)
    (hcalls : ∀ f s, ∃ s1 v, env.ext (.call f vm) s = .ok (s1, v)) :
    ∀ (keys : List Key) (st : State) (res : List Property),
      st.objs = st0.objs → st.vms = st0.vms →
      (∀ k ∈ keys, k ≠ .str "__ob__" → ∃ d, getV st0.objs inject k = .ok (.obj d)) →
      (∀ k ∈ keys, k ≠ .str "__ob__" → resolvedBy st0 c inject k = false →
        env.production = true ∨ ∃ name, k = .str name) →
      ∃ st1 res1, resolveInjectLoop env fuel inject vm keys st res = .ok (st1, res1) := by
  intro keys
  induction keys with
  | nil => intro st res _ _ _ _; exact ⟨_, _, rfl⟩
  | cons key keys ih =>
    intro st res ho hv hdecl hwarn
    obtain ⟨st2, res2, hb⟩ := resolveInjectKey_returns env fuel inject vm key st0 st c res
      hchain hfuel ho hv (hdecl key (List.mem_cons_self _ _)) hcalls
      (hwarn key (List.mem_cons_self _ _))
    obtain ⟨ho2, hv2, -⟩ := resolveInjectKey_shape env hpure fuel inject vm key st0
      st st2 c res res2 hchain hfuel ho hv hb
    obtain ⟨st1, res1, hl⟩ := ih st2 res2 ho2 hv2
      (fun k hk => hdecl k (List.mem_cons_of_mem _ hk))
      (fun k hk => hwarn k (List.mem_cons_of_mem _ hk))
    refine ⟨st1, res1, ?_⟩
    simp only [resolveInjectLoop, hb, Res.bind]
    exact hl

/-! ## C15: the shape of the injection result -/

/-- C15: `resolveInject` returns absent, and changes nothing, when the declarations are falsy.
For a declarations object `inj` and an instance with the finite `$parent` chain `c`, whatever
`resolveInject` returns is a mapping, and its keys are exactly the declared keys other than
`'__ob__'` that are resolved: some instance of the chain provides their source key, or their
declaration has a `default`. The iteration for the key `'__ob__'` returns at once, reading
nothing and leaving the result as it is. The call does return a mapping when every declaration
is an object, the default producers return, and in a development build every declared key
left unresolved is a string. The default producers are taken to leave the heap and the
instances as they are. -/
theorem injection_result_shape (env : Env) (hpure : env.CallsPure) (fuel : Nat) (st : State)
    (inj vm : Nat) (c : List Nat)
    (hchain : isChain st (some vm) c = true) (hfuel : c.length < fuel) :
    (∀ inject, truthy inject = false → resolveInject env fuel inject vm st = .ok (st, none)) ∧
    (∀ st1 res, resolveInject env fuel (.obj inj) vm st = .ok (st1, res) →
      ∃ result, res = some result ∧
        ∀ k, k ∈ ownKeys result ↔
          (k ∈ declaredKeys env st.objs inj ∧ k ≠ .str "__ob__" ∧
            resolvedBy st c (.obj inj) k = true)) ∧
    (∀ s result,
      resolveInjectKey env fuel (.obj inj) vm (.str "__ob__") s result = .ok (s, result)) ∧
    ((∀ f s, ∃ s1 v, env.ext (.call f vm) s = .ok (s1, v)) →
      (∀ k ∈ declaredKeys env st.objs inj, k ≠ .str "__ob__" →
        ∃ d, getProp st.objs inj k = .obj d) →
      (∀ k ∈ declaredKeys env st.objs inj, k ≠ .str "__ob__" →
        resolvedBy st c (.obj inj) k = false → env.production = true ∨ ∃ name, k = .str name) →
      ∃ st1 result, resolveInject env fuel (.obj inj) vm st = .ok (st1, some result)) := by
  refine ⟨fun inject hf => ?_, fun st1 res h => ?_, fun s result => ?_,
    fun hcalls hdecl hwarn => ?_⟩
  · simp [resolveInject, hf]
  · obtain ⟨result, hres, hloop⟩ := resolveInject_obj env fuel inj vm st st1 res h
    refine ⟨result, hres, fun k => ?_⟩
    rw [resolveInjectLoop_keys env hpure fuel (.obj inj) vm st c hchain hfuel _ st [] st1
      result rfl rfl hloop k]
    simp [ownKeys]
  · simp [resolveInjectKey]
  · obtain ⟨st1, result, hl⟩ := resolveInjectLoop_returns env hpure fuel (.obj inj) vm st c
      hchain hfuel hcalls (declaredKeys env st.objs inj) st [] rfl rfl
      (fun k hk hne => by
        obtain ⟨d, hd⟩ := hdecl k hk hne
        exact ⟨d, by simp only [getV, hd]⟩)
      hwarn
    refine ⟨st1, result, ?_⟩
    unfold resolveInject
    simp only [truthy, if_true, reflectOwnKeys, objectKeys]
    have hk : (if env.hasSymbol = true then Except.ok (ownKeys (ownProps st.objs inj))
        else Except.ok (enumKeys (ownProps st.objs inj))) =
        (Except.ok (declaredKeys env st.objs inj) : Except Exn (List Key)) := by
      unfold declaredKeys; split <;> rfl
    rw [hk]
    simp only [Res.bind, Res.ofExcept_ok, hl]

/-- Witness for C15: in the tree Root → A → B → Leaf, Leaf declares `foo` from `x`: the result
is the mapping with the one key `foo`; without declarations the result is absent. -/
theorem injection_result_shape_witness :
    resolveInject quietEnv 5 .undefined 3 treeState = .ok (treeState, none) ∧
    resolveInject quietEnv 5 (.obj 2) 3 treeState =
      .ok (treeState, some [⟨.str "foo", true, .num 2⟩]) ∧
    (∃ result, some [(⟨.str "foo", true, .num 2⟩ : Property)] = some result ∧
      ∀ k, k ∈ ownKeys result ↔
        (k ∈ declaredKeys quietEnv treeState.objs 2 ∧ k ≠ .str "__ob__" ∧
          resolvedBy treeState [3, 2, 1, 0] (.obj 2) k = true)) :=
  ⟨(injection_result_shape quietEnv quietEnv_callsPure 5 treeState 2 3 [3, 2, 1, 0]
      (by decide) (by decide)).1 .undefined (by decide),
    by decide,
    (injection_result_shape quietEnv quietEnv_callsPure 5 treeState 2 3 [3, 2, 1, 0]
      (by decide) (by decide)).2.1 treeState _ (by decide)⟩

/-! ## C16: installation of the injections -/

theorem defineLoop_trace (env : Env) (vm : Nat) (result : List Property) :
    ∀ (keys : List Key) (st st1 : State), defineLoop env vm result keys st = .ok st1 →
      st1.trace = st.trace ++ keys.map fun k =>
        Event.defineReactive vm k ((getOwn? result k).getD .undefined) (!env.production) := by
  intro keys
  induction keys with
  | nil =>
    intro st st1 h
    simp only [defineLoop, Res.ok.injEq] at h
    simp [h]
  | cons key keys ih =>
    intro st st1 h
    simp only [defineLoop] at h
    obtain ⟨a, ha, h⟩ := Res.bind_ok h
    obtain ⟨s0, -, hs⟩ := callExt_ok env _ st a.1 a.2 ha
    rw [ih a.1 st1 h, hs]
    simp

/-- What `initInjections` does when it returns: with an absent result of `resolveInject` it
makes no call at all; with a mapping it switches observation off, calls `defineReactive` once
for each enumerable string key of the mapping, in order, with the value bound to the key, and
switches observation on. -/
theorem initInjections_trace (env : Env) (fuel vm : Nat) (st st1 : State)
    (h : initInjections env fuel vm st = .ok st1) :
    ∃ inst inject sR res, st.vms[vm]? = some inst ∧
      getV st.objs inst.options (.str "inject") = .ok inject ∧
      resolveInject env fuel inject vm st = .ok (sR, res) ∧
      (res = none → st1 = sR) ∧
      (∀ result, res = some result →
        st1.trace = sR.trace ++ [.toggleObserving false] ++
          ((enumKeys result).map fun k =>
            Event.defineReactive vm k ((getOwn? result k).getD .undefined) (!env.production)) ++
          [.toggleObserving true]) := by
  unfold initInjections at h
  obtain ⟨inst, hi, h⟩ := Res.bind_ok h
  obtain ⟨inject, hj, h⟩ := Res.bind_ok h
  obtain ⟨a, ha, h⟩ := Res.bind_ok h
  obtain ⟨sR, res⟩ := a
  have hinst : st.vms[vm]? = some inst := by
    have := Res.ofExcept_eq_ok hi
    unfold getVm at this
    cases hv : st.vms[vm]? with
    | none => simp [hv] at this
    | some j => simp only [hv, Except.ok.injEq] at this; rw [this]
  refine ⟨inst, inject, sR, res, hinst, Res.ofExcept_eq_ok hj, ha, ?_, ?_⟩
  · intro hn
    subst hn
    simp only [Res.ok.injEq] at h
    exact h.symm
  · intro result hr
    subst hr
    simp only at h
    obtain ⟨b, hb, h⟩ := Res.bind_ok h
    obtain ⟨s3, h3, h⟩ := Res.bind_ok h
    obtain ⟨d, hd, h⟩ := Res.bind_ok h
    simp only [Res.ok.injEq] at h
    obtain ⟨_, -, hs2⟩ := callExt_ok env _ sR b.1 b.2 hb
    obtain ⟨_, -, hs4⟩ := callExt_ok env _ s3 d.1 d.2 hd
    rw [← h, hs4, defineLoop_trace env vm result _ b.1 s3 h3, hs2]

/-- C16, the failing input: on an engine with symbols, Leaf declares an injection under a
symbol key, with the symbol as source key, and B provides a value under that symbol.
`resolveInject` returns the mapping that binds the symbol key to 2, and `initInjections`
switches observation off and on again without a single call of `defineReactive`: the loop over
`Object.keys(result)` does not list the symbol key, so the bound key is not installed. -/
theorem symbol_injection_not_installed :
    quietEnv.hasSymbol = true ∧
    resolveInject quietEnv 5 (.obj 13) 3 symState =
      .ok (symState, some [⟨.sym 1, true, .num 2⟩]) ∧
    (match initInjections quietEnv 5 3 symState with
      | .ok s => some s.trace
      | _ => none) = some [.toggleObserving false, .toggleObserving true] := by
  decide

/-! ## C17: provide resolution -/

theorem modifyVm_get_self (st : State) (vm : Nat) (f : Instance → Instance) (i : Instance)
    (h : st.vms[vm]? = some i) : (modifyVm st vm f).vms[vm]? = some (f i) := by
  unfold modifyVm
  simp [h, List.getElem?_set_self, getElem?_lt _ _ _ h]

/-- C17: let `provide` be the `provide` field of the configuration of the instance `vm`. When
it is a function, `initProvide` calls it once with the instance as receiver and, if the call
returns `v`, sets the provided-values map of the instance to `v`, in the state the call left,
and does nothing else. When it is truthy and not a function, `initProvide` sets the map to
`provide` itself and calls nothing. When it is falsy, `initProvide` returns with the state
exactly as it was: the map is as before and nothing is called. -/
theorem provide_resolution (env : Env) (vm : Nat) (st : State) (inst : Instance) (provide : Val)
    (hvm : st.vms[vm]? = some inst)
    (hp : getV st.objs inst.options (.str "provide") = .ok provide) :
    (isFunction provide = true → ∀ s0 v,
      env.ext (.call provide vm) { st with trace := [] } = .ok (s0, v) →
      ∃ st1, initProvide env vm st = .ok st1 ∧
        st1 = modifyVm { s0 with trace := st.trace ++ [.call provide vm] } vm
          (fun i => { i with _provided := v }) ∧
        (∀ i0, s0.vms[vm]? = some i0 → st1.vms[vm]? = some { i0 with _provided := v })) ∧
    (truthy provide = true → isFunction provide = false →
      initProvide env vm st = .ok (modifyVm st vm fun i => { i with _provided := provide }) ∧
      (modifyVm st vm fun i => { i with _provided := provide }).vms[vm]? =
        some { inst with _provided := provide } ∧
      (modifyVm st vm fun i => { i with _provided := provide }).trace = st.trace) ∧
    (truthy provide = false → initProvide env vm st = .ok st) := by
  have hget : getVm st vm = .ok inst := by simp [getVm, hvm]
  refine ⟨fun hf s0 v hx => ?_, fun ht hf => ?_, fun ht => ?_⟩
  · have htr : truthy provide = true := by
      cases provide <;> simp [isFunction] at hf <;> rfl
    refine ⟨_, ?_, rfl, fun i0 hi0 => modifyVm_get_self _ vm _ i0 hi0⟩
    simp only [initProvide, hget, hp, Res.ofExcept_ok, Res.bind, htr, hf, if_true, callExt, hx]
  · refine ⟨?_, modifyVm_get_self st vm _ inst hvm, ?_⟩
    · simp only [initProvide, hget, hp, Res.ofExcept_ok, Res.bind, ht, hf, if_true,
        Bool.false_eq_true, if_false]
    · unfold modifyVm
      simp [hvm]
  · simp only [initProvide, hget, hp, Res.ofExcept_ok, Res.bind, ht, Bool.false_eq_true,
      if_false]

/-- Witness for C17: instance 0 declares `provide: {x: 1}` (object 0) and gets object 0 as its
provided-values map; instance 1 declares a function that returns 7 and gets 7; instance 2
declares nothing and the state stays as it is. -/
theorem provide_resolution_witness :
    (initProvide quietEnv 0 provideState =
        .ok (modifyVm provideState 0 fun i => { i with _provided := .obj 0 }) ∧
      (modifyVm provideState 0 fun i => { i with _provided := .obj 0 }).vms[0]? =
        some { freshVm none (.obj 0) with options := .obj 1 } ∧
      (modifyVm provideState 0 fun i => { i with _provided := .obj 0 }).trace =
        provideState.trace) ∧
    (∃ st1, initProvide quietEnv 1 provideState = .ok st1 ∧
      st1 = modifyVm { provideState with trace := [.call (.fn 0) 1] } 1
        (fun i => { i with _provided := .num 7 }) ∧
      (∀ i0, provideState.vms[1]? = some i0 →
        st1.vms[1]? = some { i0 with _provided := .num 7 })) ∧
    initProvide quietEnv 2 provideState = .ok provideState :=
  ⟨(provide_resolution quietEnv 0 provideState { freshVm none .undefined with options := .obj 1 }
      (.obj 0) (by decide) (by decide)).2.1 (by decide) (by decide),
    (provide_resolution quietEnv 1 provideState { freshVm none .undefined with options := .obj 2 }
      (.fn 0) (by decide) (by decide)).1 (by decide) provideState (.num 7) (by decide),
    (provide_resolution quietEnv 2 provideState { freshVm none .undefined with options := .obj 3 }
      .undefined (by decide) (by decide)).2.2 (by decide)⟩


/-! ## Transitive invalidation: lemmas -/

theorem extend_length (objs : List Obj) (t : Nat) (m : List Property) :
    (extend objs t m).length = objs.length := by
  unfold extend
  generalize m.filter Property.listed = ps
  induction ps generalizing objs with
  | nil => rfl
  | cons p ps ih => simp only [List.foldl_cons, ih, setProp_length]

theorem foldedObjs_length (st : State) (c : Ctor) :
    (foldedObjs st c).length = st.objs.length := by
  unfold foldedObjs
  split
  · exact extend_length _ _ _
  · rfl

theorem registerSelf_length (d o : Nat) (st st1 : State) (h : registerSelf d o st = .ok st1) :
    st1.objs.length = st.objs.length := by
  unfold registerSelf at h
  simp only at h
  split at h
  · cases hv : getProp st.objs o (.str "components") <;>
      simp only [hv, setV, Res.ofExcept_ok, Res.ofExcept_error, Res.bind, Res.ok.injEq] at h <;>
      first
        | contradiction
        | (subst h; simp [setProp_length])
  · simp only [Res.ok.injEq] at h
    rw [← h]

/-- A recomputation that returns, with a merge that returns fresh objects, returns an object
that was not in the heap and is in it afterwards. -/
theorem recompute_fresh (env : Env) (hm : env.MergeKeepsCtors) (hf : env.MergeFresh)
    (d p : Nat) (st st1 : State) (r : Nat) (h : recompute env d p st = .ok (st1, r)) :
    st.objs.length ≤ r ∧ r < st1.objs.length := by
  obtain ⟨c, -, -, -, st2, st0, ho, -, hmg, hreg⟩ := recompute_ok env hm d p st st1 r h
  obtain ⟨h1, h2⟩ := hf _ _ _ _ _ _ hmg
  rw [ho, foldedObjs_length] at h1
  have h3 := registerSelf_length d r _ st1 hreg
  simp only at h3
  exact ⟨h1, by rw [h3]; exact h2⟩

theorem isSuperChain_super_mem (st : State) : ∀ (c : List Nat) (src : Option Nat) (i : Nat)
    (ci : Ctor) (sup : Nat), isSuperChain st src c = true → i ∈ c →
    st.ctors[i]? = some ci → ci.super = some sup → sup ∈ c := by
  intro c
  induction c with
  | nil => intro src i ci sup _ hi; simp at hi
  | cons j rest ih =>
    intro src i ci sup h hi hci hs
    cases src with
    | none => simp [isSuperChain] at h
    | some j0 =>
      obtain ⟨cd, rest1, hc, hcd, hrest⟩ := isSuperChain_cons st j0 _ h
      simp only [List.cons.injEq] at hc
      obtain ⟨rfl, rfl⟩ := hc
      rcases List.mem_cons.mp hi with hi | hi
      · subst hi
        rw [hcd] at hci
        simp only [Option.some.injEq] at hci
        subst hci
        rw [hs] at hrest
        obtain ⟨_, rest2, hr2, -, -⟩ := isSuperChain_cons st sup _ hrest
        rw [hr2]
        exact List.mem_cons_of_mem _ (List.mem_cons_self _ _)
      · exact List.mem_cons_of_mem _ (ih cd.super i ci sup hrest hi hci hs)

/-- A resolution that returns leaves alone every definition whose cached `superOptions` is
the configuration its parent has after the resolution. -/
theorem resolve_unchanged (env : Env) (hm : env.MergeKeepsCtors) :
    ∀ (c : List Nat) (fuel d : Nat) (st st1 : State) (r : Nat),
      isSuperChain st (some d) c = true → c.Nodup →
      resolveConstructorOptions env fuel d st = .ok (st1, r) →
      ∀ (i : Nat) (ci : Ctor) (sup : Nat) (cs1 : Ctor), st.ctors[i]? = some ci →
        ci.super = some sup → st1.ctors[sup]? = some cs1 →
        ci.superOptions = some cs1.options → st1.ctors[i]? = some ci := by
  intro c
  induction c with
  | nil => intro fuel d st st1 r hch; simp [isSuperChain] at hch
  | cons j rest ih =>
    intro fuel d st st1 r hch hnd h i ci sup cs1 hci hsup hcs1 hso
    by_cases hic : i ∈ j :: rest
    swap
    · rw [resolve_frame env hm fuel d st st1 r _ h hch i hic]
      exact hci
    obtain ⟨cd, rest1, hc, hcd, hrest⟩ := isSuperChain_cons st d _ hch
    simp only [List.cons.injEq] at hc
    obtain ⟨rfl, rfl⟩ := hc
    have hnd2 := List.nodup_cons.mp hnd
    cases fuel with
    | zero => simp [resolveConstructorOptions] at h
    | succ n =>
      unfold resolveConstructorOptions at h
      simp only [(getCtor_ok st j cd).mpr hcd, Res.bind, Res.ofExcept_ok] at h
      cases hs : cd.super with
      | none =>
        simp only [hs, Res.ok.injEq, Prod.mk.injEq] at h
        rw [← h.1]
        exact hci
      | some sup0 =>
        simp only [hs] at h hrest
        cases hrec : resolveConstructorOptions env n sup0 st with
        | throw x sx => simp [hrec] at h
        | diverge => simp [hrec] at h
        | ok a =>
          obtain ⟨sA, p⟩ := a
          simp only [hrec] at h
          have hdA : sA.ctors[j]? = some cd := by
            rw [resolve_frame env hm n sup0 st sA p _ hrec hrest j hnd2.1]; exact hcd
          obtain ⟨-, -, cs, hcs, hp⟩ := resolve_settles env hm rest n sup0 st sA p hrest
            hnd2.2 hrec
          obtain ⟨_, rest2, hr2, -, -⟩ := isSuperChain_cons st sup0 _ hrest
          have hsup0 : sup0 ∈ rest := by rw [hr2]; exact List.mem_cons_self _ _
          have hjs : j ≠ sup0 := fun e => hnd2.1 (by rw [e]; exact hsup0)
          simp only [(getCtor_ok sA j cd).mpr hdA, Res.ofExcept_ok, Res.bind] at h
          split at h
          · rename_i hmiss
            obtain ⟨c2, -, hct, -⟩ := recompute_ok env hm j p sA st1 r h
            rcases List.mem_cons.mp hic with hij | hir
            · subst hij
              rw [hcd] at hci
              simp only [Option.some.injEq] at hci
              subst hci
              rw [hs] at hsup
              simp only [Option.some.injEq] at hsup
              subst hsup
              rw [hct, List.getElem?_set_ne hjs, hcs] at hcs1
              simp only [Option.some.injEq] at hcs1
              subst hcs1
              rw [hp] at hso
              exact absurd hso.symm hmiss
            · have hij : j ≠ i := fun e => hnd2.1 (by rw [e]; exact hir)
              have hsr := isSuperChain_super_mem st rest _ i ci sup hrest hir hci hsup
              have hjsup : j ≠ sup := fun e => hnd2.1 (by rw [e]; exact hsr)
              rw [hct, List.getElem?_set_ne hjsup] at hcs1
              rw [hct, List.getElem?_set_ne hij]
              exact ih n sup0 st sA p hrest hnd2.2 hrec i ci sup cs1 hci hsup hcs1 hso
          · simp only [Res.ok.injEq, Prod.mk.injEq] at h
            obtain ⟨rfl, rfl⟩ := h
            rcases List.mem_cons.mp hic with hij | hir
            · subst hij
              rw [hdA, ← hcd, hci]
            · exact ih n sup0 st sA p hrest hnd2.2 hrec i ci sup cs1 hci hsup hcs1 hso

theorem mergeEnv_fresh : mergeEnv.MergeFresh := by
  intro p c vm s s1 r h
  simp only [mergeEnv, mergeDefault, Res.ok.injEq, Prod.mk.injEq] at h
  obtain ⟨rfl, rfl⟩ := h
  simp

/-! ## C18: transitive invalidation -/

/-- C18: let `c` extend `b` and `b` extend `a`. If the resolution of `a` returns a
configuration `na` that is not the `superOptions` cached by `b`, while `c` caches `b`'s
configuration as `superOptions` (both cached configurations being objects of the heap), and
the merge function returns a fresh object on each call, then a call of
`resolveConstructorOptions(c)` that returns `r` has recomputed `b` and then `c`: on return `b`
caches `na` as `superOptions` and has a new object `rb` as `options`, `c` caches `rb` as
`superOptions` and has the new object `r`, different from `rb`, as `options`, and the calls made
are the two merges, `b`'s first. Conversely, after any resolution that returns, a definition
whose cached `superOptions` is identical to the configuration its direct parent then has is
exactly as it was before: it has not been recomputed. (`sA` is the state the resolution of `a`
left; the merge function is taken not to write fields of definitions.) -/
theorem transitive_invalidation (env : Env) (hm : env.MergeKeepsCtors) (hfr : env.MergeFresh)
    (fuel a b c : Nat) (st sA st1 : State) (cb0 cc0 cb cc : Ctor) (na oa r : Nat)
    (hb0 : st.ctors[b]? = some cb0) (hbs : cb0.super = some a)
    (hc0 : st.ctors[c]? = some cc0) (hcs : cc0.super = some b) (hbc : b ≠ c)
    (hA : resolveConstructorOptions env fuel a st = .ok (sA, na))
    (hb : sA.ctors[b]? = some cb) (hboa : cb.superOptions = some oa) (hne : na ≠ oa)
    (hc : sA.ctors[c]? = some cc) (hcso : cc.superOptions = some cb.options)
    (hbo : cb.options < sA.objs.length) (hco : cc.options < sA.objs.length)
    (h : resolveConstructorOptions env (fuel + 2) c st = .ok (st1, r)) :
    (∃ rb, st1.ctors[b]? = some { cb with superOptions := some na, options := rb } ∧
      st1.ctors[c]? = some { cc with superOptions := some rb, options := r } ∧
      sA.objs.length ≤ rb ∧ sA.objs.length ≤ r ∧ rb ≠ r ∧ rb ≠ cb.options ∧ r ≠ cc.options ∧
      st1.trace = sA.trace ++ [.mergeOptions na (.obj cb.extendOptions) none rb,
        .mergeOptions rb (.obj cc.extendOptions) none r]) ∧
    (∀ (ch : List Nat) (n d : Nat) (s s1 : State) (x : Nat),
      isSuperChain s (some d) ch = true → ch.Nodup →
      resolveConstructorOptions env n d s = .ok (s1, x) →
      ∀ (i : Nat) (ci : Ctor) (sup : Nat) (cs1 : Ctor), s.ctors[i]? = some ci →
        ci.super = some sup → s1.ctors[sup]? = some cs1 →
        ci.superOptions = some cs1.options → s1.ctors[i]? = some ci) := by
  refine ⟨?_, resolve_unchanged env hm⟩
  unfold resolveConstructorOptions at h
  simp only [(getCtor_ok st c cc0).mpr hc0, Res.bind, Res.ofExcept_ok, hcs] at h
  unfold resolveConstructorOptions at h
  have hne1 : some na ≠ cb.superOptions := by
    rw [hboa]; exact fun e => hne (Option.some.inj e)
  simp only [(getCtor_ok st b cb0).mpr hb0, Res.bind, Res.ofExcept_ok, hbs, hA,
    (getCtor_ok sA b cb).mpr hb, hne1, ne_eq, not_false_eq_true, if_true] at h
  cases hrb : recompute env b na sA with
  | throw x sx => simp [hrb] at h
  | diverge => simp [hrb] at h
  | ok x =>
    obtain ⟨sB, rb⟩ := x
    simp only [hrb] at h
    obtain ⟨cb1, hcb1, hctB, htrB, -⟩ := recompute_ok env hm b na sA sB rb hrb
    rw [hb] at hcb1
    simp only [Option.some.injEq] at hcb1
    subst hcb1
    obtain ⟨hfb1, hfb2⟩ := recompute_fresh env hm hfr b na sA sB rb hrb
    have hcB : sB.ctors[c]? = some cc := by
      rw [hctB, List.getElem?_set_ne hbc]; exact hc
    have hne2 : some rb ≠ cc.superOptions := by
      rw [hcso]
      intro e
      have := Option.some.inj e
      omega
    simp only [(getCtor_ok sB c cc).mpr hcB, Res.ofExcept_ok, hne2, ne_eq, not_false_eq_true,
      if_true] at h
    obtain ⟨cc1, hcc1, hctC, htrC, -⟩ := recompute_ok env hm c rb sB st1 r h
    rw [hcB] at hcc1
    simp only [Option.some.injEq] at hcc1
    subst hcc1
    obtain ⟨hfc1, hfc2⟩ := recompute_fresh env hm hfr c rb sB st1 r h
    refine ⟨rb, ?_, ?_, hfb1, by omega, by omega, by omega, by omega, ?_⟩
    · rw [hctC, List.getElem?_set_ne (fun e => hbc e.symm), hctB]
      simp [List.getElem?_set_self, getElem?_lt _ _ _ hb]
    · rw [hctC]
      simp [List.getElem?_set_self, getElem?_lt _ _ _ hcB]
    · rw [htrC, htrB]
      simp

/-- Witness for C18: `A`'s configuration was replaced by object 7; the resolution of `C`
recomputes `B`, whose configuration becomes the new object 8, and `C`, whose configuration
becomes the new object 9. -/
theorem transitive_invalidation_witness :
    resolveConstructorOptions mergeEnv 3 2 chainState = .ok (chainResolved, 9) ∧
    ∃ rb, chainResolved.ctors[1]? = some ⟨rb, some 0, some 7, 2, 3⟩ ∧
      chainResolved.ctors[2]? = some ⟨9, some 1, some rb, 5, 6⟩ ∧
      chainState.objs.length ≤ rb ∧ chainState.objs.length ≤ 9 ∧ rb ≠ 9 ∧ rb ≠ 1 ∧ 9 ≠ 4 ∧
      chainResolved.trace = chainState.trace ++
        [.mergeOptions 7 (.obj 2) none rb, .mergeOptions rb (.obj 5) none 9] :=
  ⟨by decide,
    (transitive_invalidation mergeEnv mergeEnv_keepsCtors mergeEnv_fresh 1 0 1 2 chainState
      chainState chainResolved ⟨1, some 0, some 0, 2, 3⟩ ⟨4, some 1, some 1, 5, 6⟩
      ⟨1, some 0, some 0, 2, 3⟩ ⟨4, some 1, some 1, 5, 6⟩ 7 0 9 (by decide) (by decide)
      (by decide) (by decide) (by decide) (by decide) (by decide) (by decide) (by decide)
      (by decide) (by decide) (by decide) (by decide) (by decide)).1⟩

/-! ## C19: the sealed snapshot is never rewritten -/

/-- C19: no call of `resolveConstructorOptions` that returns changes the `sealedOptions` of any
definition. So when a first invalidation has replaced the `options` of `d` by the merged object
`r1`, `d` still has the sealed snapshot it had, and in a later invalidation (the parent now
resolves to `p2`, not the cached `p`) the merge is given a heap in which every field the
`for in` loop visits on `r1` whose value is not identical to the value in that original
snapshot is an own entry of `extendOptions` with the value it has in `r1`, whoever put it
there. Also, a field that is not among the fields of the current `options` is never reported
by `resolveModifiedOptions`, whatever `sealedOptions` holds for it. (`sA` and `sB` are the
states the parent's resolutions left; the merge function is taken not to write fields of
definitions.) -/
theorem sealed_never_rewritten (env : Env) (hm : env.MergeKeepsCtors) (fuel d sup : Nat)
    (st sA st1 : State) (cd0 cd : Ctor) (p r1 : Nat)
    (hcd0 : st.ctors[d]? = some cd0) (hsup : cd0.super = some sup)
    (hrec : resolveConstructorOptions env fuel sup st = .ok (sA, p))
    (hcd : sA.ctors[d]? = some cd) (hnew : cd.superOptions ≠ some p)
    (h : resolveConstructorOptions env (fuel + 1) d st = .ok (st1, r1)) :
    (∀ (n e : Nat) (s s1 : State) (x : Nat),
      resolveConstructorOptions env n e s = .ok (s1, x) →
      ∀ i : Nat, (s1.ctors[i]?).map Ctor.sealedOptions = (s.ctors[i]?).map Ctor.sealedOptions) ∧
    st1.ctors[d]? = some { cd with superOptions := some p, options := r1 } ∧
    (∀ (fuel2 : Nat) (s sB s2 : State) (p2 r2 : Nat),
      s.ctors[d]? = st1.ctors[d]? →
      resolveConstructorOptions env fuel2 sup s = .ok (sB, p2) →
      sB.ctors[d]? = st1.ctors[d]? → p2 ≠ p → cd.extendOptions < sB.objs.length →
      resolveConstructorOptions env (fuel2 + 1) d s = .ok (s2, r2) →
      ∃ m0 s0, env.mergeOptions p2 (.obj cd.extendOptions) none m0 = .ok (s0, r2) ∧
        ∀ f, f ∈ forInKeys sB.objs r1 →
          getProp sB.objs r1 f ≠ getProp sB.objs cd.sealedOptions f →
          getOwn? (ownProps m0.objs cd.extendOptions) f = some (getProp sB.objs r1 f)) ∧
    (∀ (s : State) (c : Ctor) (k : Key) (m : List Property),
      k ∉ forInKeys s.objs c.options → resolveModifiedOptions s c = some m →
      getOwn? m k = none) := by
  have hne : some p ≠ cd.superOptions := fun e => hnew e.symm
  have hget : st1.ctors[d]? = some { cd with superOptions := some p, options := r1 } := by
    unfold resolveConstructorOptions at h
    simp only [(getCtor_ok st d cd0).mpr hcd0, Res.bind, Res.ofExcept_ok, hsup, hrec,
      (getCtor_ok sA d cd).mpr hcd, Res.ofExcept_ok, hne, ne_eq, not_false_eq_true,
      if_true] at h
    obtain ⟨c, hc, hct, -⟩ := recompute_ok env hm d p sA st1 r1 h
    rw [hcd] at hc
    simp only [Option.some.injEq] at hc
    subst hc
    rw [hct]
    simp [List.getElem?_set_self, getElem?_lt _ _ _ hcd]
  refine ⟨fun n e s s1 x hres i => ?_, hget, ?_, fun s c k m hk hmo => ?_⟩
  · have := resolve_keeps_links env hm n e s s1 x hres i
    cases h1 : s1.ctors[i]? <;> cases h0 : s.ctors[i]? <;>
      simp only [h1, h0, Option.map_some', Option.map_none', Option.some.injEq, Ctor.fixed,
        Prod.mk.injEq] at this ⊢ <;> first
        | contradiction
        | exact this.2.2
  · intro fuel2 s sB s2 p2 r2 hs hrec2 hsB hp2 hext h2
    rw [hget] at hs hsB
    have hne2 : some p2 ≠ some p := fun e => hp2 (Option.some.inj e)
    have hsup2 : cd.super = some sup := by
      have hfix := resolve_keeps_links env hm fuel sup st sA p hrec d
      simp only [hcd, hcd0, Option.map_some', Option.some.injEq, Ctor.fixed, Prod.mk.injEq]
        at hfix
      rw [hfix.1]; exact hsup
    unfold resolveConstructorOptions at h2
    simp only [(getCtor_ok s d _).mpr hs, Res.bind, Res.ofExcept_ok, hsup2, hrec2,
      (getCtor_ok sB d _).mpr hsB, hne2, ne_eq, not_false_eq_true, if_true] at h2
    obtain ⟨c, hc, -, -, m0, s0, ho, -, hmg, -⟩ := recompute_ok env hm d p2 sB s2 r2 h2
    rw [hsB] at hc
    simp only [Option.some.injEq] at hc
    subst hc
    refine ⟨m0, s0, hmg, fun f hf hd => ?_⟩
    rw [ho]
    have := (foldedObjs_own sB { cd with superOptions := some p, options := r1 } hext).1 f
    rw [this]
    simp [lateModified, hf, hd]
  · rw [resolveModifiedOptions_get s c m hmo k]
    simp [lateModified, hk]

/-- Witness for C19: `Child` was recomputed once and got `c: 3` from `Base`; its sealed
snapshot (object 3) is still the one without `c`. `Base`'s configuration is replaced again, now
with `c: 4`: the merge of the second recomputation is given `c: 3` as an own entry of `Child`'s
`extendOptions` (object 2), and the configuration it returns has `c` equal to 3. -/
theorem sealed_never_rewritten_witness :
    childRecomputed.ctors[1]? = some ⟨5, some 0, some 4, 2, 3⟩ ∧
    resolveConstructorOptions mergeEnv 2 1 replacedAgain = .ok (againResolved, 7) ∧
    getProp againResolved.objs 7 (.str "c") = .num 3 ∧
    (∃ m0 s0, mergeEnv.mergeOptions 6 (.obj 2) none m0 = .ok (s0, 7) ∧
      getOwn? (ownProps m0.objs 2) (.str "c") = some (.num 3)) := by
  have h := sealed_never_rewritten mergeEnv mergeEnv_keepsCtors 1 1 0 baseReplaced baseReplaced
    childRecomputed ⟨1, some 0, some 0, 2, 3⟩ ⟨1, some 0, some 0, 2, 3⟩ 4 5 (by decide)
    (by decide) (by decide) (by decide) (by decide) (by decide)
  obtain ⟨m0, s0, hmg, hf⟩ := h.2.2.1 1 replacedAgain replacedAgain againResolved 6 7
    (by decide) (by decide) (by decide) (by decide) (by decide) (by decide)
  exact ⟨by decide, by decide, by decide, m0, s0, hmg,
    (hf (.str "c") (by decide) (by decide)).trans (by decide)⟩


/-! ## `_init` around the injections: lemmas -/

theorem Res.bind_assoc {α β γ : Type} (r : Res α) (f : α → Res β) (g : β → Res γ) :
    (r.bind f).bind g = r.bind fun a => (f a).bind g := by
  cases r <;> rfl

/-- The method `_init` is its part before the injections, then `initInjections`, then its part
after them. -/
theorem init_split (env : Env) (fuel vm : Nat) (options : Val) (st : State) :
    _init env fuel vm options st =
      (initToInjections env fuel vm options st).bind fun sI =>
        (initInjections env fuel vm (sI.log (.initInjections vm))).bind
          (initAfterInjections env vm) := by
  simp only [_init, initRest, initToInjections, initAfterOptions, initToBeforeCreate,
    initAfterInjections, Res.bind_assoc]
  rfl

theorem preserved_modifyCtor {env : Env} {R : State → State → Prop} (hR : Preserved env R)
    (s : State) (d : Nat) (f : Ctor → Ctor) : R s (modifyCtor s d f) := by
  unfold Vue.modifyCtor
  cases s.ctors[d]? with
  | none => exact hR.refl s
  | some i => exact hR.ctors s _

theorem preserved_registerSelf {env : Env} {R : State → State → Prop} (hR : Preserved env R)
    (d o : Nat) (st : State) : (registerSelf d o st).Holds R st id := by
  unfold Vue.registerSelf
  simp only
  split
  · exact Res.Holds.bind (Res.Holds.ofExcept _ (hR.refl st)) fun objs _ => hR.objs st objs
  · exact hR.refl st

theorem preserved_recompute {env : Env} {R : State → State → Prop} (hR : Preserved env R)
    (d p : Nat) (st : State) : (recompute env d p st).Holds R st (fun a => a.1) := by
  unfold Vue.recompute
  simp only
  have h1 := preserved_modifyCtor hR st d fun c => { c with superOptions := some p }
  refine Res.Holds.bind (Res.Holds.ofExcept _ h1) fun c _ => ?_
  have h2 : R st (match resolveModifiedOptions
      (Vue.modifyCtor st d fun c => { c with superOptions := some p }) c with
    | some modifiedOptions =>
      { (Vue.modifyCtor st d fun c => { c with superOptions := some p }) with
        objs := extend (Vue.modifyCtor st d fun c => { c with superOptions := some p }).objs
          c.extendOptions modifiedOptions }
    | none => Vue.modifyCtor st d fun c => { c with superOptions := some p }) := by
    split
    · exact hR.trans _ _ _ h1 (hR.objs _ _)
    · exact h1
  refine Res.Holds.bind (Res.Holds.shift hR.trans h2 (hR.merge _ _ _ _)) fun a ha => ?_
  have h3 := hR.trans _ _ _ ha (preserved_modifyCtor hR a.1 d fun c => { c with options := a.2 })
  exact Res.Holds.bind (Res.Holds.shift hR.trans h3 (preserved_registerSelf hR d a.2 _)) fun s hs => hs

theorem preserved_resolveConstructorOptions {env : Env} {R : State → State → Prop}
    (hR : Preserved env R) :
    ∀ (fuel d : Nat) (st : State),
      (resolveConstructorOptions env fuel d st).Holds R st (fun a => a.1) := by
  intro fuel
  induction fuel with
  | zero => intro d st; trivial
  | succ n ih =>
    intro d st
    unfold Vue.resolveConstructorOptions
    refine Res.Holds.bind (Res.Holds.ofExcept _ (hR.refl st)) fun c _ => ?_
    simp only
    split
    · exact hR.refl st
    · refine Res.Holds.bind (ih _ st) fun a ha => ?_
      refine Res.Holds.bind (Res.Holds.ofExcept _ ha) fun c1 _ => ?_
      split
      · exact Res.Holds.shift hR.trans ha (preserved_recompute hR d a.2 a.1)
      · exact ha

theorem preserved_assign {env : Env} {R : State → State → Prop} (hR : Preserved env R)
    (s : State) (r : Nat) (k : Key) (v : Val) : R s (assign s r k v) :=
  hR.objs s _

theorem preserved_initInternalComponent {env : Env} {R : State → State → Prop}
    (hR : Preserved env R) (vm : Nat) (options : Val) (st : State) :
    (initInternalComponent vm options st).Holds R st id := by
  unfold Vue.initInternalComponent
  refine Res.Holds.bind (Res.Holds.ofExcept _ (hR.refl st)) fun inst _ => ?_
  refine Res.Holds.bind (Res.Holds.ofExcept _ (hR.refl st)) fun c _ => ?_
  simp only
  have h1 := hR.trans _ _ _ (hR.objs st (st.objs ++ [⟨some c.options, []⟩]))
    (hR.vm _ vm (fun i => { i with options := .obj st.objs.length }) (fun _ => rfl))
  refine Res.Holds.bind (Res.Holds.ofExcept _ h1) fun parentVnode _ => ?_
  refine Res.Holds.bind (Res.Holds.ofExcept _ h1) fun parent _ => ?_
  have h2 := hR.trans _ _ _ h1 (preserved_assign hR _ st.objs.length (.str "parent") parent)
  have h3 := hR.trans _ _ _ h2 (preserved_assign hR _ st.objs.length (.str "_parentVnode") parentVnode)
  refine Res.Holds.bind (Res.Holds.ofExcept _ h3) fun vco _ => ?_
  refine Res.Holds.bind (Res.Holds.ofExcept _ h3) fun propsData _ => ?_
  have h4 := hR.trans _ _ _ h3 (preserved_assign hR _ st.objs.length (.str "propsData") propsData)
  refine Res.Holds.bind (Res.Holds.ofExcept _ h4) fun listeners _ => ?_
  have h5 := hR.trans _ _ _ h4 (preserved_assign hR _ st.objs.length (.str "_parentListeners") listeners)
  refine Res.Holds.bind (Res.Holds.ofExcept _ h5) fun children _ => ?_
  have h6 := hR.trans _ _ _ h5 (preserved_assign hR _ st.objs.length (.str "_renderChildren") children)
  refine Res.Holds.bind (Res.Holds.ofExcept _ h6) fun tag _ => ?_
  have h7 := hR.trans _ _ _ h6 (preserved_assign hR _ st.objs.length (.str "_componentTag") tag)
  refine Res.Holds.bind (Res.Holds.ofExcept _ h7) fun render _ => ?_
  split
  · have h8 := hR.trans _ _ _ h7 (preserved_assign hR _ st.objs.length (.str "render") render)
    refine Res.Holds.bind (Res.Holds.ofExcept _ h8) fun srf _ => ?_
    exact hR.trans _ _ _ h8 (preserved_assign hR _ st.objs.length (.str "staticRenderFns") srf)
  · exact h7

theorem preserved_optionsOrEmpty {env : Env} {R : State → State → Prop} (hR : Preserved env R)
    (options : Val) (s : State) : R s (optionsOrEmpty options s).1 := by
  unfold Vue.optionsOrEmpty
  split
  · exact hR.refl s
  · exact hR.objs s _

theorem preserved_initOptions {env : Env} {R : State → State → Prop} (hR : Preserved env R)
    (fuel vm : Nat) (options : Val) (st : State) :
    (initOptions env fuel vm options st).Holds R st id := by
  unfold Vue.initOptions
  split
  · exact Res.Holds.shift hR.trans (hR.log st _) (preserved_initInternalComponent hR vm options _)
  · simp only
    have h0 := hR.log st (.resolveOptions vm false)
    refine Res.Holds.bind (Res.Holds.ofExcept _ h0) fun inst _ => ?_
    refine Res.Holds.bind
      (Res.Holds.shift hR.trans h0 (preserved_resolveConstructorOptions hR fuel _ _)) fun a ha => ?_
    have h1 := hR.trans _ _ _ ha (preserved_optionsOrEmpty hR options a.1)
    refine Res.Holds.bind (Res.Holds.shift hR.trans h1 (hR.merge _ _ _ _)) fun b hb => ?_
    exact hR.trans _ _ _ hb (hR.vm b.1 vm _ (fun _ => rfl))

theorem preserved_initToBeforeCreate {env : Env} {R : State → State → Prop}
    (hR : Preserved env R) (vm : Nat) (st : State) :
    (initToBeforeCreate env vm st).Holds R st id := by
  unfold Vue.initToBeforeCreate
  have hproxy : (if (!env.production) = true then
        (callExt env (.initProxy vm) st).bind fun (st1, _) => Res.ok st1
      else Res.ok (Vue.modifyVm st vm fun i => { i with _renderProxy := .vm vm })).Holds R st
        id := by
    split
    · exact Res.Holds.bind (hR.ext _ st) fun a ha => ha
    · exact hR.vm st vm _ (fun _ => rfl)
  refine Res.Holds.bind hproxy fun s1 h1 => ?_
  simp only [id] at h1
  have h2 := hR.trans _ _ _ h1
    (hR.vm s1 vm (fun i => { i with _self := .vm vm }) (fun _ => rfl))
  refine Res.Holds.bind (Res.Holds.shift hR.trans h2 (hR.ext _ _)) fun a3 h3 => ?_
  refine Res.Holds.bind (Res.Holds.shift hR.trans h3 (hR.ext _ _)) fun a4 h4 => ?_
  refine Res.Holds.bind (Res.Holds.shift hR.trans h4 (hR.ext _ _)) fun a5 h5 => ?_
  exact Res.Holds.bind (Res.Holds.shift hR.trans h5 (hR.ext _ _)) fun a6 h6 => h6

/-- A relation of this kind holds between the state before `_init` and every state its part
before the injections can leave. -/
theorem preserved_initToInjections {env : Env} {R : State → State → Prop}
    (hR : Preserved env R) (fuel vm : Nat) (options : Val) (st : State) :
    (initToInjections env fuel vm options st).Holds R st id := by
  unfold Vue.initToInjections
  have h0 : R st (assignUid vm st) := by
    unfold assignUid
    exact hR.trans _ _ _ (hR.counter st _ _) (hR.vm _ vm _ (fun _ => rfl))
  have h1 := hR.trans _ _ _ h0
    (hR.vm (assignUid vm st) vm (fun i => { i with _isVue := true }) (fun _ => rfl))
  refine Res.Holds.bind (Res.Holds.shift hR.trans h1 (preserved_initOptions hR fuel vm options _))
    fun s2 h2 => ?_
  simp only [id] at h2
  exact Res.Holds.shift hR.trans h2 (preserved_initToBeforeCreate hR vm s2)

theorem providedOf_modifyVm (vm : Nat) (s : State) (i : Nat) (f : Instance → Instance)
    (hf : ∀ x : Instance, (f x)._provided = x._provided) :
    providedOf vm (modifyVm s i f) = providedOf vm s := by
  unfold modifyVm providedOf
  cases hi : s.vms[i]? with
  | none => simp
  | some x =>
    simp only
    by_cases hv : vm = i
    · subst hv
      simp [hi, List.getElem?_set_self, getElem?_lt _ _ _ hi, hf]
    · rw [List.getElem?_set_ne (fun e => hv e.symm)]

/-- When the outside code does not assign the `_provided` of `vm`, "the map of `vm` is what it
was" is a relation every step before the injections respects. -/
theorem keepsProvided_preserved (env : Env) (vm : Nat) (hk : env.KeepsProvided vm) :
    Preserved env (fun a b => providedOf vm b = providedOf vm a) where
  refl := fun _ => rfl
  trans := fun _ _ _ h1 h2 => h2.trans h1
  objs := fun _ _ => rfl
  ctors := fun _ _ => rfl
  log := fun _ _ => rfl
  counter := fun _ _ _ => rfl
  vm := fun s i f hf => providedOf_modifyVm vm s i f hf
  ext := fun e s => by
    have := hk.1 e { s with trace := [] }
    unfold callExt
    cases hx : env.ext e { s with trace := [] } with
    | ok a => rw [hx] at this; exact this
    | throw x sx => rw [hx] at this; exact this
    | diverge => trivial
  merge := fun p c i s => by
    have := hk.2 p c i { s with trace := [] }
    unfold callMerge
    cases hx : env.mergeOptions p c i { s with trace := [] } with
    | ok a => rw [hx] at this; exact this
    | throw x sx => rw [hx] at this; exact this
    | diverge => trivial

theorem walk_holds {R : State → State → Prop} (hrefl : ∀ s, R s s) (st : State) (s : Val)
    (fuel : Nat) (src : Option Nat) : (walk st s fuel src).Holds R st (fun _ => st) := by
  induction fuel generalizing src with
  | zero => cases src <;> simp [walk, Res.Holds, hrefl]
  | succ n ih =>
    cases src with
    | none => simp [walk, Res.Holds, hrefl]
    | some i =>
      simp only [walk]
      cases st.vms[i]? with
      | none => simp [Res.Holds, hrefl]
      | some inst =>
        simp only
        split
        · simp [Res.Holds, hrefl]
        · exact ih _

theorem untouched_resolveInjectKey {env : Env} {vm : Nat} {R : State → State → Prop}
    (hR : Untouched env vm R) (fuel : Nat) (inject : Val) (key : Key) (st : State)
    (result : List Property) :
    (resolveInjectKey env fuel inject vm key st result).Holds R st (fun p => p.1) := by
  unfold Vue.resolveInjectKey
  split
  · exact hR.refl st
  · refine Res.Holds.bind (Res.Holds.ofExcept _ (hR.refl st)) fun decl _ => ?_
    refine Res.Holds.bind (Res.Holds.ofExcept _ (hR.refl st)) fun provideKey _ => ?_
    refine Res.Holds.bind (walk_holds hR.refl st _ _ _) fun found _ => ?_
    cases found with
    | some iv => exact hR.refl st
    | none =>
      refine Res.Holds.bind (Res.Holds.ofExcept _ (hR.refl st)) fun hasDefault _ => ?_
      split
      · refine Res.Holds.bind (Res.Holds.ofExcept _ (hR.refl st)) fun d _ => ?_
        split
        · exact Res.Holds.bind (hR.call _ st) fun a ha => ha
        · exact hR.refl st
      · split
        · refine Res.Holds.bind (Res.Holds.ofExcept _ (hR.refl st)) fun name _ => ?_
          exact hR.log st _
        · exact hR.refl st

theorem untouched_resolveInjectLoop {env : Env} {vm : Nat} {R : State → State → Prop}
    (hR : Untouched env vm R) (fuel : Nat) (inject : Val) :
    ∀ (keys : List Key) (st : State) (result : List Property),
      (resolveInjectLoop env fuel inject vm keys st result).Holds R st (fun p => p.1) := by
  intro keys
  induction keys with
  | nil => intro st result; exact hR.refl st
  | cons key keys ih =>
    intro st result
    unfold Vue.resolveInjectLoop
    exact Res.Holds.bind (untouched_resolveInjectKey hR fuel inject key st result)
      fun a ha => Res.Holds.shift hR.trans ha (ih a.1 a.2)

/-- Whatever `resolveInject` changes is changed by a default producer or is the history: a
relation the producers respect holds between the state before the call and every state the
call can leave. -/
theorem untouched_resolveInject {env : Env} {vm : Nat} {R : State → State → Prop}
    (hR : Untouched env vm R) (fuel : Nat) (inject : Val) (st : State) :
    (resolveInject env fuel inject vm st).Holds R st (fun p => p.1) := by
  unfold Vue.resolveInject
  split
  · refine Res.Holds.bind (Res.Holds.ofExcept _ (hR.refl st)) fun keys _ => ?_
    exact Res.Holds.bind (untouched_resolveInjectLoop hR fuel inject keys st []) fun a ha => ha
  · exact hR.refl st

/-- With producers that leave the heap, the definitions and the instances as they are, "the
heap, the definitions and the instances are what they were" is such a relation. -/
theorem untouched_of_quiet (env : Env) (vm : Nat)
    (hq : ∀ f s, (env.ext (.call f vm) s).Holds
      (fun a b => b.objs = a.objs ∧ b.ctors = a.ctors ∧ b.vms = a.vms) s (fun p => p.1)) :
    Untouched env vm (fun a b => b.objs = a.objs ∧ b.ctors = a.ctors ∧ b.vms = a.vms) where
  refl := fun _ => ⟨rfl, rfl, rfl⟩
  trans := fun _ _ _ h1 h2 =>
    ⟨h2.1.trans h1.1, h2.2.1.trans h1.2.1, h2.2.2.trans h1.2.2⟩
  log := fun _ _ => ⟨rfl, rfl, rfl⟩
  call := fun f s => by
    have := hq f { s with trace := [] }
    unfold callExt
    cases hx : env.ext (.call f vm) { s with trace := [] } with
    | ok a => rw [hx] at this; exact this
    | throw x sx => rw [hx] at this; exact this
    | diverge => trivial

theorem firstProvider_skip (st : State) (k : Key) (vm : Nat) (c : List Nat)
    (h : providedOf vm st = some .undefined) :
    firstProvider st k (vm :: c) = firstProvider st k c := by
  have hp : provided st vm k = none := by
    unfold providedOf at h
    unfold provided
    cases hv : st.vms[vm]? with
    | none => rfl
    | some inst =>
      simp only [hv, Option.map_some', Option.some.injEq] at h
      simp only [h, entryOf]
  simp only [firstProvider, hp]

/-- Every mapping `resolveInject` returns binds a declared key other than `'__ob__'` to the
value of the first provider of its source key on the chain. -/
theorem resolveInject_binds_first (env : Env) (hpure : env.CallsPure) (fuel : Nat)
    (st st1 : State) (inj vm : Nat) (k : Key) (decl s : Val) (c : List Nat) (i : Nat) (v : Val)
    (res : Option (List Property))
    (hkey : k ∈ declaredKeys env st.objs inj) (hk : k ≠ .str "__ob__")
    (hdecl : getV st.objs (.obj inj) k = .ok decl)
    (hfrom : getV st.objs decl (.str "from") = .ok s)
    (hchain : isChain st (some vm) c = true) (hfuel : c.length < fuel)
    (hprov : firstProvider st (toKey s) c = some (i, v))
    (hret : resolveInject env fuel (.obj inj) vm st = .ok (st1, res)) :
    ∃ result, res = some result ∧ getOwn? result k = some v := by
  have hbody : ∀ st2 result, st2.objs = st.objs → st2.vms = st.vms →
      resolveInjectKey env fuel (.obj inj) vm k st2 result = .ok (st2, setOwn result k v) := by
    intro st2 result ho hv
    apply resolveInjectKey_found env fuel (.obj inj) vm k st2 result decl s i v hk
    · rw [ho]; exact hdecl
    · rw [ho]; exact hfrom
    · rw [walk_congr st st2 ho hv, walk_chain st s c fuel (some vm) hchain hfuel, hprov]
  obtain ⟨result, hres, hloop⟩ := resolveInject_obj env fuel inj vm st st1 res hret
  refine ⟨result, hres, ?_⟩
  obtain ⟨w, hw, hget⟩ := resolveInjectLoop_binds env hpure fuel (.obj inj) vm k (fun w => w = v)
    st (fun st2 r2 st3 r3 ho hv hb => ⟨v, rfl, by
      rw [hbody st2 r2 ho hv] at hb
      simp only [Res.ok.injEq, Prod.mk.injEq] at hb
      exact hb.2.symm⟩) _ st [] st1 result rfl rfl hloop (Or.inl hkey)
  rw [hget, hw]

theorem isChain_self (st : State) (vm : Nat) (inst : Instance) (c : List Nat)
    (hv : st.vms[vm]? = some inst) (hc : isChain st inst.parent c = true) :
    isChain st (some vm) (vm :: c) = true := by
  simp [isChain, hv, hc]

theorem isChain_log (st : State) (e : Event) (src : Option Nat) (c : List Nat) :
    isChain (st.log e) src c = isChain st src c := by
  induction c generalizing src with
  | nil => cases src <;> simp [isChain]
  | cons j rest ih =>
    cases src with
    | none => simp [isChain]
    | some i =>
      simp only [isChain, State.log]
      cases st.vms[i]? with
      | none => rfl
      | some inst =>
        simp only
        rw [← ih inst.parent]
        rfl

theorem firstProvider_log (st : State) (e : Event) (k : Key) (c : List Nat) :
    firstProvider (st.log e) k c = firstProvider st k c := by
  induction c with
  | nil => rfl
  | cons j rest ih =>
    simp only [firstProvider, ih]
    rfl

/-! ## C20: an instance does not inject what it provides itself -/

/-- C20: let `_init` run on an instance `vm` whose provided-values map is not yet set, with
outside code that does not assign the `_provided` of the instance, and return. Then the run is
the part before the injections, which leaves a state `sI`, then `initInjections` from `sI`,
then the part after the injections, which is where `initProvide` is; and in `sI` the
provided-values map of `vm` is still unset. So for every source key the walk of
`resolveInject`, though it starts at `vm`, returns the first provider among the strict
ancestors of `vm` (`c` is the chain from `$parent` upwards), or nothing when none of them
provides the key; with producers that leave the heap and the instances as they are, every
mapping `resolveInject` returns in that state binds a declared key to the value of that strict
ancestor, whatever the configuration of `vm` declares as `provide`. In addition,
`resolveInject` writes nothing itself: a relation between states that ignores the history and
that the default producers respect holds between the state before the call and every state
the call can leave; so with producers that leave the heap, the definitions and the instances
as they are, these are after the call what they were before. -/
theorem own_provide_not_visible (env : Env) (fuel vm : Nat) (options : Val) (st st1 : State)
    (hkeep : env.KeepsProvided vm) (hfresh : providedOf vm st = some .undefined)
    (h : _init env fuel vm options st = .ok st1) :
    (∃ sI sJ, initToInjections env fuel vm options st = .ok sI ∧
      initInjections env fuel vm (sI.log (.initInjections vm)) = .ok sJ ∧
      initAfterInjections env vm sJ = .ok st1 ∧
      providedOf vm sI = some .undefined ∧
      (∀ (instI : Instance) (c : List Nat) (key : Val), sI.vms[vm]? = some instI →
        isChain sI instI.parent c = true → c.length + 1 < fuel →
        walk (sI.log (.initInjections vm)) key fuel (some vm) =
          .ok (firstProvider sI (toKey key) c)) ∧
      (env.CallsPure → ∀ (instI : Instance) (c : List Nat) (inj : Nat) (k : Key) (decl s : Val)
          (i : Nat) (v : Val) (sR : State) (res : Option (List Property)),
        sI.vms[vm]? = some instI → isChain sI instI.parent c = true → c.length + 1 < fuel →
        k ∈ declaredKeys env sI.objs inj → k ≠ .str "__ob__" →
        getV sI.objs (.obj inj) k = .ok decl → getV sI.objs decl (.str "from") = .ok s →
        firstProvider sI (toKey s) c = some (i, v) →
        resolveInject env fuel (.obj inj) vm (sI.log (.initInjections vm)) = .ok (sR, res) →
        ∃ result, res = some result ∧ getOwn? result k = some v)) ∧
    (∀ (R : State → State → Prop), Untouched env vm R → ∀ (n : Nat) (inject : Val) (s : State),
      (resolveInject env n inject vm s).Holds R s (fun p => p.1)) ∧
    ((∀ f s, (env.ext (.call f vm) s).Holds
        (fun a b => b.objs = a.objs ∧ b.ctors = a.ctors ∧ b.vms = a.vms) s (fun p => p.1)) →
      ∀ (n : Nat) (inject : Val) (s s1 : State) (res : Option (List Property)),
        resolveInject env n inject vm s = .ok (s1, res) →
        s1.objs = s.objs ∧ s1.ctors = s.ctors ∧ s1.vms = s.vms) := by
  refine ⟨?_, fun R hR n inject s => untouched_resolveInject hR n inject s, fun hq n inject s s1 res hr => ?_⟩
  · rw [init_split] at h
    obtain ⟨sI, hI, h⟩ := Res.bind_ok h
    obtain ⟨sJ, hJ, h⟩ := Res.bind_ok h
    have hp : providedOf vm sI = some .undefined := by
      have := preserved_initToInjections (keepsProvided_preserved env vm hkeep) fuel vm options st
      rw [hI] at this
      exact this.trans hfresh
    have hwalk : ∀ (instI : Instance) (c : List Nat) (key : Val), sI.vms[vm]? = some instI →
        isChain sI instI.parent c = true → c.length + 1 < fuel →
        walk sI key fuel (some vm) = .ok (firstProvider sI (toKey key) c) := by
      intro instI c key hv hc hf
      rw [walk_chain sI key (vm :: c) fuel (some vm) (isChain_self sI vm instI c hv hc)
        (by simpa using hf), firstProvider_skip sI _ vm c hp]
    refine ⟨sI, sJ, hI, hJ, h, hp, fun instI c key hv hc hf => ?_, ?_⟩
    · rw [walk_congr sI (sI.log (.initInjections vm)) rfl rfl]
      exact hwalk instI c key hv hc hf
    · intro hpure instI c inj k decl s i v sR res hv hc hf hkey hk hdecl hfrom hprov hret
      refine resolveInject_binds_first env hpure fuel (sI.log (.initInjections vm)) sR inj vm k
        decl s (vm :: c) i v res hkey hk hdecl hfrom ?_ (by simpa using hf) ?_ hret
      · rw [isChain_log]
        exact isChain_self sI vm instI c hv hc
      · rw [firstProvider_log, firstProvider_skip sI _ vm c hp]
        exact hprov
  · have := untouched_resolveInject (untouched_of_quiet env vm hq) n inject s
    rw [hr] at this
    exact this

theorem familyEnv_keepsProvided (vm : Nat) : familyEnv.KeepsProvided vm := by
  constructor
  · intro e s
    simp only [familyEnv]
    split
    · exact providedOf_modifyVm vm s _ _ (fun _ => rfl)
    · rfl
    · rfl
  · intro p c i s
    simp only [familyEnv, mergeDefault, Res.Holds]
    rfl

/-- Witness for C20: instance 1 injects `foo` from `x` and provides `{x: 99}`; its parent, the
root, provides `{x: 1}`. When `_init` has run, `foo` has been installed with the value 1, the
root's, and the provided-values map of the instance is its own `{x: 99}` (object 4), set after
the injections were resolved. -/
theorem own_provide_not_visible_witness :
    _init familyEnv 5 1 .undefined familyState = .ok familyDone ∧
    Event.defineReactive 1 (.str "foo") (.num 1) true ∈ familyDone.trace ∧
    providedOf 1 familyDone = some (.obj 4) ∧
    ∃ sI sJ, initToInjections familyEnv 5 1 .undefined familyState = .ok sI ∧
      initInjections familyEnv 5 1 (sI.log (.initInjections 1)) = .ok sJ ∧
      initAfterInjections familyEnv 1 sJ = .ok familyDone ∧
      providedOf 1 sI = some .undefined := by
  obtain ⟨sI, sJ, h1, h2, h3, h4, -⟩ := (own_provide_not_visible familyEnv 5 1 .undefined
    familyState familyDone (familyEnv_keepsProvided 1) (by decide) (by decide)).1
  exact ⟨by decide, by decide, by decide, sI, sJ, h1, h2, h3, h4⟩

end Vue
